import Mathlib

/-!
# DTMF wave-file generator (`fmc3877_proj4_dtmf.c`)

A shallow embedding of `main` and `get_freqs`, and the properties of the
written file that the specification states.

* C `int` arithmetic is arithmetic on `Int` wrapped to 32 bits (`wrapInt32`);
  stores into `uint16_t` / `uint32_t` fields reduce modulo `2 ^ 16` / `2 ^ 32`.
* A C `double` is a `CDouble`: NaN, an infinity, or a finite dyadic value; the
  operations `*`, `+`, `/` round to nearest, ties to even, as IEEE-754 binary64 does.
* What the C library and the operating system decide (`atof`, `sin`, `malloc`,
  `fopen`) is an `Env`.
* The constants `SAMPLE_RATE` and `AMPLITUDE` of the absent `cabeee_wavefile.h`
  are the fields of `WaveConsts`; the constants the specification fixes
  (`PCM_FORMAT`, `NUM_CHANNELS`, `BYTES_PER_SAMPLE`, the 44 bytes of `WAVEFILE`) are
  definitions.
* The counters `i`, `n` and `sampleIndex` are natural numbers: they are bounded by the
  length of an argument string and by the number of cells of the buffer.
* The results of `fwrite` and `fclose`, which `main` does not test, are not modelled:
  `Outcome.wrote` records what `main` passes to `fwrite`.
-/

namespace DTMF

/-! ## C doubles -/

/-- A C `double` (IEEE-754 binary64): not-a-number, an infinity, or the finite value
`m * 2 ^ e`. Signed zeros are not distinguished. -/
inductive CDouble where
  | nan
  | inf (negative : Bool)
  | fin (m : Int) (e : Int)
  deriving DecidableEq, Repr

/-- Number of binary digits of `n`, by halving at most `fuel` times. -/
def bitLenAux : Nat → Nat → Nat
  | 0, _ => 0
  | fuel + 1, n => if n = 0 then 0 else bitLenAux fuel (n / 2) + 1

/-- Number of binary digits of `n` (`0` for `n = 0`). -/
def bitLen (n : Nat) : Nat := bitLenAux n n

/-- Round the dyadic number `m * 2 ^ e` to the nearest binary64 value, ties to even:
53 significant bits, least exponent `-1074`, overflow to an infinity. -/
def roundBinary64 (m : Int) (e : Int) : CDouble :=
  let a := m.natAbs
  if a = 0 then .fin 0 0 else
  let bits : Int := (bitLen a : Int)
  let target : Int := max (e + bits - 53) (-1074)
  if target ≤ e then
    if 1024 < e + bits then .inf (decide (m < 0)) else .fin m e
  else
    let k := (target - e).toNat
    let q := a / 2 ^ k
    let r := a % 2 ^ k
    let half := 2 ^ (k - 1)
    let q1 := if half < r ∨ (r = half ∧ q % 2 = 1) then q + 1 else q
    if 1024 < target + (bitLen q1 : Int) then .inf (decide (m < 0))
    else .fin (if m < 0 then -(q1 : Int) else (q1 : Int)) target

/-- Round the rational `n / d * 2 ^ e` (with `0 < d`) to the nearest binary64 value:
the quotient is taken to more than 64 bits, with a sticky bit for the remainder. -/
def roundRatBinary64 (n : Int) (d : Nat) (e : Int) : CDouble :=
  let a := n.natAbs
  let s := 64 + bitLen d
  let q := (a * 2 ^ s) / d
  let sticky := if (a * 2 ^ s) % d = 0 then 0 else 1
  let m : Int := ((2 * q + sticky : Nat) : Int)
  roundBinary64 (if n < 0 then -m else m) (e - (s : Int) - 1)

namespace CDouble

/-- Conversion of a C integer to `double`. -/
def ofInt (i : Int) : CDouble := roundBinary64 i 0

/-- The C comparison `x < y` on doubles; false whenever an operand is NaN. -/
def lt : CDouble → CDouble → Bool
  | .fin m1 e1, .fin m2 e2 =>
    let e := min e1 e2
    decide (m1 * 2 ^ (e1 - e).toNat < m2 * 2 ^ (e2 - e).toNat)
  | .inf true, .fin _ _ => true
  | .inf true, .inf false => true
  | .fin _ _, .inf false => true
  | _, _ => false

/-- The C comparison `x > y` on doubles. -/
def gt (x y : CDouble) : Bool := lt y x

/-- The C product `x * y` of doubles. -/
def mul : CDouble → CDouble → CDouble
  | .nan, _ => .nan
  | _, .nan => .nan
  | .inf s, .inf t => .inf (s != t)
  | .inf s, .fin m _ => if m = 0 then .nan else .inf (s != decide (m < 0))
  | .fin m _, .inf s => if m = 0 then .nan else .inf (s != decide (m < 0))
  | .fin m1 e1, .fin m2 e2 => roundBinary64 (m1 * m2) (e1 + e2)

/-- The C sum `x + y` of doubles. -/
def add : CDouble → CDouble → CDouble
  | .nan, _ => .nan
  | _, .nan => .nan
  | .inf s, .inf t => if s = t then .inf s else .nan
  | .inf s, .fin _ _ => .inf s
  | .fin _ _, .inf s => .inf s
  | .fin m1 e1, .fin m2 e2 =>
    let e := min e1 e2
    roundBinary64 (m1 * 2 ^ (e1 - e).toNat + m2 * 2 ^ (e2 - e).toNat) e

/-- The C quotient `x / y` of doubles (a zero divisor counts as `+0`). -/
def div : CDouble → CDouble → CDouble
  | .nan, _ => .nan
  | _, .nan => .nan
  | .inf _, .inf _ => .nan
  | .inf s, .fin m _ => .inf (s != decide (m < 0))
  | .fin _ _, .inf _ => .fin 0 0
  | .fin m1 e1, .fin m2 e2 =>
    if m2 = 0 then (if m1 = 0 then .nan else .inf (decide (m1 < 0)))
    else roundRatBinary64 (if m2 < 0 then -m1 else m1) m2.natAbs (e1 - e2)

/-- The integer part of a finite double (truncation toward zero). -/
def trunc (m : Int) (e : Int) : Int :=
  if 0 ≤ e then m * 2 ^ e.toNat
  else if m < 0 then -((m.natAbs / 2 ^ (-e).toNat : Nat) : Int)
  else ((m.natAbs / 2 ^ (-e).toNat : Nat) : Int)

/-- A C cast of a double to a signed integer type with range `lo .. hi`: the value
truncated toward zero; `none` (undefined behaviour) when the operand is NaN or
infinite or the truncated value is out of the range. -/
def toIntRange (lo hi : Int) : CDouble → Option Int
  | .fin m e => if lo ≤ trunc m e ∧ trunc m e ≤ hi then some (trunc m e) else none
  | _ => none

end CDouble

/-- The value of a decimal literal `n / d` of the source, as a `double`. -/
def literal (n : Int) (d : Nat) : CDouble := roundRatBinary64 n d 0

/-! ## C integers -/

/-- The value of an `int` computation: the two-complement 32-bit value of `x`. -/
def wrapInt32 (x : Int) : Int := (x + 2 ^ 31) % 2 ^ 32 - 2 ^ 31

/-- Conversion to `uint32_t`. -/
def toUInt32 (x : Int) : Int := x % 2 ^ 32

/-- Conversion to `uint16_t`. -/
def toUInt16 (x : Int) : Int := x % 2 ^ 16

/-- Conversion to `size_t` (64 bits, as on the LP64 and LLP64 platforms). -/
def toSizeT (x : Int) : Nat := (x % 2 ^ 64).toNat

/-- The cast `(int)` of a double. -/
def castInt (x : CDouble) : Option Int := CDouble.toIntRange (-(2 ^ 31)) (2 ^ 31 - 1) x

/-- The cast `(int16_t)` of a double. -/
def castInt16 (x : CDouble) : Option Int := CDouble.toIntRange (-(2 ^ 15)) (2 ^ 15 - 1) x

/-! ## The constants and the header record of `cabeee_wavefile.h` -/

/-- The two constants of `cabeee_wavefile.h` that the specification leaves open
("fixed constant (e.g., 44100 Hz)", "amplitude"). -/
structure WaveConsts where
  SAMPLE_RATE : Int
  AMPLITUDE : CDouble
  deriving DecidableEq, Repr

/-- Modelled from the spec: the macro `PCM_FORMAT` of the absent `cabeee_wavefile.h`
("audioFormat: 1 (integer PCM)"). -/
def PCM_FORMAT : Int := 1

/-- Modelled from the spec: the macro `NUM_CHANNELS` of the absent `cabeee_wavefile.h`
("numChannels: 1 (mono)"). -/
def NUM_CHANNELS : Int := 1

/-- Modelled from the spec: the macro `BYTES_PER_SAMPLE` of the absent
`cabeee_wavefile.h` ("raw 16-bit little-endian mono samples"). -/
def BYTES_PER_SAMPLE : Int := 2

/-- Modelled from the spec: `sizeof(WAVEFILE)` for the absent declaration of the type
in `cabeee_wavefile.h` ("fixed 44-byte-equivalent record", "44-byte header"). -/
def sizeofWAVEFILE : Nat := 44

/-- Modelled from the spec: the record `WAVEFILE` of the absent `cabeee_wavefile.h`,
with the field names that `main` assigns. The four tags are arrays of four `char`;
`AudioFormat`, `NumChannels`, `BlockAlign`, `BitsPerSample` are `uint16_t` and the
other numbers `uint32_t`. -/
structure WAVEFILE where
  ChunkID : List Char
  ChunkSize : Int
  Format : List Char
  SubChunk1ID : List Char
  SubChunk1Size : Int
  AudioFormat : Int
  NumChannels : Int
  SampleRate : Int
  ByteRate : Int
  BlockAlign : Int
  BitsPerSample : Int
  SubChunk2ID : List Char
  SubChunk2Size : Int
  deriving DecidableEq, Repr

/-! ## The environment of a run -/

/-- What the C library and the operating system contribute to one run of `main`:
the value `atof` parses from a string, the `sin` of the math library, whether the
two `malloc` calls succeed, and whether `fopen(path, "wb")` succeeds. -/
structure Env where
  atof : List Char → CDouble
  sin : CDouble → CDouble
  headerAlloc : Bool
  dataAlloc : Nat → Bool
  fopenOk : List Char → Bool

/-! ## `get_freqs` and `show_usage` -/

/-- The function `get_freqs`: the pair `(*f1, *f2)` stored for the character `c`. -/
def get_freqs (c : Char) : Int × Int :=
  if c = '1' then (697, 1209)
  else if c = '2' then (697, 1336)
  else if c = '3' then (697, 1477)
  else if c = '4' then (770, 1209)
  else if c = '5' then (770, 1336)
  else if c = '6' then (770, 1477)
  else if c = '7' then (852, 1209)
  else if c = '8' then (852, 1336)
  else if c = '9' then (852, 1477)
  else if c = '*' then (941, 1209)
  else if c = '0' then (941, 1336)
  else if c = '#' then (941, 1477)
  else if c = '-' then (0, 0)
  else (0, 0)

/-- The lines `show_usage` prints. -/
def show_usage : List String :=
  ["\nUsage: ./fmc3877_proj4_dtmf.exe X Y Z\n\n",
   " Where X is the name of the Wave file to create\n",
   " Where Y is the duration (in seconds) of each dtmf tone,\n",
   "         valid range is 0.1 - 1.0\n",
   " Where Z is the string of digits to create tones for, valid\n",
   "         digits are 0-9, #, * and - for a duration of silence\n",
   "\nExample: ./fmc3877_proj4_dtmf.exe wavy.wav 0.3 123-3831\n\n"]

/-! ## `main`, step by step -/

/-- The test of step 8: `toneLength < 0.1 || toneLength > 1.0`. -/
def toneLengthRejected (toneLength : CDouble) : Bool :=
  CDouble.lt toneLength (literal 1 10) || CDouble.gt toneLength (literal 1 1)

/-- The character test of step 7:
`(c >= '0' && c <= '9') || c == '-' || c == '*' || c == '#'`. -/
def isDtmfChar (c : Char) : Bool :=
  (decide ('0' ≤ c) && decide (c ≤ '9')) || c == '-' || c == '*' || c == '#'

/-- How the scan of the digit string ends: at index `i` with a call of `show_usage`, or
at the terminating NUL with `numDigits`. -/
inductive ScanResult where
  | rejectedAt (i : Nat)
  | accepted (numDigits : Nat)
  deriving DecidableEq, Repr

/-- The `while` loop of step 7, started at index `i`, on the characters from index `i`
to the terminating NUL. A C string is the list of its characters before the NUL. -/
def scanDigits : List Char → Nat → ScanResult
  | [], i => .accepted i
  | c :: rest, i => if !(isDtmfChar c) then .rejectedAt i else scanDigits rest (i + 1)

/-- The assignments of step 10 and of lines 100-103: the header for the given
`totalBytes`. The sum for `ChunkSize` has an `uint32_t` operand, so it is unsigned
32-bit arithmetic. -/
def buildHeader (k : WaveConsts) (totalBytes : Int) : WAVEFILE :=
  let subChunk1Size : Int := toUInt32 16
  let blockAlign : Int := toUInt16 (wrapInt32 (NUM_CHANNELS * BYTES_PER_SAMPLE))
  let subChunk2Size : Int := toUInt32 totalBytes
  { ChunkID := ['R', 'I', 'F', 'F'],
    Format := ['W', 'A', 'V', 'E'],
    SubChunk1ID := ['f', 'm', 't', ' '],
    SubChunk1Size := subChunk1Size,
    AudioFormat := toUInt16 PCM_FORMAT,
    NumChannels := toUInt16 NUM_CHANNELS,
    SampleRate := toUInt32 k.SAMPLE_RATE,
    BitsPerSample := toUInt16 (wrapInt32 (BYTES_PER_SAMPLE * 8)),
    BlockAlign := blockAlign,
    ByteRate := toUInt32 (wrapInt32 (k.SAMPLE_RATE * blockAlign)),
    SubChunk2ID := ['d', 'a', 't', 'a'],
    SubChunk2Size := subChunk2Size,
    ChunkSize := toUInt32 (toUInt32 (4 + toUInt32 (8 + subChunk1Size))
      + toUInt32 (8 + subChunk2Size)) }

/-- Line 96: `(int)(SAMPLE_RATE * toneLength)`; `none` when the cast is undefined. -/
def samplesPerDigitOf (k : WaveConsts) (toneLength : CDouble) : Option Int :=
  castInt (CDouble.mul (CDouble.ofInt k.SAMPLE_RATE) toneLength)

/-- Line 97: `samplesPerDigit * numDigits` in `int`. -/
def totalSamplesOf (samplesPerDigit : Int) (numDigits : Nat) : Int :=
  wrapInt32 (samplesPerDigit * (numDigits : Int))

/-- Line 98: `totalSamples * BYTES_PER_SAMPLE` in `int`. -/
def totalBytesOf (samplesPerDigit : Int) (numDigits : Nat) : Int :=
  wrapInt32 (totalSamplesOf samplesPerDigit numDigits * BYTES_PER_SAMPLE)

/-- The constant `PI` of line 131. -/
def PI : CDouble := literal 3141592653589793 (10 ^ 15)

/-- Lines 125-136: the `double sampleValue` of sample `n` of a tone `(f1, f2)`. -/
def sampleValue (env : Env) (k : WaveConsts) (f1 f2 : Int) (n : Int) : CDouble :=
  if f1 = 0 ∧ f2 = 0 then literal 0 1
  else
    CDouble.mul k.AMPLITUDE
      (CDouble.add
        (env.sin (CDouble.div
          (CDouble.mul (CDouble.mul (CDouble.mul (literal 2 1) PI) (CDouble.ofInt f1))
            (CDouble.ofInt n))
          (CDouble.ofInt k.SAMPLE_RATE)))
        (env.sin (CDouble.div
          (CDouble.mul (CDouble.mul (CDouble.mul (literal 2 1) PI) (CDouble.ofInt f2))
            (CDouble.ofInt n))
          (CDouble.ofInt k.SAMPLE_RATE))))

/-- The sample buffer while it is filled: the cells of `dataSamplesPtr` (`none` for a
cell not yet assigned; as many cells as the allocation holds) and `sampleIndex`; and,
as a record of the run that is no variable of the program, the indices of the cells
assigned so far, in the order of the assignments. -/
structure GenState where
  cells : List (Option Int)
  sampleIndex : Nat
  stores : List Nat
  deriving DecidableEq, Repr

/-- Lines 138-139: `dataSamplesPtr[sampleIndex] = (int16_t) sampleValue; sampleIndex++`.
It is `none` (undefined behaviour) when the cast is undefined or the cell is outside
the allocation. -/
def storeSample (st : GenState) (v : CDouble) : Option GenState :=
  match castInt16 v with
  | none => none
  | some s =>
    if st.sampleIndex < st.cells.length then
      some { cells := st.cells.set st.sampleIndex (some s),
             sampleIndex := st.sampleIndex + 1,
             stores := st.stores ++ [st.sampleIndex] }
    else none

/-- The inner `for` loop (lines 121-140) from the value `n` of its counter, with
`remaining` iterations to go. -/
def innerLoop (env : Env) (k : WaveConsts) (f1 f2 : Int) :
    Nat → Int → GenState → Option GenState
  | 0, _, st => some st
  | remaining + 1, n, st =>
    match storeSample st (sampleValue env k f1 f2 n) with
    | none => none
    | some st1 => innerLoop env k f1 f2 remaining (n + 1) st1

/-- The character `s[i]` of a C string; the terminating NUL at its end. -/
def charAt (s : List Char) (i : Nat) : Char := s.getD i (Char.ofNat 0)

/-- The outer `for` loop (lines 115-141) from the value `i` of its counter, with
`remaining` iterations to go. -/
def outerLoop (env : Env) (k : WaveConsts) (phoneString : List Char) (samplesPerDigit : Int) :
    Nat → Nat → GenState → Option GenState
  | 0, _, st => some st
  | remaining + 1, i, st =>
    let c := charAt phoneString i
    let f := get_freqs c
    match innerLoop env k f.1 f.2 samplesPerDigit.toNat 0 st with
    | none => none
    | some st1 => outerLoop env k phoneString samplesPerDigit remaining (i + 1) st1

/-- Step 12: the buffer of `bytes` bytes after both loops. -/
def generate (env : Env) (k : WaveConsts) (phoneString : List Char) (numDigits : Nat)
    (samplesPerDigit : Int) (bytes : Nat) : Option GenState :=
  outerLoop env k phoneString samplesPerDigit numDigits 0
    { cells := List.replicate (bytes / 2) none, sampleIndex := 0, stores := [] }

/-- What one run of `main` does. -/
inductive Outcome where
  /-- The usage is shown: `show_usage(); return -1;` -/
  | usage
  /-- A `malloc` returned `NULL`: `return -1;` without a file. -/
  | allocFailed
  /-- The call of `fopen` returned `NULL`: `return -1;` -/
  | openFailed
  /-- Undefined behaviour: an undefined cast or a store outside the buffer. -/
  | undefined
  /-- The two `fwrite` calls on the file `path`: `headerBytes` bytes of the header
  record, then the first `dataBytes` bytes of the sample buffer; `return 0;` -/
  | wrote (path : List Char) (header : WAVEFILE) (headerBytes : Nat)
      (cells : List (Option Int)) (dataBytes : Nat)
  deriving DecidableEq, Repr

/-- The local variables of `main` after line 103, when it gets that far. -/
structure Prepared where
  toneLength : CDouble
  phoneString : List Char
  numDigits : Nat
  samplesPerDigit : Int
  totalSamples : Int
  totalBytes : Int
  header : WAVEFILE
  deriving DecidableEq, Repr

/-- Lines 30-103 of `main`, for the argument vector `argv` (`argc` is its length):
the three validations, the header, the sizes; an `Outcome` when `main` ends there. -/
def prepare (env : Env) (k : WaveConsts) (argv : List (List Char)) : Outcome ⊕ Prepared :=
  if argv.length ≠ 4 then .inl .usage
  else
    let toneLength := env.atof (argv.getD 2 [])
    if toneLengthRejected toneLength then .inl .usage
    else
      let phoneString := argv.getD 3 []
      match scanDigits phoneString 0 with
      | .rejectedAt _ => .inl .usage
      | .accepted numDigits =>
        if !env.headerAlloc then .inl .allocFailed
        else
          match samplesPerDigitOf k toneLength with
          | none => .inl .undefined
          | some samplesPerDigit =>
            .inr { toneLength := toneLength,
                   phoneString := phoneString,
                   numDigits := numDigits,
                   samplesPerDigit := samplesPerDigit,
                   totalSamples := totalSamplesOf samplesPerDigit numDigits,
                   totalBytes := totalBytesOf samplesPerDigit numDigits,
                   header := buildHeader k (totalBytesOf samplesPerDigit numDigits) }

/-- The function `main`, for the argument vector `argv` (`argc` is its length). -/
def main (env : Env) (k : WaveConsts) (argv : List (List Char)) : Outcome :=
  match prepare env k argv with
  | .inl o => o
  | .inr p =>
    if !env.dataAlloc (toSizeT p.totalBytes) then .allocFailed
    else
      match generate env k p.phoneString p.numDigits p.samplesPerDigit (toSizeT p.totalBytes) with
      | none => .undefined
      | some st =>
        if !env.fopenOk (argv.getD 1 []) then .openFailed
        else .wrote (argv.getD 1 []) p.header sizeofWAVEFILE st.cells (toSizeT p.totalBytes)

/-- The status `main` returns (`none` after undefined behaviour). -/
def Outcome.status : Outcome → Option Int
  | .usage => some (-1)
  | .allocFailed => some (-1)
  | .openFailed => some (-1)
  | .undefined => none
  | .wrote _ _ _ _ _ => some 0

/-- What `main` prints on standard output. -/
def Outcome.printed : Outcome → List String
  | .usage => show_usage
  | _ => []

/-- The number of bytes `main` writes to the output file. -/
def Outcome.fileLength : Outcome → Option Nat
  | .wrote _ _ headerBytes _ dataBytes => some (headerBytes + dataBytes)
  | _ => none

/-! ## Vocabulary of the statements -/

/-- The sample that lines 119-138 compute for sample `n` of the block of character `c`:
the `(int16_t)` cast of `sampleValue` at the frequencies `get_freqs` gives for `c`. -/
def sampleAt (env : Env) (k : WaveConsts) (c : Char) (n : Nat) : Option Int :=
  castInt16 (sampleValue env k (get_freqs c).1 (get_freqs c).2 (n : Int))

/-- Every `(int16_t)` cast that the generation of `digits` performs is defined. -/
def CastsDefined (env : Env) (k : WaveConsts) (digits : List Char) (samplesPerDigit : Int) :
    Prop :=
  ∀ c ∈ digits, ∀ n : Nat, (n : Int) < samplesPerDigit → sampleAt env k c n ≠ none

/-- An instance of the constants: the sample rate 44100 Hz that the specification gives
as its example, and an amplitude of 16000. -/
def exampleConsts : WaveConsts := { SAMPLE_RATE := 44100, AMPLITUDE := CDouble.ofInt 16000 }

/-- An environment for examples: `atof` yields `t` for every string, `sin` is the
constant `0`, allocations of less than `2 ^ 32` bytes and every `fopen` succeed. -/
def exampleEnv (t : CDouble) : Env :=
  { atof := fun _ => t,
    sin := fun _ => CDouble.fin 0 0,
    headerAlloc := true,
    dataAlloc := fun sz => decide (sz < 2 ^ 32),
    fopenOk := fun _ => true }

/-- The C comparison `x <= y` on doubles; false whenever an operand is NaN. -/
def CDouble.le : CDouble → CDouble → Bool
  | .fin m1 e1, .fin m2 e2 =>
    let e := min e1 e2
    decide (m1 * 2 ^ (e1 - e).toNat ≤ m2 * 2 ^ (e2 - e).toNat)
  | .inf true, .fin _ _ => true
  | .inf true, .inf _ => true
  | .fin _ _, .inf false => true
  | .inf false, .inf false => true
  | _, _ => false

/-- The content of an output file: what the two `fwrite` calls of `main` put into it. -/
structure FileData where
  header : WAVEFILE
  headerBytes : Nat
  cells : List (Option Int)
  dataBytes : Nat

/-- The files of the file system, by path (`none` for a path without a file). -/
def Files : Type := List Char → Option FileData

/-- Whether the run gets to the call of `fopen` (line 144); `none` after undefined
behaviour. -/
def Outcome.reachesOpen : Outcome → Option Bool
  | .usage => some false
  | .allocFailed => some false
  | .openFailed => some true
  | .undefined => none
  | .wrote _ _ _ _ _ => some true

/-- The file system after a run that starts in the file system `fs`: only a run that
gets through `fopen` creates or changes a file, the one at its path; `none` after
undefined behaviour. -/
def Outcome.filesAfter (fs : Files) : Outcome → Option Files
  | .wrote path header headerBytes cells dataBytes =>
    some (fun p =>
      if p = path then
        some { header := header, headerBytes := headerBytes, cells := cells,
               dataBytes := dataBytes }
      else fs p)
  | .undefined => none
  | _ => some fs

/-- The block of the character `c`: its `samplesPerDigit` samples, in the order of `n`. -/
def blockOf (env : Env) (k : WaveConsts) (samplesPerDigit : Int) (c : Char) :
    List (Option Int) :=
  (List.range samplesPerDigit.toNat).map (fun n => sampleAt env k c n)

/-- The blocks of the characters of a digit string, one after the other in the order of
the string. -/
def blocksOf (env : Env) (k : WaveConsts) (samplesPerDigit : Int) :
    List Char → List (Option Int)
  | [] => []
  | c :: rest => blockOf env k samplesPerDigit c ++ blocksOf env k samplesPerDigit rest

/-- The tone length `t` is out of range: it is not a value of the closed interval from
`0.1` to `1.0`. NaN, which no comparison places in the interval, is out of range. -/
def toneOutOfRange (t : CDouble) : Bool :=
  !(CDouble.le (literal 1 10) t && CDouble.le t (literal 1 1))

/-- An environment for examples whose `sin` has the values of the C library at the two
angles of sample 3 of the digit `5` at 44100 Hz: `sin(0.3291192303760736)` is
`0.32320965745446006` and `sin(0.5710432360810835)` is `0.5405100563966869`; elsewhere
it is 0. The rest is `exampleEnv`. -/
def sineTableEnv (t : CDouble) : Env :=
  { exampleEnv t with
    sin := fun x =>
      if x = CDouble.fin 5928884973128598 (-54) then CDouble.fin 5822427571497808 (-54)
      else if x = CDouble.fin 5143500210454420 (-53) then CDouble.fin 4868481777156250 (-53)
      else CDouble.fin 0 0 }

/-! ## The scan of the digit string -/

theorem scanDigits_accepted_iff (s : List Char) (i n : Nat) :
    scanDigits s i = .accepted n ↔ (∀ c ∈ s, isDtmfChar c = true) ∧ n = i + s.length := by
  induction s generalizing i with
  | nil =>
    simp only [scanDigits, ScanResult.accepted.injEq, List.length_nil, Nat.add_zero]
    constructor
    · rintro rfl
      exact ⟨by simp, rfl⟩
    · rintro ⟨_, rfl⟩
      rfl
  | cons c rest ih =>
    by_cases hc : isDtmfChar c = true
    · simp only [scanDigits, hc, Bool.not_true, Bool.false_eq_true, if_false, ih,
        List.mem_cons, forall_eq_or_imp, true_and, List.length_cons]
      constructor
      · rintro ⟨h, rfl⟩
        exact ⟨h, by omega⟩
      · rintro ⟨h, rfl⟩
        exact ⟨h, by omega⟩
    · have hc2 : isDtmfChar c = false := by simpa using hc
      simp [scanDigits, hc2]

theorem scanDigits_rejectedAt_iff (s : List Char) (i j : Nat) :
    scanDigits s i = .rejectedAt j ↔
      ∃ pre c post, s = pre ++ c :: post ∧ (∀ x ∈ pre, isDtmfChar x = true) ∧
        isDtmfChar c = false ∧ j = i + pre.length := by
  induction s generalizing i with
  | nil => simp [scanDigits]
  | cons c rest ih =>
    by_cases hc : isDtmfChar c = true
    · simp only [scanDigits, hc, Bool.not_true, Bool.false_eq_true, if_false, ih]
      constructor
      · rintro ⟨pre, d, post, rfl, hpre, hd, rfl⟩
        refine ⟨c :: pre, d, post, rfl, ?_, hd, ?_⟩
        · intro x hx
          rcases List.mem_cons.mp hx with rfl | hx
          · exact hc
          · exact hpre x hx
        · simp only [List.length_cons]; omega
      · rintro ⟨pre, d, post, hs, hpre, hd, rfl⟩
        cases pre with
        | nil =>
          simp only [List.nil_append, List.cons.injEq] at hs
          rw [hs.1, hd] at hc
          exact absurd hc (by simp)
        | cons p pre =>
          simp only [List.cons_append, List.cons.injEq] at hs
          refine ⟨pre, d, post, hs.2, fun x hx => hpre x (List.mem_cons_of_mem _ hx), hd, ?_⟩
          simp only [List.length_cons]; omega
    · have hc2 : isDtmfChar c = false := by simpa using hc
      simp only [scanDigits, hc2, Bool.not_false, if_true, ScanResult.rejectedAt.injEq]
      constructor
      · rintro rfl
        exact ⟨[], c, rest, rfl, by simp, hc2, by simp⟩
      · rintro ⟨pre, d, post, hs, hpre, hd, rfl⟩
        cases pre with
        | nil => simp
        | cons p pre =>
          simp only [List.cons_append, List.cons.injEq] at hs
          have := hpre p (List.mem_cons_self _ _)
          rw [← hs.1, hc2] at this
          exact absurd this (by simp)

/-! ## 32-bit arithmetic -/

theorem wrapInt32_of_range (x : Int) (h1 : -(2 ^ 31) ≤ x) (h2 : x < 2 ^ 31) :
    wrapInt32 x = x := by
  unfold wrapInt32
  omega

theorem wrapInt32_range (x : Int) : -(2 ^ 31) ≤ wrapInt32 x ∧ wrapInt32 x < 2 ^ 31 := by
  unfold wrapInt32
  omega

theorem toUInt32_totalBytesOf (spd : Int) (n : Nat) :
    toUInt32 (totalBytesOf spd n) = (2 * spd * (n : Int)) % 2 ^ 32 := by
  unfold toUInt32 totalBytesOf totalSamplesOf wrapInt32 BYTES_PER_SAMPLE
  have h : 2 * spd * (n : Int) = 2 * (spd * (n : Int)) := by ring
  rw [h]
  generalize spd * (n : Int) = a
  omega

theorem totalBytesOf_of_lt (spd : Int) (n : Nat) (h0 : 0 ≤ spd)
    (h : 2 * spd * (n : Int) < 2 ^ 31) : totalBytesOf spd n = 2 * spd * (n : Int) := by
  have hn : (0 : Int) ≤ spd * (n : Int) := Int.mul_nonneg h0 (Int.ofNat_nonneg n)
  unfold totalBytesOf totalSamplesOf wrapInt32 BYTES_PER_SAMPLE
  have h2 : 2 * spd * (n : Int) = 2 * (spd * (n : Int)) := by ring
  rw [h2] at h ⊢
  generalize spd * (n : Int) = a at hn h ⊢
  omega

/-! ## The generation loops -/

theorem storeSample_some (st st1 : GenState) (v : CDouble) (h : storeSample st v = some st1) :
    ∃ s, castInt16 v = some s ∧ st.sampleIndex < st.cells.length ∧
      st1 = { cells := st.cells.set st.sampleIndex (some s),
              sampleIndex := st.sampleIndex + 1,
              stores := st.stores ++ [st.sampleIndex] } := by
  unfold storeSample at h
  cases hc : castInt16 v with
  | none => simp [hc] at h
  | some s =>
    simp only [hc] at h
    by_cases hlt : st.sampleIndex < st.cells.length
    · simp only [hlt, if_true, Option.some.injEq] at h
      exact ⟨s, rfl, hlt, h.symm⟩
    · simp [hlt] at h

theorem innerLoop_some (env : Env) (k : WaveConsts) (f1 f2 : Int) :
    ∀ (r : Nat) (n : Int) (st st1 : GenState),
      innerLoop env k f1 f2 r n st = some st1 →
      st1.sampleIndex = st.sampleIndex + r ∧ st1.cells.length = st.cells.length ∧
      (r = 0 ∨ st.sampleIndex + r ≤ st.cells.length) ∧
      (∀ j : Nat, j < r → ∃ s, castInt16 (sampleValue env k f1 f2 (n + (j : Int))) = some s ∧
          st1.cells[st.sampleIndex + j]? = some (some s)) ∧
      (∀ idx : Nat, idx < st.sampleIndex ∨ st.sampleIndex + r ≤ idx →
          st1.cells[idx]? = st.cells[idx]?) := by
  intro r
  induction r with
  | zero =>
    intro n st st1 h
    simp only [innerLoop, Option.some.injEq] at h
    subst h
    simp
  | succ r ih =>
    intro n st st1 h
    simp only [innerLoop] at h
    cases hs : storeSample st (sampleValue env k f1 f2 n) with
    | none => simp [hs] at h
    | some st2 =>
      simp only [hs] at h
      obtain ⟨s, hcast, hlt, hst2⟩ := storeSample_some _ _ _ hs
      obtain ⟨hidx, hlen, hcap, hval, hkeep⟩ := ih (n + 1) st2 st1 h
      have hidx2 : st2.sampleIndex = st.sampleIndex + 1 := by rw [hst2]
      have hlen2 : st2.cells.length = st.cells.length := by rw [hst2]; simp
      refine ⟨by omega, by omega, Or.inr (by omega), ?_, ?_⟩
      · intro j hj
        cases j with
        | zero =>
          refine ⟨s, by simpa using hcast, ?_⟩
          rw [Nat.add_zero, hkeep st.sampleIndex (Or.inl (by omega)), hst2]
          simp [hlt]
        | succ j =>
          obtain ⟨s2, hc2, hv2⟩ := hval j (by omega)
          refine ⟨s2, ?_, ?_⟩
          · rw [← hc2]
            congr 2
            push_cast
            ring
          · rw [← hv2, hidx2]
            congr 1
            omega
      · intro idx hidx3
        rw [hkeep idx (by omega), hst2]
        simp only
        rw [List.getElem?_set_ne (by omega)]

theorem innerLoop_exists (env : Env) (k : WaveConsts) (f1 f2 : Int) :
    ∀ (r : Nat) (n : Int) (st : GenState),
      st.sampleIndex + r ≤ st.cells.length →
      (∀ j : Nat, j < r → castInt16 (sampleValue env k f1 f2 (n + (j : Int))) ≠ none) →
      ∃ st1, innerLoop env k f1 f2 r n st = some st1 := by
  intro r
  induction r with
  | zero =>
    intro n st _ _
    exact ⟨st, rfl⟩
  | succ r ih =>
    intro n st hcap hcast
    have h0 := hcast 0 (by omega)
    simp only [Nat.cast_zero, add_zero] at h0
    obtain ⟨s, hs⟩ := Option.ne_none_iff_exists'.mp h0
    have hlt : st.sampleIndex < st.cells.length := by omega
    simp only [innerLoop, storeSample, hs, hlt, if_true]
    apply ih
    · simp only [List.length_set]
      omega
    · intro j hj
      have := hcast (j + 1) (by omega)
      have e : n + ((j + 1 : Nat) : Int) = n + 1 + (j : Int) := by push_cast; ring
      rwa [e] at this

theorem outerLoop_some (env : Env) (k : WaveConsts) (s : List Char) (spd : Int) :
    ∀ (r i : Nat) (st st1 : GenState),
      outerLoop env k s spd r i st = some st1 →
      st1.sampleIndex = st.sampleIndex + r * spd.toNat ∧
      st1.cells.length = st.cells.length ∧
      (r * spd.toNat = 0 ∨ st.sampleIndex + r * spd.toNat ≤ st.cells.length) ∧
      (∀ a j : Nat, a < r → j < spd.toNat →
        ∃ v, castInt16 (sampleValue env k (get_freqs (charAt s (i + a))).1
            (get_freqs (charAt s (i + a))).2 (j : Int)) = some v ∧
          st1.cells[st.sampleIndex + a * spd.toNat + j]? = some (some v)) ∧
      (∀ idx : Nat, idx < st.sampleIndex ∨ st.sampleIndex + r * spd.toNat ≤ idx →
          st1.cells[idx]? = st.cells[idx]?) := by
  intro r
  induction r with
  | zero =>
    intro i st st1 h
    simp only [outerLoop, Option.some.injEq] at h
    subst h
    simp
  | succ r ih =>
    intro i st st1 h
    simp only [outerLoop] at h
    cases hin : innerLoop env k (get_freqs (charAt s i)).1
        (get_freqs (charAt s i)).2 spd.toNat 0 st with
    | none => simp [hin] at h
    | some st2 =>
      simp only [hin] at h
      obtain ⟨hi1, hl1, hc1, hv1, hk1⟩ := innerLoop_some env k _ _ _ _ _ _ hin
      obtain ⟨hi2, hl2, hc2, hv2, hk2⟩ := ih (i + 1) st2 st1 h
      have e : (r + 1) * spd.toNat = r * spd.toNat + spd.toNat := by ring
      have e0 : spd.toNat = 0 → r * spd.toNat = 0 := by
        intro h0
        rw [h0, Nat.mul_zero]
      refine ⟨by omega, by omega, by omega, ?_, ?_⟩
      · intro a j ha hj
        cases a with
        | zero =>
          obtain ⟨v, hcv, hvv⟩ := hv1 j hj
          refine ⟨v, by simpa using hcv, ?_⟩
          rw [Nat.zero_mul, Nat.add_zero, hk2 _ (Or.inl (by omega))]
          exact hvv
        | succ a =>
          obtain ⟨v, hcv, hvv⟩ := hv2 a j (by omega) hj
          have ei : i + (a + 1) = i + 1 + a := by omega
          refine ⟨v, by rw [ei]; exact hcv, ?_⟩
          rw [← hvv]
          congr 1
          have ea : (a + 1) * spd.toNat = a * spd.toNat + spd.toNat := by ring
          omega
      · intro idx hidx
        rw [hk2 idx (by omega), hk1 idx (by omega)]

theorem outerLoop_exists (env : Env) (k : WaveConsts) (s : List Char) (spd : Int) :
    ∀ (r i : Nat) (st : GenState),
      st.sampleIndex + r * spd.toNat ≤ st.cells.length →
      (∀ a j : Nat, a < r → j < spd.toNat →
        castInt16 (sampleValue env k (get_freqs (charAt s (i + a))).1
            (get_freqs (charAt s (i + a))).2 (j : Int)) ≠ none) →
      ∃ st1, outerLoop env k s spd r i st = some st1 := by
  intro r
  induction r with
  | zero =>
    intro i st _ _
    exact ⟨st, rfl⟩
  | succ r ih =>
    intro i st hcap hcast
    have e : (r + 1) * spd.toNat = r * spd.toNat + spd.toNat := by ring
    obtain ⟨st2, hin⟩ := innerLoop_exists env k (get_freqs (charAt s i)).1
      (get_freqs (charAt s i)).2 spd.toNat 0 st (by omega)
      (by
        intro j hj
        have := hcast 0 j (by omega) hj
        simpa using this)
    obtain ⟨hi1, hl1, -, -, -⟩ := innerLoop_some env k _ _ _ _ _ _ hin
    obtain ⟨st1, hout⟩ := ih (i + 1) st2 (by omega)
      (by
        intro a j ha hj
        have := hcast (a + 1) j (by omega) hj
        have ei : i + (a + 1) = i + 1 + a := by omega
        rwa [ei] at this)
    exact ⟨st1, by simp only [outerLoop, hin, hout]⟩

theorem generate_some (env : Env) (k : WaveConsts) (s : List Char) (nd : Nat) (spd : Int)
    (bytes : Nat) (st : GenState) (h : generate env k s nd spd bytes = some st) :
    st.cells.length = bytes / 2 ∧
    (nd * spd.toNat = 0 ∨ nd * spd.toNat ≤ bytes / 2) ∧
    (∀ a j : Nat, a < nd → j < spd.toNat →
      ∃ v, castInt16 (sampleValue env k (get_freqs (charAt s a)).1
          (get_freqs (charAt s a)).2 (j : Int)) = some v ∧
        st.cells[a * spd.toNat + j]? = some (some v)) ∧
    (∀ idx : Nat, nd * spd.toNat ≤ idx → idx < bytes / 2 → st.cells[idx]? = some none) := by
  obtain ⟨-, hl, hc, hv, hk⟩ := outerLoop_some env k s spd nd 0 _ st h
  simp only [List.length_replicate, Nat.zero_add] at hl hc hv hk
  refine ⟨hl, hc, hv, ?_⟩
  intro idx h1 h2
  rw [hk idx (Or.inr h1)]
  exact List.getElem?_replicate_of_lt h2

theorem generate_exists (env : Env) (k : WaveConsts) (s : List Char) (nd : Nat) (spd : Int)
    (bytes : Nat) (hcap : nd * spd.toNat ≤ bytes / 2)
    (hcast : ∀ a j : Nat, a < nd → j < spd.toNat →
      castInt16 (sampleValue env k (get_freqs (charAt s a)).1
          (get_freqs (charAt s a)).2 (j : Int)) ≠ none) :
    ∃ st, generate env k s nd spd bytes = some st := by
  apply outerLoop_exists
  · simpa using hcap
  · simpa using hcast

/-! ## The sign of `samplesPerDigit` -/

theorem roundBinary64_fin_nonneg (m e m2 e2 : Int) (h0 : 0 ≤ m)
    (h : roundBinary64 m e = .fin m2 e2) : 0 ≤ m2 := by
  have hneg : ¬ m < 0 := by omega
  unfold roundBinary64 at h
  simp only [hneg, if_false] at h
  split_ifs at h
  all_goals
      (have h1 := (CDouble.fin.inj h).1
       rw [← h1]
       try first | exact h0 | exact Int.ofNat_nonneg _)

theorem trunc_nonneg (m e : Int) (h0 : 0 ≤ m) : 0 ≤ CDouble.trunc m e := by
  unfold CDouble.trunc
  split_ifs
  · positivity
  · omega
  · positivity

theorem literal_tenth : literal 1 10 = .fin 7205759403792794 (-56) := by rfl

theorem literal_one : literal 1 1 = .fin 4503599627370496 (-52) := by rfl

theorem accepted_tone_is_positive (t : CDouble) (h : toneLengthRejected t = false) :
    t = .nan ∨ ∃ m e, t = .fin m e ∧ 0 < m := by
  unfold toneLengthRejected at h
  rw [Bool.or_eq_false_iff, literal_tenth] at h
  cases t with
  | nan => exact Or.inl rfl
  | inf s =>
    cases s
    · have := h.2
      simp [CDouble.gt, CDouble.lt, literal_one] at this
    · have := h.1
      simp [CDouble.lt] at this
  | fin m e =>
    refine Or.inr ⟨m, e, rfl, ?_⟩
    have h1 := h.1
    simp only [CDouble.lt, decide_eq_false_iff_not, not_lt] at h1
    by_contra hm
    have hm0 : m ≤ 0 := by omega
    have hp : (0 : Int) < 7205759403792794 * 2 ^ (-56 - min e (-56)).toNat := by positivity
    have hq : m * 2 ^ (e - min e (-56)).toNat ≤ 0 :=
      Int.mul_nonpos_of_nonpos_of_nonneg hm0 (by positivity)
    omega

theorem samplesPerDigit_nonneg (k : WaveConsts) (t : CDouble) (spd : Int)
    (hrate : 0 ≤ k.SAMPLE_RATE) (ht : toneLengthRejected t = false)
    (h : samplesPerDigitOf k t = some spd) : 0 ≤ spd := by
  rcases accepted_tone_is_positive t ht with rfl | ⟨m, e, rfl, hm⟩
  · unfold samplesPerDigitOf at h
    cases hr : CDouble.ofInt k.SAMPLE_RATE <;>
      simp [hr, CDouble.mul, castInt, CDouble.toIntRange] at h
  · unfold samplesPerDigitOf at h
    cases hr : CDouble.ofInt k.SAMPLE_RATE with
    | nan => simp [hr, CDouble.mul, castInt, CDouble.toIntRange] at h
    | inf s =>
      have hm0 : m ≠ 0 := by omega
      simp [hr, CDouble.mul, castInt, CDouble.toIntRange, hm0] at h
    | fin a b =>
      have ha : 0 ≤ a := roundBinary64_fin_nonneg _ _ _ _ hrate hr
      rw [hr] at h
      simp only [CDouble.mul] at h
      cases hp : roundBinary64 (a * m) (b + e) with
      | nan => simp [hp, castInt, CDouble.toIntRange] at h
      | inf s => simp [hp, castInt, CDouble.toIntRange] at h
      | fin c d =>
        have hc : 0 ≤ c :=
          roundBinary64_fin_nonneg _ _ _ _ (Int.mul_nonneg ha (by omega)) hp
        rw [hp] at h
        simp only [castInt, CDouble.toIntRange] at h
        split_ifs at h
        simp only [Option.some.injEq] at h
        rw [← h]
        exact trunc_nonneg c d hc

/-! ## `main` on a valid input -/

theorem charAt_mem (s : List Char) (a : Nat) (h : a < s.length) : charAt s a ∈ s := by
  unfold charAt
  rw [List.getD_eq_getElem _ _ h]
  exact List.getElem_mem h

theorem prepare_of_valid (env : Env) (k : WaveConsts) (prog path tone digits : List Char)
    (spd : Int) (htone : toneLengthRejected (env.atof tone) = false)
    (hdigits : ∀ c ∈ digits, isDtmfChar c = true)
    (hspd : samplesPerDigitOf k (env.atof tone) = some spd)
    (halloc : env.headerAlloc = true) :
    prepare env k [prog, path, tone, digits] =
      .inr { toneLength := env.atof tone,
             phoneString := digits,
             numDigits := digits.length,
             samplesPerDigit := spd,
             totalSamples := totalSamplesOf spd digits.length,
             totalBytes := totalBytesOf spd digits.length,
             header := buildHeader k (totalBytesOf spd digits.length) } := by
  have hscan : scanDigits digits 0 = .accepted digits.length :=
    (scanDigits_accepted_iff digits 0 digits.length).mpr ⟨hdigits, by omega⟩
  simp [prepare, htone, hscan, hspd, halloc]

theorem main_of_valid (env : Env) (k : WaveConsts) (prog path tone digits : List Char)
    (spd : Int) (htone : toneLengthRejected (env.atof tone) = false)
    (hdigits : ∀ c ∈ digits, isDtmfChar c = true)
    (hspd : samplesPerDigitOf k (env.atof tone) = some spd) :
    main env k [prog, path, tone, digits] =
      if env.headerAlloc = false then .allocFailed
      else if env.dataAlloc (toSizeT (totalBytesOf spd digits.length)) = false then .allocFailed
      else
        match generate env k digits digits.length spd
            (toSizeT (totalBytesOf spd digits.length)) with
        | none => .undefined
        | some st =>
          if env.fopenOk path = false then .openFailed
          else .wrote path (buildHeader k (totalBytesOf spd digits.length)) sizeofWAVEFILE
            st.cells (toSizeT (totalBytesOf spd digits.length)) := by
  have hscan : scanDigits digits 0 = .accepted digits.length :=
    (scanDigits_accepted_iff digits 0 digits.length).mpr ⟨hdigits, by omega⟩
  cases halloc : env.headerAlloc with
  | false => simp [main, prepare, htone, hscan, halloc]
  | true =>
    rw [main, prepare_of_valid env k prog path tone digits spd htone hdigits hspd halloc]
    simp

theorem toSizeT_of_lt (tb : Int) (h1 : -(2 ^ 31) ≤ tb) (h3 : tb < 2 ^ 31)
    (h2 : toSizeT tb < 2 ^ 63) :
    0 ≤ tb ∧ ((toSizeT tb : Nat) : Int) = tb := by
  unfold toSizeT at *
  omega

theorem totalBytes_exact (spd : Int) (n : Nat) (h0 : 0 ≤ spd)
    (hsz : toSizeT (totalBytesOf spd n) < 2 ^ 63)
    (hcap : n * spd.toNat = 0 ∨ n * spd.toNat ≤ toSizeT (totalBytesOf spd n) / 2) :
    totalBytesOf spd n = 2 * spd * (n : Int) ∧
      ((toSizeT (totalBytesOf spd n) : Nat) : Int) = 2 * spd * (n : Int) ∧
      2 * spd * (n : Int) < 2 ^ 31 := by
  have hr := wrapInt32_range (totalSamplesOf spd n * BYTES_PER_SAMPLE)
  have hu := toUInt32_totalBytesOf spd n
  have hP : ((n * spd.toNat : Nat) : Int) = spd * (n : Int) := by
    push_cast
    rw [Int.toNat_of_nonneg h0]
    ring
  have h2 : 2 * spd * (n : Int) = 2 * (spd * (n : Int)) := by ring
  change -(2 ^ 31) ≤ totalBytesOf spd n ∧ totalBytesOf spd n < 2 ^ 31 at hr
  obtain ⟨hnn, hcast⟩ := toSizeT_of_lt _ hr.1 hr.2 hsz
  unfold toUInt32 at hu
  rw [h2] at hu ⊢
  rw [← hP] at hu ⊢
  generalize totalBytesOf spd n = tb at *
  generalize toSizeT tb = sz at *
  generalize n * spd.toNat = p at *
  omega

theorem main_wrote_facts (env : Env) (k : WaveConsts) (prog path tone digits : List Char)
    (spd : Int) (hrate : 0 ≤ k.SAMPLE_RATE)
    (htone : toneLengthRejected (env.atof tone) = false)
    (hdigits : ∀ c ∈ digits, isDtmfChar c = true)
    (hspd : samplesPerDigitOf k (env.atof tone) = some spd)
    (hheap : ∀ sz, env.dataAlloc sz = true → sz < 2 ^ 63)
    (p : List Char) (h : WAVEFILE) (hb : Nat) (cells : List (Option Int)) (db : Nat)
    (hw : main env k [prog, path, tone, digits] = .wrote p h hb cells db) :
    p = path ∧ h = buildHeader k (2 * spd * (digits.length : Int)) ∧ hb = sizeofWAVEFILE ∧
      (db : Int) = 2 * spd * (digits.length : Int) ∧
      2 * spd * (digits.length : Int) < 2 ^ 31 ∧
      ∃ st, generate env k digits digits.length spd db = some st ∧ st.cells = cells := by
  have h0 : 0 ≤ spd := samplesPerDigit_nonneg k _ spd hrate htone hspd
  rw [main_of_valid env k prog path tone digits spd htone hdigits hspd] at hw
  cases h1 : env.headerAlloc with
  | false => simp [h1] at hw
  | true =>
    cases h2 : env.dataAlloc (toSizeT (totalBytesOf spd digits.length)) with
    | false => simp [h1, h2] at hw
    | true =>
      cases h3 : generate env k digits digits.length spd
          (toSizeT (totalBytesOf spd digits.length)) with
      | none => simp [h1, h2, h3] at hw
      | some st =>
        cases h4 : env.fopenOk path with
        | false => simp [h1, h2, h3, h4] at hw
        | true =>
          simp only [h1, h2, h3, h4, Bool.true_eq_false, if_false, Outcome.wrote.injEq] at hw
          obtain ⟨e1, e2, e3, e4, e5⟩ := hw
          obtain ⟨-, hcap, -, -⟩ := generate_some env k digits digits.length spd _ st h3
          obtain ⟨t1, t2, t3⟩ := totalBytes_exact spd digits.length h0 (hheap _ h2) hcap
          refine ⟨e1.symm, ?_, e3.symm, ?_, t3, st, ?_, e4⟩
          · rw [← e2, t1]
          · rw [← e5, t2]
          · rw [← e5]
            exact h3

theorem main_writes (env : Env) (k : WaveConsts) (prog path tone digits : List Char)
    (spd : Int) (hrate : 0 ≤ k.SAMPLE_RATE)
    (htone : toneLengthRejected (env.atof tone) = false)
    (hdigits : ∀ c ∈ digits, isDtmfChar c = true)
    (hspd : samplesPerDigitOf k (env.atof tone) = some spd)
    (hfit : 2 * spd * (digits.length : Int) < 2 ^ 31)
    (hcasts : CastsDefined env k digits spd)
    (hhdr : env.headerAlloc = true)
    (hdata : env.dataAlloc (2 * spd * (digits.length : Int)).toNat = true)
    (hopen : env.fopenOk path = true) :
    ∃ cells, main env k [prog, path, tone, digits] =
      .wrote path (buildHeader k (2 * spd * (digits.length : Int))) sizeofWAVEFILE cells
        (2 * spd * (digits.length : Int)).toNat := by
  have h0 : 0 ≤ spd := samplesPerDigit_nonneg k _ spd hrate htone hspd
  have htb := totalBytesOf_of_lt spd digits.length h0 hfit
  have hnn : (0 : Int) ≤ 2 * spd * (digits.length : Int) :=
    Int.mul_nonneg (by omega) (Int.ofNat_nonneg _)
  have hsz : toSizeT (2 * spd * (digits.length : Int)) = (2 * spd * (digits.length : Int)).toNat := by
    unfold toSizeT
    congr 1
    omega
  have hP : (2 * spd * (digits.length : Int)).toNat = 2 * (digits.length * spd.toNat) := by
    apply Int.ofNat.inj
    simp only [Int.ofNat_eq_coe]
    rw [Int.toNat_of_nonneg hnn]
    push_cast
    rw [Int.toNat_of_nonneg h0]
    ring
  obtain ⟨st, hgen⟩ := generate_exists env k digits digits.length spd
    (2 * spd * (digits.length : Int)).toNat (by rw [hP]; omega)
    (by
      intro a j ha hj
      exact hcasts (charAt digits a) (charAt_mem digits a ha) j (by omega))
  refine ⟨st.cells, ?_⟩
  rw [main_of_valid env k prog path tone digits spd htone hdigits hspd, htb, hsz]
  simp [hhdr, hdata, hgen, hopen]

theorem buildHeader_SubChunk2Size (k : WaveConsts) (tb : Int) :
    (buildHeader k tb).SubChunk2Size = tb % 2 ^ 32 := rfl

theorem buildHeader_ChunkSize (k : WaveConsts) (tb : Int) :
    (buildHeader k tb).ChunkSize = (36 + (buildHeader k tb).SubChunk2Size) % 2 ^ 32 := by
  simp only [buildHeader, toUInt32]
  omega

theorem buildHeader_SubChunk1Size (k : WaveConsts) (tb : Int) :
    (buildHeader k tb).SubChunk1Size = 16 := by
  simp only [buildHeader, toUInt32]
  omega

theorem exampleEnv_sampleAt (t : CDouble) (c : Char) (n : Nat) :
    sampleAt (exampleEnv t) exampleConsts c n = some 0 := by
  unfold sampleAt sampleValue
  split_ifs
  · rfl
  · rfl

theorem exampleEnv_casts (t : CDouble) (digits : List Char) (spd : Int) :
    CastsDefined (exampleEnv t) exampleConsts digits spd := by
  intro c _ n _
  rw [exampleEnv_sampleAt]
  simp

theorem exampleEnv_heap (t : CDouble) (sz : Nat) (h : (exampleEnv t).dataAlloc sz = true) :
    sz < 2 ^ 63 := by
  simp only [exampleEnv, decide_eq_true_eq] at h
  omega

theorem replicate_one_valid (n : Nat) : ∀ c ∈ List.replicate n '1', isDtmfChar c = true := by
  intro c hc
  rw [List.eq_of_mem_replicate hc]
  decide

theorem main_usage_iff_scan (env : Env) (k : WaveConsts) (prog path tone digits : List Char)
    (htone : toneLengthRejected (env.atof tone) = false) :
    main env k [prog, path, tone, digits] = .usage ↔ ∃ i, scanDigits digits 0 = .rejectedAt i := by
  cases hs : scanDigits digits 0 with
  | rejectedAt i =>
    simp [main, prepare, htone, hs]
  | accepted n =>
    simp only [exists_false, iff_false, reduceCtorEq]
    cases h1 : env.headerAlloc with
    | false => simp [main, prepare, htone, hs, h1]
    | true =>
      cases h2 : samplesPerDigitOf k (env.atof tone) with
      | none => simp [main, prepare, htone, hs, h1, h2]
      | some spd =>
        simp only [main, prepare, htone, hs, h1, h2, List.length_cons, List.length_nil,
          List.getD_cons_succ, List.getD_cons_zero]
        simp only [Nat.reduceAdd, ne_eq, not_true_eq_false, if_false,
          Bool.false_eq_true, Bool.not_true]
        split_ifs <;> first | simp | (split <;> simp)

theorem lt_false_iff_le (x y : CDouble) (hx : x ≠ .nan) (hy : y ≠ .nan) :
    CDouble.lt x y = false ↔ CDouble.le y x = true := by
  cases x with
  | nan => exact absurd rfl hx
  | inf s =>
    cases y with
    | nan => exact absurd rfl hy
    | inf t => cases s <;> cases t <;> simp [CDouble.lt, CDouble.le]
    | fin m e => cases s <;> simp [CDouble.lt, CDouble.le]
  | fin m e =>
    cases y with
    | nan => exact absurd rfl hy
    | inf t => cases t <;> simp [CDouble.lt, CDouble.le]
    | fin m2 e2 =>
      simp only [CDouble.lt, CDouble.le, decide_eq_false_iff_not, decide_eq_true_eq, not_lt]
      rw [min_comm e2 e]

/-! ## The samples of a written file -/

theorem main_wrote_cells (env : Env) (k : WaveConsts) (prog path tone digits : List Char)
    (spd : Int) (hrate : 0 ≤ k.SAMPLE_RATE)
    (htone : toneLengthRejected (env.atof tone) = false)
    (hdigits : ∀ c ∈ digits, isDtmfChar c = true)
    (hspd : samplesPerDigitOf k (env.atof tone) = some spd)
    (hheap : ∀ sz, env.dataAlloc sz = true → sz < 2 ^ 63)
    (p : List Char) (h : WAVEFILE) (hb : Nat) (cells : List (Option Int)) (db : Nat)
    (hw : main env k [prog, path, tone, digits] = .wrote p h hb cells db) :
    cells.length = digits.length * spd.toNat ∧
    ∀ i n : Nat, i < digits.length → (n : Int) < spd →
      ∃ v, sampleAt env k (charAt digits i) n = some v ∧
        cells[((i : Int) * spd + (n : Int)).toNat]? = some (some v) := by
  have h0 : 0 ≤ spd := samplesPerDigit_nonneg k _ spd hrate htone hspd
  obtain ⟨-, -, -, e4, -, st, hgen, hcells⟩ :=
    main_wrote_facts env k prog path tone digits spd hrate htone hdigits hspd hheap
      p h hb cells db hw
  obtain ⟨hlen, -, hval, -⟩ := generate_some env k digits digits.length spd db st hgen
  have hS : ((spd.toNat : Nat) : Int) = spd := Int.toNat_of_nonneg h0
  have hdb : db = 2 * (digits.length * spd.toNat) := by
    apply Int.ofNat.inj
    simp only [Int.ofNat_eq_coe]
    rw [e4]
    push_cast
    rw [hS]
    ring
  constructor
  · rw [← hcells, hlen, hdb]
    omega
  · intro i n hi hn
    obtain ⟨v, hv1, hv2⟩ := hval i n hi (by omega)
    refine ⟨v, hv1, ?_⟩
    have hidx : ((i : Int) * spd + (n : Int)).toNat = i * spd.toNat + n := by
      apply Int.ofNat.inj
      simp only [Int.ofNat_eq_coe]
      rw [Int.toNat_of_nonneg (by positivity)]
      push_cast
      rw [hS]
    rw [hidx, ← hcells]
    exact hv2

theorem trunc_eq_tdiv (m e : Int) :
    CDouble.trunc m e =
      if 0 ≤ e then m * 2 ^ e.toNat else Int.tdiv m ((2 ^ (-e).toNat : Nat) : Int) := by
  unfold CDouble.trunc
  split_ifs with h1 h2
  · rfl
  · have hm : m = -((m.natAbs : Nat) : Int) := by omega
    conv_rhs => rw [hm]
    rw [Int.neg_tdiv, ← Int.ofNat_tdiv]
  · have hm : m = ((m.natAbs : Nat) : Int) := by omega
    conv_rhs => rw [hm]
    rw [← Int.ofNat_tdiv]

theorem castInt16_some (x : CDouble) (v : Int) (h : castInt16 x = some v) :
    ∃ m e, x = .fin m e ∧
      v = (if 0 ≤ e then m * 2 ^ e.toNat else Int.tdiv m ((2 ^ (-e).toNat : Nat) : Int)) ∧
      -(2 ^ 15) ≤ v ∧ v ≤ 2 ^ 15 - 1 := by
  cases x with
  | nan => simp [castInt16, CDouble.toIntRange] at h
  | inf s => simp [castInt16, CDouble.toIntRange] at h
  | fin m e =>
    simp only [castInt16, CDouble.toIntRange] at h
    split_ifs at h with hr
    simp only [Option.some.injEq] at h
    refine ⟨m, e, rfl, ?_, ?_, ?_⟩
    · rw [← h, trunc_eq_tdiv]
    · rw [← h]; exact hr.1
    · rw [← h]; exact hr.2

theorem digit_char_cases (c : Char) (h1 : '0' ≤ c) (h2 : c ≤ '9') :
    c ∈ ['0', '1', '2', '3', '4', '5', '6', '7', '8', '9'] := by
  have e : c = Char.ofNat c.toNat := (Char.ofNat_toNat c).symm
  have a1 : 48 ≤ c.toNat := h1
  have a2 : c.toNat ≤ 57 := h2
  generalize c.toNat = n at e a1 a2
  subst e
  interval_cases n <;> decide

theorem isDtmfChar_cases (c : Char) (h : isDtmfChar c = true) :
    c ∈ ['0', '1', '2', '3', '4', '5', '6', '7', '8', '9', '-', '*', '#'] := by
  simp only [isDtmfChar, Bool.or_eq_true, Bool.and_eq_true, decide_eq_true_eq,
    beq_iff_eq] at h
  rcases h with ((⟨h1, h2⟩ | h) | h) | h
  · have := digit_char_cases c h1 h2
    simp only [List.mem_cons, List.mem_singleton, List.not_mem_nil, or_false] at this ⊢
    tauto
  · simp [h]
  · simp [h]
  · simp [h]

theorem get_freqs_ne_zero (c : Char) (h : isDtmfChar c = true) (hc : c ≠ '-') :
    (get_freqs c).1 ≠ 0 ∧ (get_freqs c).2 ≠ 0 := by
  have := isDtmfChar_cases c h
  simp only [List.mem_cons, List.mem_singleton, List.not_mem_nil, or_false] at this
  rcases this with rfl | rfl | rfl | rfl | rfl | rfl | rfl | rfl | rfl | rfl | rfl | rfl | rfl
  all_goals first
    | exact absurd rfl hc
    | decide

theorem sampleAt_silence (env : Env) (k : WaveConsts) (n : Nat) :
    sampleAt env k '-' n = some 0 := by
  have hf : get_freqs '-' = (0, 0) := by decide
  simp only [sampleAt, sampleValue, hf, and_self, if_true]
  decide

/-! ## The cast of line 96 is defined -/

theorem bitLenAux_zero (fuel : Nat) : bitLenAux fuel 0 = 0 := by
  cases fuel <;> simp [bitLenAux]

theorem bitLenAux_spec (fuel : Nat) :
    ∀ n : Nat, n ≤ fuel →
      n < 2 ^ bitLenAux fuel n ∧ (n ≠ 0 → 2 ^ (bitLenAux fuel n - 1) ≤ n) := by
  induction fuel with
  | zero =>
    intro n hn
    have : n = 0 := by omega
    subst this
    simp [bitLenAux]
  | succ fuel ih =>
    intro n hn
    by_cases h0 : n = 0
    · subst h0
      simp [bitLenAux]
    · have hhalf : n / 2 ≤ fuel := by omega
      obtain ⟨h1, h2⟩ := ih (n / 2) hhalf
      simp only [bitLenAux, h0, if_false, Nat.add_sub_cancel]
      constructor
      · rw [Nat.pow_succ]
        omega
      · intro _
        by_cases hq : n / 2 = 0
        · rw [hq, bitLenAux_zero]
          simp only [Nat.pow_zero]
          omega
        · have h3 := h2 hq
          have hb : bitLenAux fuel (n / 2) ≠ 0 := by
            intro hz
            rw [hz] at h1
            simp only [Nat.pow_zero] at h1
            omega
          have e : bitLenAux fuel (n / 2) = (bitLenAux fuel (n / 2) - 1) + 1 := by omega
          rw [e, Nat.pow_succ]
          omega

theorem bitLen_spec (n : Nat) : n < 2 ^ bitLen n ∧ (n ≠ 0 → 2 ^ (bitLen n - 1) ≤ n) :=
  bitLenAux_spec n n (Nat.le_refl n)

theorem bitLen_le_of_lt (n b : Nat) (h : n < 2 ^ b) : bitLen n ≤ b := by
  by_cases h0 : n = 0
  · subst h0
    simp [bitLen, bitLenAux_zero]
  · have h2 := (bitLen_spec n).2 h0
    have h3 : 2 ^ (bitLen n - 1) < 2 ^ b := Nat.lt_of_le_of_lt h2 h
    have h4 := (Nat.pow_lt_pow_iff_right (by norm_num : 1 < 2)).mp h3
    omega

theorem bitLen_pos (n : Nat) (h0 : n ≠ 0) : 0 < bitLen n := by
  have h1 := (bitLen_spec n).1
  rcases Nat.eq_zero_or_pos (bitLen n) with hz | hz
  · rw [hz] at h1
    simp only [Nat.pow_zero] at h1
    omega
  · exact hz

theorem ofInt_of_lt (i : Int) (h0 : 0 ≤ i) (h1 : i < 2 ^ 53) : CDouble.ofInt i = .fin i 0 := by
  unfold CDouble.ofInt roundBinary64
  by_cases hz : i.natAbs = 0
  · have : i = 0 := by omega
    subst this
    simp
  · have hb : bitLen i.natAbs ≤ 53 := bitLen_le_of_lt _ _ (by omega)
    have ht : max (0 + (bitLen i.natAbs : Int) - 53) (-1074) ≤ 0 := by
      apply max_le <;> omega
    simp only [hz, if_false, ht, if_true]
    rw [if_neg (by omega)]

theorem round_bound (A N : Nat) (e : Int) (hN : N < 2 ^ 31)
    (hb : A * 2 ^ e.toNat ≤ N * 2 ^ (-e).toNat) :
    ∃ m2 e2, roundBinary64 (A : Int) e = .fin m2 e2 ∧ 0 ≤ CDouble.trunc m2 e2 ∧
      CDouble.trunc m2 e2 ≤ (N : Int) := by
  by_cases hA : A = 0
  · subst hA
    exact ⟨0, 0, by simp [roundBinary64], by decide, by
      have : CDouble.trunc 0 0 = 0 := by decide
      rw [this]
      exact Int.ofNat_nonneg N⟩
  have hnat : ((A : Nat) : Int).natAbs = A := Int.natAbs_ofNat A
  have hneg : ¬ ((A : Nat) : Int) < 0 := by omega
  have hbits := bitLen_spec A
  have hpos := bitLen_pos A hA
  rcases le_or_lt 0 e with he | he
  · -- a whole number of units: the product is exact
    obtain ⟨E, rfl⟩ := Int.eq_ofNat_of_zero_le he
    have h1 : (-(E : Int)).toNat = 0 := by omega
    simp only [Int.toNat_ofNat, h1, Nat.pow_zero, Nat.mul_one] at hb
    have hE1 : 1 ≤ 2 ^ E := Nat.one_le_two_pow
    have hAN : A ≤ N := le_trans (Nat.le_mul_of_pos_right A (by omega)) hb
    have hbl : bitLen A ≤ 31 := bitLen_le_of_lt _ _ (by omega)
    have hE : E < 31 := by
      have h2 : 2 ^ E ≤ A * 2 ^ E := Nat.le_mul_of_pos_left _ (by omega)
      have h3 : 2 ^ E < 2 ^ 31 := by omega
      exact (Nat.pow_lt_pow_iff_right (by norm_num : 1 < 2)).mp h3
    have ht : max ((E : Int) + (bitLen A : Int) - 53) (-1074) ≤ (E : Int) := by
      apply max_le <;> omega
    refine ⟨(A : Int), (E : Int), ?_, ?_, ?_⟩
    · unfold roundBinary64
      simp only [hnat, hA, if_false, ht, if_true]
      rw [if_neg (by omega)]
    · exact trunc_nonneg _ _ (Int.ofNat_nonneg A)
    · unfold CDouble.trunc
      rw [if_pos he]
      simp only [Int.toNat_ofNat]
      exact_mod_cast hb
  · -- a negative exponent
    obtain ⟨E, hE⟩ : ∃ E : Nat, e = -(E : Int) := ⟨(-e).toNat, by omega⟩
    subst hE
    have hE0 : 0 < E := by omega
    have h1 : (-(E : Int)).toNat = 0 := by omega
    have h2 : (-(-(E : Int))).toNat = E := by omega
    simp only [h1, h2, Nat.pow_zero, Nat.mul_one] at hb
    have hlt : A < 2 ^ (31 + E) := by
      rw [Nat.pow_add]
      exact Nat.lt_of_le_of_lt hb (Nat.mul_lt_mul_of_pos_right hN (by positivity))
    have hbl : bitLen A ≤ 31 + E := bitLen_le_of_lt _ _ hlt
    by_cases ht : max (-(E : Int) + (bitLen A : Int) - 53) (-1074) ≤ -(E : Int)
    · refine ⟨(A : Int), -(E : Int), ?_, ?_, ?_⟩
      · unfold roundBinary64
        simp only [hnat, hA, if_false, ht, if_true]
        rw [if_neg (by omega)]
      · exact trunc_nonneg _ _ (Int.ofNat_nonneg A)
      · unfold CDouble.trunc
        rw [if_neg (by omega), if_neg hneg, hnat, h2]
        have : A / 2 ^ E ≤ N := Nat.div_le_of_le_mul (by rw [Nat.mul_comm]; exact hb)
        exact_mod_cast this
    · -- the product is rounded to a multiple of `2 ^ target`
      have htneg : max (-(E : Int) + (bitLen A : Int) - 53) (-1074) < 0 := by
        apply max_lt <;> omega
      obtain ⟨T, hT⟩ : ∃ T : Nat,
          max (-(E : Int) + (bitLen A : Int) - 53) (-1074) = -(T : Int) :=
        ⟨(-(max (-(E : Int) + (bitLen A : Int) - 53) (-1074))).toNat, by omega⟩
      rw [hT] at ht htneg
      have hT0 : 0 < T := by omega
      have hTE : T < E := by omega
      have hk : (-(T : Int) - -(E : Int)).toNat = E - T := by omega
      have hpow : 2 ^ E = 2 ^ T * 2 ^ (E - T) := by
        rw [← Nat.pow_add]
        congr 1
        omega
      have hkpos : 0 < 2 ^ (E - T) := by positivity
      have hq : A / 2 ^ (E - T) ≤ N * 2 ^ T := by
        apply Nat.div_le_of_le_mul
        calc A ≤ N * 2 ^ E := hb
          _ = 2 ^ (E - T) * (N * 2 ^ T) := by rw [hpow]; ring
      have hq1 : (if 2 ^ (E - T - 1) < A % 2 ^ (E - T) ∨
            (A % 2 ^ (E - T) = 2 ^ (E - T - 1) ∧ A / 2 ^ (E - T) % 2 = 1)
          then A / 2 ^ (E - T) + 1 else A / 2 ^ (E - T)) ≤ N * 2 ^ T := by
        split_ifs with hc
        · rcases Nat.lt_or_ge (A / 2 ^ (E - T)) (N * 2 ^ T) with hlt2 | hge
          · omega
          · exfalso
            have heq : A / 2 ^ (E - T) = N * 2 ^ T := le_antisymm hq hge
            have hdm := Nat.div_add_mod A (2 ^ (E - T))
            rw [heq] at hdm
            have hA2 : A ≤ 2 ^ (E - T) * (N * 2 ^ T) := by
              calc A ≤ N * 2 ^ E := hb
                _ = 2 ^ (E - T) * (N * 2 ^ T) := by rw [hpow]; ring
            have hr0 : A % 2 ^ (E - T) = 0 := by omega
            have hhalf : 0 < 2 ^ (E - T - 1) := by positivity
            rw [hr0] at hc
            rcases hc with hc | ⟨hc, -⟩ <;> omega
        · exact hq
      generalize hq1def : (if 2 ^ (E - T - 1) < A % 2 ^ (E - T) ∨
            (A % 2 ^ (E - T) = 2 ^ (E - T - 1) ∧ A / 2 ^ (E - T) % 2 = 1)
          then A / 2 ^ (E - T) + 1 else A / 2 ^ (E - T)) = q1 at hq1
      have hq1lt : q1 < 2 ^ (31 + T) := by
        rw [Nat.pow_add]
        exact Nat.lt_of_le_of_lt hq1 (Nat.mul_lt_mul_of_pos_right hN (by positivity))
      have hbl1 : bitLen q1 ≤ 31 + T := bitLen_le_of_lt _ _ hq1lt
      refine ⟨(q1 : Int), -(T : Int), ?_, ?_, ?_⟩
      · unfold roundBinary64
        simp only [hnat, hA, if_false, hT, ht, hk, hneg, hq1def]
        rw [if_neg (by omega)]
      · exact trunc_nonneg _ _ (Int.ofNat_nonneg q1)
      · unfold CDouble.trunc
        have h3 : (-(-(T : Int))).toNat = T := by omega
        rw [if_neg (by omega), if_neg (by omega), Int.natAbs_ofNat, h3]
        have : q1 / 2 ^ T ≤ N := Nat.div_le_of_le_mul (by rw [Nat.mul_comm]; exact hq1)
        exact_mod_cast this

theorem tone_at_most_one (m e : Int) (hm : 0 < m)
    (h : CDouble.gt (.fin m e) (literal 1 1) = false) :
    m.toNat * 2 ^ e.toNat ≤ 2 ^ (-e).toNat := by
  rw [literal_one] at h
  simp only [CDouble.gt, CDouble.lt, decide_eq_false_iff_not, not_lt] at h
  obtain ⟨M, rfl⟩ := Int.eq_ofNat_of_zero_le (le_of_lt hm)
  simp only [Int.toNat_ofNat]
  rcases le_or_lt 0 e with he | he
  · obtain ⟨E, rfl⟩ := Int.eq_ofNat_of_zero_le he
    have hmin : min (-52 : Int) (E : Int) = -52 := min_eq_left (by omega)
    have h1 : ((E : Int) - -52).toNat = E + 52 := by omega
    have h2 : ((-52 : Int) - -52).toNat = 0 := by omega
    have h3 : (-(E : Int)).toNat = 0 := by omega
    rw [hmin, h1, h2] at h
    simp only [Int.toNat_ofNat, h3, Nat.pow_zero]
    have h4 : M * 2 ^ (E + 52) ≤ 4503599627370496 := by exact_mod_cast h
    rw [Nat.pow_add] at h4
    have h5 : (2 : Nat) ^ 52 = 4503599627370496 := by norm_num
    rw [h5] at h4
    have h6 : M * 2 ^ E * 4503599627370496 ≤ 1 * 4503599627370496 := by
      rw [Nat.mul_assoc]
      omega
    exact Nat.le_of_mul_le_mul_right h6 (by norm_num)
  · obtain ⟨E, hE⟩ : ∃ E : Nat, e = -(E : Int) := ⟨(-e).toNat, by omega⟩
    subst hE
    have h1 : (-(E : Int)).toNat = 0 := by omega
    have h2 : (-(-(E : Int))).toNat = E := by omega
    rw [h1, h2, Nat.pow_zero, Nat.mul_one]
    rcases le_or_lt E 52 with hE | hE
    · have hmin : min (-52 : Int) (-(E : Int)) = -52 := min_eq_left (by omega)
      have h3 : (-(E : Int) - -52).toNat = 52 - E := by omega
      have h4 : ((-52 : Int) - -52).toNat = 0 := by omega
      rw [hmin, h3, h4] at h
      have h5 : M * 2 ^ (52 - E) ≤ 4503599627370496 := by exact_mod_cast h
      have h6 : (4503599627370496 : Nat) = 2 ^ E * 2 ^ (52 - E) := by
        rw [← Nat.pow_add]
        have : E + (52 - E) = 52 := by omega
        rw [this]
      rw [h6] at h5
      exact Nat.le_of_mul_le_mul_right h5 (by positivity)
    · have hmin : min (-52 : Int) (-(E : Int)) = -(E : Int) := min_eq_right (by omega)
      have h3 : (-(E : Int) - -(E : Int)).toNat = 0 := by omega
      have h4 : ((-52 : Int) - -(E : Int)).toNat = E - 52 := by omega
      rw [hmin, h3, h4] at h
      have h5 : M ≤ 4503599627370496 * 2 ^ (E - 52) := by
        have : (M : Int) * 2 ^ 0 ≤ 4503599627370496 * 2 ^ (E - 52) := h
        simp only [pow_zero, mul_one] at this
        exact_mod_cast this
      have h6 : (4503599627370496 : Nat) * 2 ^ (E - 52) = 2 ^ E := by
        have : (4503599627370496 : Nat) = 2 ^ 52 := by norm_num
        rw [this, ← Nat.pow_add]
        congr 1
        omega
      rw [h6] at h5
      exact h5

/-- For a sample rate that fits an `int` and an accepted tone length other than NaN, the
cast of line 96 is defined, and `samplesPerDigit` lies between 0 and the sample rate. -/
theorem samplesPerDigit_defined (k : WaveConsts) (t : CDouble)
    (h0 : 0 ≤ k.SAMPLE_RATE) (h1 : k.SAMPLE_RATE < 2 ^ 31)
    (ht : toneLengthRejected t = false) (hnan : t ≠ .nan) :
    ∃ spd, samplesPerDigitOf k t = some spd ∧ 0 ≤ spd ∧ spd ≤ k.SAMPLE_RATE := by
  rcases accepted_tone_is_positive t ht with rfl | ⟨m, e, rfl, hm⟩
  · exact absurd rfl hnan
  · have hgt : CDouble.gt (.fin m e) (literal 1 1) = false := by
      unfold toneLengthRejected at ht
      rw [Bool.or_eq_false_iff] at ht
      exact ht.2
    have hle := tone_at_most_one m e hm hgt
    obtain ⟨N, hN⟩ := Int.eq_ofNat_of_zero_le h0
    obtain ⟨M, hM⟩ := Int.eq_ofNat_of_zero_le (le_of_lt hm)
    have hNlt : N < 2 ^ 31 := by
      rw [hN] at h1
      exact_mod_cast h1
    have hMn : m.toNat = M := by rw [hM]; exact Int.toNat_ofNat M
    rw [hMn] at hle
    have hb : (N * M) * 2 ^ e.toNat ≤ N * 2 ^ (-e).toNat := by
      rw [Nat.mul_assoc]
      exact Nat.mul_le_mul_left N hle
    obtain ⟨m2, e2, hr, hlo, hhi⟩ := round_bound (N * M) N e hNlt hb
    refine ⟨CDouble.trunc m2 e2, ?_, hlo, by rw [hN]; exact hhi⟩
    unfold samplesPerDigitOf
    rw [ofInt_of_lt _ h0 (by omega)]
    simp only [CDouble.mul]
    have hprod : k.SAMPLE_RATE * m = ((N * M : Nat) : Int) := by
      rw [hN, hM]
      push_cast
      rfl
    rw [hprod, Int.zero_add, hr]
    simp only [castInt, CDouble.toIntRange]
    rw [if_pos ⟨by omega, by omega⟩]

/-! ## The three validations -/

theorem length_four (argv : List (List Char)) (h : argv.length = 4) :
    ∃ a b c d, argv = [a, b, c, d] := by
  match argv, h with
  | [a, b, c, d], _ => exact ⟨a, b, c, d, rfl⟩

theorem main_usage_of_rejected_tone (env : Env) (k : WaveConsts) (a b c d : List Char)
    (h : toneLengthRejected (env.atof c) = true) : main env k [a, b, c, d] = .usage := by
  simp [main, prepare, h]

theorem main_usage_of_failure (env : Env) (k : WaveConsts) (argv : List (List Char))
    (h : argv.length ≠ 4 ∨ toneLengthRejected (env.atof (argv.getD 2 [])) = true ∨
      ∃ c ∈ argv.getD 3 [], isDtmfChar c = false) :
    main env k argv = .usage := by
  by_cases hlen : argv.length = 4
  · obtain ⟨a, b, c, d, rfl⟩ := length_four argv hlen
    simp only [List.getD_cons_succ, List.getD_cons_zero] at h
    cases htone : toneLengthRejected (env.atof c) with
    | true => exact main_usage_of_rejected_tone env k a b c d htone
    | false =>
      rcases h with h | h | ⟨x, hx, hbad⟩
      · exact absurd hlen h
      · rw [htone] at h
        exact absurd h (by simp)
      · rw [main_usage_iff_scan env k a b c d htone]
        cases hs : scanDigits d 0 with
        | rejectedAt i => exact ⟨i, rfl⟩
        | accepted n =>
          have := ((scanDigits_accepted_iff _ 0 n).mp hs).1 x hx
          rw [hbad] at this
          exact absurd this (by simp)
  · simp [main, prepare, hlen]

theorem main_usage_only_of_failure (env : Env) (k : WaveConsts) (argv : List (List Char))
    (h : main env k argv = .usage) :
    argv.length ≠ 4 ∨ toneLengthRejected (env.atof (argv.getD 2 [])) = true ∨
      ∃ c ∈ argv.getD 3 [], isDtmfChar c = false := by
  by_cases hlen : argv.length = 4
  · obtain ⟨a, b, c, d, rfl⟩ := length_four argv hlen
    simp only [List.getD_cons_succ, List.getD_cons_zero]
    cases htone : toneLengthRejected (env.atof c) with
    | true => exact Or.inr (Or.inl rfl)
    | false =>
      refine Or.inr (Or.inr ?_)
      obtain ⟨i, hi⟩ := (main_usage_iff_scan env k a b c d htone).mp h
      obtain ⟨pre, x, post, hd, -, hx, -⟩ := (scanDigits_rejectedAt_iff _ 0 i).mp hi
      exact ⟨x, by rw [hd]; simp, hx⟩
  · exact Or.inl hlen

/-! ## The header of a run -/

theorem prepare_inr (env : Env) (k : WaveConsts) (argv : List (List Char))
    (p : Prepared) (h : prepare env k argv = .inr p) :
    ∃ a b c d spd, argv = [a, b, c, d] ∧ toneLengthRejected (env.atof c) = false ∧
      (∀ x ∈ d, isDtmfChar x = true) ∧ env.headerAlloc = true ∧
      samplesPerDigitOf k (env.atof c) = some spd ∧
      p = { toneLength := env.atof c,
            phoneString := d,
            numDigits := d.length,
            samplesPerDigit := spd,
            totalSamples := totalSamplesOf spd d.length,
            totalBytes := totalBytesOf spd d.length,
            header := buildHeader k (totalBytesOf spd d.length) } := by
  by_cases hlen : argv.length = 4
  · obtain ⟨a, b, c, d, rfl⟩ := length_four argv hlen
    cases htone : toneLengthRejected (env.atof c) with
    | true => simp [prepare, htone] at h
    | false =>
      cases hs : scanDigits d 0 with
      | rejectedAt i => simp [prepare, htone, hs] at h
      | accepted n =>
        cases hh : env.headerAlloc with
        | false => simp [prepare, htone, hs, hh] at h
        | true =>
          cases hspd : samplesPerDigitOf k (env.atof c) with
          | none => simp [prepare, htone, hs, hh, hspd] at h
          | some spd =>
            have hd := ((scanDigits_accepted_iff d 0 n).mp hs).1
            rw [prepare_of_valid env k a b c d spd htone hd hspd hh] at h
            simp only [Sum.inr.injEq] at h
            exact ⟨a, b, c, d, spd, rfl, htone, hd, rfl, hspd, h.symm⟩
  · simp [prepare, hlen] at h

theorem prepare_inr_header (env : Env) (k : WaveConsts) (argv : List (List Char))
    (p : Prepared) (h : prepare env k argv = .inr p) :
    p.header = buildHeader k p.totalBytes := by
  obtain ⟨a, b, c, d, spd, -, -, -, -, -, hp⟩ := prepare_inr env k argv p h
  rw [hp]

theorem main_wrote_header (env : Env) (k : WaveConsts) (argv : List (List Char))
    (path : List Char) (h : WAVEFILE) (hb : Nat) (cells : List (Option Int)) (db : Nat)
    (hw : main env k argv = .wrote path h hb cells db) :
    ∃ p, prepare env k argv = .inr p ∧ h = p.header := by
  by_cases hlen : argv.length = 4
  · obtain ⟨a, b, c, d, rfl⟩ := length_four argv hlen
    cases htone : toneLengthRejected (env.atof c) with
    | true => simp [main, prepare, htone] at hw
    | false =>
      cases hs : scanDigits d 0 with
      | rejectedAt i => simp [main, prepare, htone, hs] at hw
      | accepted n =>
        cases hh : env.headerAlloc with
        | false => simp [main, prepare, htone, hs, hh] at hw
        | true =>
          cases hspd : samplesPerDigitOf k (env.atof c) with
          | none => simp [main, prepare, htone, hs, hh, hspd] at hw
          | some spd =>
            have hd := ((scanDigits_accepted_iff d 0 n).mp hs).1
            refine ⟨_, prepare_of_valid env k a b c d spd htone hd hspd hh, ?_⟩
            rw [main_of_valid env k a b c d spd htone hd hspd] at hw
            cases h2 : env.dataAlloc (toSizeT (totalBytesOf spd d.length)) with
            | false => simp [hh, h2] at hw
            | true =>
              cases h3 : generate env k d d.length spd (toSizeT (totalBytesOf spd d.length)) with
              | none => simp [hh, h2, h3] at hw
              | some st =>
                cases h4 : env.fopenOk b with
                | false => simp [hh, h2, h3, h4] at hw
                | true =>
                  simp only [hh, h2, h3, h4, Bool.true_eq_false, if_false,
                    Outcome.wrote.injEq] at hw
                  exact hw.2.1.symm
  · simp [main, prepare, hlen] at hw

theorem buildHeader_format (k : WaveConsts) (tb : Int)
    (h0 : 0 ≤ k.SAMPLE_RATE) (h1 : k.SAMPLE_RATE < 2 ^ 31) :
    (buildHeader k tb).NumChannels = NUM_CHANNELS ∧
    (buildHeader k tb).AudioFormat = PCM_FORMAT ∧
    (buildHeader k tb).SampleRate = k.SAMPLE_RATE ∧
    (buildHeader k tb).BlockAlign = (buildHeader k tb).NumChannels * BYTES_PER_SAMPLE ∧
    (buildHeader k tb).ByteRate = (buildHeader k tb).SampleRate * (buildHeader k tb).BlockAlign ∧
    (buildHeader k tb).BitsPerSample = BYTES_PER_SAMPLE * 8 ∧
    (buildHeader k tb).SubChunk1Size = 16 ∧
    (buildHeader k tb).ChunkID = ['R', 'I', 'F', 'F'] ∧
    (buildHeader k tb).Format = ['W', 'A', 'V', 'E'] ∧
    (buildHeader k tb).SubChunk1ID = ['f', 'm', 't', ' '] ∧
    (buildHeader k tb).SubChunk2ID = ['d', 'a', 't', 'a'] := by
  have hba : toUInt16 (wrapInt32 2) = 2 := by decide
  have hbits : toUInt16 (wrapInt32 16) = 16 := by decide
  have hnc : toUInt16 1 = 1 := by decide
  have hs1 : toUInt32 16 = 16 := by decide
  have hsr : toUInt32 k.SAMPLE_RATE = k.SAMPLE_RATE := by
    unfold toUInt32
    omega
  have hbr : toUInt32 (wrapInt32 (k.SAMPLE_RATE * 2)) = k.SAMPLE_RATE * 2 := by
    unfold toUInt32 wrapInt32
    omega
  simp [buildHeader, NUM_CHANNELS, PCM_FORMAT, BYTES_PER_SAMPLE, hba, hbits, hnc, hs1, hsr,
    hbr]

/-! ## The integer part of the rounded product -/

theorem round_trunc (A N : Nat) (e : Int) (hN : N < 2 ^ 31)
    (hb : A * 2 ^ e.toNat ≤ N * 2 ^ (-e).toNat) :
    ∃ m2 e2, roundBinary64 (A : Int) e = .fin m2 e2 ∧
      (CDouble.trunc m2 e2 = ((A * 2 ^ e.toNat / 2 ^ (-e).toNat : Nat) : Int) ∨
        (CDouble.trunc m2 e2 = ((A * 2 ^ e.toNat / 2 ^ (-e).toNat : Nat) : Int) + 1 ∧
          ¬ 2 ^ (-e).toNat ∣ A * 2 ^ e.toNat)) := by
  by_cases hA : A = 0
  · subst hA
    refine ⟨0, 0, by simp [roundBinary64], Or.inl ?_⟩
    simp only [Nat.zero_mul, Nat.zero_div]
    decide
  have hnat : ((A : Nat) : Int).natAbs = A := Int.natAbs_ofNat A
  have hneg : ¬ ((A : Nat) : Int) < 0 := by omega
  have hbits := bitLen_spec A
  have hpos := bitLen_pos A hA
  rcases le_or_lt 0 e with he | he
  · obtain ⟨E, rfl⟩ := Int.eq_ofNat_of_zero_le he
    have h1 : (-(E : Int)).toNat = 0 := by omega
    simp only [Int.toNat_ofNat, h1, Nat.pow_zero, Nat.mul_one, Nat.div_one] at hb ⊢
    have hE1 : 1 ≤ 2 ^ E := Nat.one_le_two_pow
    have hAN : A ≤ N := le_trans (Nat.le_mul_of_pos_right A (by omega)) hb
    have hbl : bitLen A ≤ 31 := bitLen_le_of_lt _ _ (by omega)
    have hE : E < 31 := by
      have h2 : 2 ^ E ≤ A * 2 ^ E := Nat.le_mul_of_pos_left _ (by omega)
      have h3 : 2 ^ E < 2 ^ 31 := by omega
      exact (Nat.pow_lt_pow_iff_right (by norm_num : 1 < 2)).mp h3
    have ht : max ((E : Int) + (bitLen A : Int) - 53) (-1074) ≤ (E : Int) := by
      apply max_le <;> omega
    refine ⟨(A : Int), (E : Int), ?_, Or.inl ?_⟩
    · unfold roundBinary64
      simp only [hnat, hA, if_false, ht, if_true]
      rw [if_neg (by omega)]
    · unfold CDouble.trunc
      rw [if_pos he]
      simp only [Int.toNat_ofNat]
      push_cast
      rfl
  · obtain ⟨E, hE⟩ : ∃ E : Nat, e = -(E : Int) := ⟨(-e).toNat, by omega⟩
    subst hE
    have hE0 : 0 < E := by omega
    have h1 : (-(E : Int)).toNat = 0 := by omega
    have h2 : (-(-(E : Int))).toNat = E := by omega
    simp only [h1, h2, Nat.pow_zero, Nat.mul_one] at hb ⊢
    have hlt : A < 2 ^ (31 + E) := by
      rw [Nat.pow_add]
      exact Nat.lt_of_le_of_lt hb (Nat.mul_lt_mul_of_pos_right hN (by positivity))
    have hbl : bitLen A ≤ 31 + E := bitLen_le_of_lt _ _ hlt
    by_cases ht : max (-(E : Int) + (bitLen A : Int) - 53) (-1074) ≤ -(E : Int)
    · refine ⟨(A : Int), -(E : Int), ?_, Or.inl ?_⟩
      · unfold roundBinary64
        simp only [hnat, hA, if_false, ht, if_true]
        rw [if_neg (by omega)]
      · unfold CDouble.trunc
        rw [if_neg (by omega), if_neg hneg, hnat, h2]
    · have htneg : max (-(E : Int) + (bitLen A : Int) - 53) (-1074) < 0 := by
        apply max_lt <;> omega
      obtain ⟨T, hT⟩ : ∃ T : Nat,
          max (-(E : Int) + (bitLen A : Int) - 53) (-1074) = -(T : Int) :=
        ⟨(-(max (-(E : Int) + (bitLen A : Int) - 53) (-1074))).toNat, by omega⟩
      rw [hT] at ht htneg
      have hT0 : 0 < T := by omega
      have hTE : T < E := by omega
      have hk : (-(T : Int) - -(E : Int)).toNat = E - T := by omega
      have hpow : 2 ^ E = 2 ^ (E - T) * 2 ^ T := by
        rw [← Nat.pow_add]
        congr 1
        omega
      have hkpos : 0 < 2 ^ (E - T) := by positivity
      have hTpos : 0 < 2 ^ T := by positivity
      have hA2 : A ≤ 2 ^ (E - T) * (N * 2 ^ T) := by
        calc A ≤ N * 2 ^ E := hb
          _ = 2 ^ (E - T) * (N * 2 ^ T) := by rw [hpow]; ring
      have hq : A / 2 ^ (E - T) ≤ N * 2 ^ T := Nat.div_le_of_le_mul hA2
      have hF : A / 2 ^ (E - T) / 2 ^ T = A / 2 ^ E := by
        rw [Nat.div_div_eq_div_mul, ← hpow]
      have hq1 : (if 2 ^ (E - T - 1) < A % 2 ^ (E - T) ∨
            (A % 2 ^ (E - T) = 2 ^ (E - T - 1) ∧ A / 2 ^ (E - T) % 2 = 1)
          then A / 2 ^ (E - T) + 1 else A / 2 ^ (E - T)) ≤ N * 2 ^ T := by
        split_ifs with hc
        · rcases Nat.lt_or_ge (A / 2 ^ (E - T)) (N * 2 ^ T) with hlt2 | hge
          · omega
          · exfalso
            have heq : A / 2 ^ (E - T) = N * 2 ^ T := le_antisymm hq hge
            have hdm := Nat.div_add_mod A (2 ^ (E - T))
            rw [heq] at hdm
            have hr0 : A % 2 ^ (E - T) = 0 := by omega
            have hhalf : 0 < 2 ^ (E - T - 1) := by positivity
            rw [hr0] at hc
            rcases hc with hc | ⟨hc, -⟩ <;> omega
        · exact hq
      have hq1F : ((if 2 ^ (E - T - 1) < A % 2 ^ (E - T) ∨
            (A % 2 ^ (E - T) = 2 ^ (E - T - 1) ∧ A / 2 ^ (E - T) % 2 = 1)
          then A / 2 ^ (E - T) + 1 else A / 2 ^ (E - T)) / 2 ^ T = A / 2 ^ E) ∨
          ((if 2 ^ (E - T - 1) < A % 2 ^ (E - T) ∨
            (A % 2 ^ (E - T) = 2 ^ (E - T - 1) ∧ A / 2 ^ (E - T) % 2 = 1)
          then A / 2 ^ (E - T) + 1 else A / 2 ^ (E - T)) / 2 ^ T = A / 2 ^ E + 1 ∧
            ¬ 2 ^ E ∣ A) := by
        split_ifs with hc
        · have hr : A % 2 ^ (E - T) ≠ 0 := by
            have hhalf : 0 < 2 ^ (E - T - 1) := by positivity
            rcases hc with hc | ⟨hc, -⟩ <;> omega
          have hnd : ¬ 2 ^ E ∣ A := by
            intro hdvd
            have : 2 ^ (E - T) ∣ A := Dvd.dvd.trans ⟨2 ^ T, hpow⟩ hdvd
            exact hr (Nat.mod_eq_zero_of_dvd this)
          have hdm := Nat.div_add_mod (A / 2 ^ (E - T)) (2 ^ T)
          have hml := Nat.mod_lt (A / 2 ^ (E - T)) hTpos
          rw [hF] at hdm
          rcases Nat.lt_or_ge (A / 2 ^ (E - T) % 2 ^ T + 1) (2 ^ T) with hs | hs
          · left
            have : A / 2 ^ (E - T) + 1 = 2 ^ T * (A / 2 ^ E) + (A / 2 ^ (E - T) % 2 ^ T + 1) := by
              omega
            rw [this, Nat.mul_add_div hTpos, Nat.div_eq_of_lt hs]
            rfl
          · right
            refine ⟨?_, hnd⟩
            have : A / 2 ^ (E - T) + 1 = 2 ^ T * (A / 2 ^ E + 1) := by
              rw [Nat.mul_add, Nat.mul_one]
              omega
            rw [this, Nat.mul_div_cancel_left _ hTpos]
        · left
          exact hF
      generalize hq1def : (if 2 ^ (E - T - 1) < A % 2 ^ (E - T) ∨
            (A % 2 ^ (E - T) = 2 ^ (E - T - 1) ∧ A / 2 ^ (E - T) % 2 = 1)
          then A / 2 ^ (E - T) + 1 else A / 2 ^ (E - T)) = q1 at hq1 hq1F
      have hq1lt : q1 < 2 ^ (31 + T) := by
        rw [Nat.pow_add]
        exact Nat.lt_of_le_of_lt hq1 (Nat.mul_lt_mul_of_pos_right hN (by positivity))
      have hbl1 : bitLen q1 ≤ 31 + T := bitLen_le_of_lt _ _ hq1lt
      have h3 : (-(-(T : Int))).toNat = T := by omega
      have htr : CDouble.trunc (q1 : Int) (-(T : Int)) = ((q1 / 2 ^ T : Nat) : Int) := by
        unfold CDouble.trunc
        rw [if_neg (by omega), if_neg (by omega), Int.natAbs_ofNat, h3]
      refine ⟨(q1 : Int), -(T : Int), ?_, ?_⟩
      · unfold roundBinary64
        simp only [hnat, hA, if_false, hT, ht, hk, hneg, hq1def]
        rw [if_neg (by omega)]
      · rw [htr]
        rcases hq1F with h | ⟨h, hnd⟩
        · left
          rw [h]
        · right
          exact ⟨by rw [h]; push_cast; rfl, hnd⟩

/-! ## The order of the assignments to the buffer -/

theorem innerLoop_stores (env : Env) (k : WaveConsts) (f1 f2 : Int) :
    ∀ (r : Nat) (n : Int) (st st1 : GenState),
      innerLoop env k f1 f2 r n st = some st1 →
      st1.stores = st.stores ++ List.range' st.sampleIndex r := by
  intro r
  induction r with
  | zero =>
    intro n st st1 h
    simp only [innerLoop, Option.some.injEq] at h
    subst h
    simp
  | succ r ih =>
    intro n st st1 h
    simp only [innerLoop] at h
    cases hs : storeSample st (sampleValue env k f1 f2 n) with
    | none => simp [hs] at h
    | some st2 =>
      simp only [hs] at h
      obtain ⟨s, -, -, hst2⟩ := storeSample_some _ _ _ hs
      rw [ih (n + 1) st2 st1 h, hst2, List.range'_succ]
      simp

theorem outerLoop_stores (env : Env) (k : WaveConsts) (s : List Char) (spd : Int) :
    ∀ (r i : Nat) (st st1 : GenState),
      outerLoop env k s spd r i st = some st1 →
      st1.stores = st.stores ++ List.range' st.sampleIndex (r * spd.toNat) := by
  intro r
  induction r with
  | zero =>
    intro i st st1 h
    simp only [outerLoop, Option.some.injEq] at h
    subst h
    simp
  | succ r ih =>
    intro i st st1 h
    simp only [outerLoop] at h
    cases hin : innerLoop env k (get_freqs (charAt s i)).1 (get_freqs (charAt s i)).2
        spd.toNat 0 st with
    | none => simp [hin] at h
    | some st2 =>
      simp only [hin] at h
      obtain ⟨hi1, -, -, -, -⟩ := innerLoop_some env k _ _ _ _ _ _ hin
      rw [ih (i + 1) st2 st1 h, innerLoop_stores env k _ _ _ _ _ _ hin, hi1,
        List.append_assoc, List.range'_append_1]
      congr 2
      ring

theorem generate_stores (env : Env) (k : WaveConsts) (s : List Char) (nd : Nat) (spd : Int)
    (bytes : Nat) (st : GenState) (h : generate env k s nd spd bytes = some st) :
    st.sampleIndex = nd * spd.toNat ∧ st.stores = List.range (nd * spd.toNat) := by
  obtain ⟨hi, -, -, -, -⟩ := outerLoop_some env k s spd nd 0 _ st h
  have hs := outerLoop_stores env k s spd nd 0 _ st h
  simp only [Nat.zero_add, List.nil_append] at hi hs
  exact ⟨hi, by rw [hs, List.range_eq_range']⟩

theorem blockOf_length (env : Env) (k : WaveConsts) (spd : Int) (c : Char) :
    (blockOf env k spd c).length = spd.toNat := by
  simp [blockOf]

theorem blocksOf_length (env : Env) (k : WaveConsts) (spd : Int) (digits : List Char) :
    (blocksOf env k spd digits).length = digits.length * spd.toNat := by
  induction digits with
  | nil => simp [blocksOf]
  | cons c rest ih =>
    simp only [blocksOf, List.length_append, blockOf_length, ih, List.length_cons]
    ring

theorem charAt_cons_succ (c : Char) (rest : List Char) (i : Nat) :
    charAt (c :: rest) (i + 1) = charAt rest i := by
  simp [charAt]

theorem charAt_cons_zero (c : Char) (rest : List Char) : charAt (c :: rest) 0 = c := by
  simp [charAt]

theorem blocksOf_getElem (env : Env) (k : WaveConsts) (spd : Int) :
    ∀ (digits : List Char) (i n : Nat), i < digits.length → n < spd.toNat →
      (blocksOf env k spd digits)[i * spd.toNat + n]? =
        some (sampleAt env k (charAt digits i) n) := by
  intro digits
  induction digits with
  | nil =>
    intro i n hi _
    simp at hi
  | cons c rest ih =>
    intro i n hi hn
    cases i with
    | zero =>
      rw [Nat.zero_mul, Nat.zero_add, charAt_cons_zero]
      simp only [blocksOf]
      rw [List.getElem?_append_left (by rw [blockOf_length]; exact hn)]
      simp [blockOf, hn]
    | succ i =>
      rw [charAt_cons_succ]
      simp only [blocksOf]
      have hidx : (i + 1) * spd.toNat + n = (blockOf env k spd c).length + (i * spd.toNat + n) := by
        rw [blockOf_length]
        ring
      rw [hidx, List.getElem?_append_right (by omega)]
      simp only [Nat.add_sub_cancel_left]
      exact ih i n (by simpa using hi) hn

/-- On a valid input, the buffer of every file `main` writes is the concatenation of the
blocks of the characters in the order of the digit string; the loops have assigned the
cells `0 … samplesPerDigit * digitCount - 1` in this order, each once; `sampleIndex`
ends at `totalSamples`, the number of cells of the buffer. -/
theorem buffer_is_concatenation (env : Env) (k : WaveConsts)
    (prog path tone digits : List Char) (spd : Int)
    (hrate : 0 ≤ k.SAMPLE_RATE)
    (htone : toneLengthRejected (env.atof tone) = false)
    (hdigits : ∀ c ∈ digits, isDtmfChar c = true)
    (hspd : samplesPerDigitOf k (env.atof tone) = some spd)
    (hheap : ∀ sz, env.dataAlloc sz = true → sz < 2 ^ 63)
    (p : List Char) (h : WAVEFILE) (hb : Nat) (cells : List (Option Int)) (db : Nat)
    (hw : main env k [prog, path, tone, digits] = .wrote p h hb cells db) :
    cells = blocksOf env k spd digits ∧
    ∃ st, generate env k digits digits.length spd db = some st ∧ st.cells = cells ∧
      (st.sampleIndex : Int) = totalSamplesOf spd digits.length ∧
      (st.sampleIndex : Int) = spd * (digits.length : Int) ∧
      st.sampleIndex = cells.length ∧
      st.stores = List.range st.sampleIndex := by
  have h0 : 0 ≤ spd := samplesPerDigit_nonneg k _ spd hrate htone hspd
  have hS : ((spd.toNat : Nat) : Int) = spd := Int.toNat_of_nonneg h0
  obtain ⟨-, -, -, e4, e5, st, hgen, hcells⟩ :=
    main_wrote_facts env k prog path tone digits spd hrate htone hdigits hspd hheap
      p h hb cells db hw
  obtain ⟨hlen, -, hval, -⟩ := generate_some env k digits digits.length spd db st hgen
  obtain ⟨hidx, hstores⟩ := generate_stores env k digits digits.length spd db st hgen
  have hdb : db = 2 * (digits.length * spd.toNat) := by
    apply Int.ofNat.inj
    simp only [Int.ofNat_eq_coe]
    rw [e4]
    push_cast
    rw [hS]
    ring
  have hclen : cells.length = digits.length * spd.toNat := by
    rw [← hcells, hlen, hdb]
    omega
  have hprod : ((digits.length * spd.toNat : Nat) : Int) = spd * (digits.length : Int) := by
    push_cast
    rw [hS]
    ring
  have hnn : (0 : Int) ≤ spd * (digits.length : Int) := Int.mul_nonneg h0 (Int.ofNat_nonneg _)
  refine ⟨?_, st, hgen, hcells, ?_, ?_, ?_, ?_⟩
  · apply List.ext_getElem?
    intro idx
    by_cases hi : idx < digits.length * spd.toNat
    · have hpos : 0 < spd.toNat := by
        rcases Nat.eq_zero_or_pos spd.toNat with hz | hz
        · rw [hz] at hi
          simp at hi
        · exact hz
      have hq : idx / spd.toNat < digits.length :=
        Nat.div_lt_of_lt_mul (by rw [Nat.mul_comm]; exact hi)
      have hr : idx % spd.toNat < spd.toNat := Nat.mod_lt _ hpos
      have hsplit : idx / spd.toNat * spd.toNat + idx % spd.toNat = idx := by
        rw [Nat.mul_comm]
        exact Nat.div_add_mod idx spd.toNat
      obtain ⟨v, hv1, hv2⟩ := hval (idx / spd.toNat) (idx % spd.toNat) hq hr
      have hb2 := blocksOf_getElem env k spd digits (idx / spd.toNat) (idx % spd.toNat) hq hr
      rw [hsplit] at hv2 hb2
      rw [← hcells, hv2, hb2]
      simp only [sampleAt]
      rw [hv1]
    · rw [List.getElem?_eq_none (by omega),
        List.getElem?_eq_none (by rw [blocksOf_length]; omega)]
  · rw [hidx, hprod]
    unfold totalSamplesOf
    rw [wrapInt32_of_range _ (by omega) (by omega)]
  · rw [hidx, hprod]
  · rw [hidx, hclen]
  · rw [hstores, hidx]

theorem replicate_valid (c : Char) (hc : isDtmfChar c = true) (n : Nat) :
    ∀ d ∈ List.replicate n c, isDtmfChar d = true := by
  intro d hd
  rw [List.eq_of_mem_replicate hd]
  exact hc

/-- On a valid input whose buffer has fewer cells than the loops assign, the loops store
past the end of the buffer: `main` has undefined behaviour once both allocations have
succeeded. -/
theorem main_undefined_of_overrun (env : Env) (k : WaveConsts)
    (prog path tone digits : List Char) (spd : Int)
    (htone : toneLengthRejected (env.atof tone) = false)
    (hdigits : ∀ c ∈ digits, isDtmfChar c = true)
    (hspd : samplesPerDigitOf k (env.atof tone) = some spd)
    (hhdr : env.headerAlloc = true)
    (hdata : env.dataAlloc (toSizeT (totalBytesOf spd digits.length)) = true)
    (hover : toSizeT (totalBytesOf spd digits.length) / 2 < digits.length * spd.toNat) :
    generate env k digits digits.length spd (toSizeT (totalBytesOf spd digits.length)) = none ∧
    main env k [prog, path, tone, digits] = .undefined := by
  have hg : generate env k digits digits.length spd
      (toSizeT (totalBytesOf spd digits.length)) = none := by
    cases hg : generate env k digits digits.length spd
        (toSizeT (totalBytesOf spd digits.length)) with
    | none => rfl
    | some st =>
      obtain ⟨-, hcap, -, -⟩ := generate_some _ _ _ _ _ _ st hg
      omega
  refine ⟨hg, ?_⟩
  rw [main_of_valid env k prog path tone digits spd htone hdigits hspd, hhdr, hdata, hg]
  rfl

/-! ## The range of a sample -/

theorem pow_balance (X Y p q : Nat) (e : Int) (h : (p : Int) - (q : Int) = e)
    (hb : X * 2 ^ p ≤ Y * 2 ^ q) : X * 2 ^ e.toNat ≤ Y * 2 ^ (-e).toNat := by
  rcases le_or_lt 0 e with he | he
  · have h1 : (-e).toNat = 0 := by omega
    have h2 : p = e.toNat + q := by omega
    rw [h1, Nat.pow_zero, Nat.mul_one]
    rw [h2, Nat.pow_add, ← Nat.mul_assoc] at hb
    exact Nat.le_of_mul_le_mul_right hb (by positivity)
  · have h1 : e.toNat = 0 := by omega
    have h2 : q = (-e).toNat + p := by omega
    rw [h1, Nat.pow_zero, Nat.mul_one]
    rw [h2, Nat.pow_add, ← Nat.mul_assoc] at hb
    exact Nat.le_of_mul_le_mul_right hb (by positivity)

theorem scale_le (M N : Nat) (e e0 : Int) (h : e0 ≤ e)
    (hb : M * 2 ^ e.toNat ≤ N * 2 ^ (-e).toNat) :
    M * 2 ^ (e - e0).toNat * 2 ^ e0.toNat ≤ N * 2 ^ (-e0).toNat := by
  apply pow_balance (M * 2 ^ (e - e0).toNat) N (e.toNat) ((-e).toNat + (e - e0).toNat) e0
  · push_cast
    omega
  · calc M * 2 ^ (e - e0).toNat * 2 ^ e.toNat
        = M * 2 ^ e.toNat * 2 ^ (e - e0).toNat := by ring
      _ ≤ N * 2 ^ (-e).toNat * 2 ^ (e - e0).toNat := Nat.mul_le_mul_right _ hb
      _ = N * 2 ^ ((-e).toNat + (e - e0).toNat) := by rw [Nat.pow_add]; ring

theorem trunc_natAbs_le (m e : Int) (N : Nat)
    (hb : m.natAbs * 2 ^ e.toNat ≤ N * 2 ^ (-e).toNat) :
    (CDouble.trunc m e).natAbs ≤ N := by
  unfold CDouble.trunc
  rcases le_or_lt 0 e with he | he
  · have h1 : (-e).toNat = 0 := by omega
    rw [h1, Nat.pow_zero, Nat.mul_one] at hb
    rw [if_pos he, Int.natAbs_mul, Int.natAbs_pow]
    exact hb
  · have h1 : e.toNat = 0 := by omega
    rw [h1, Nat.pow_zero, Nat.mul_one] at hb
    have h2 : m.natAbs / 2 ^ (-e).toNat ≤ N :=
      Nat.div_le_of_le_mul (by rw [Nat.mul_comm]; exact hb)
    rw [if_neg (by omega)]
    split_ifs
    · rw [Int.natAbs_neg, Int.natAbs_ofNat]
      exact h2
    · rw [Int.natAbs_ofNat]
      exact h2

theorem round_absLe (m e : Int) (N : Nat) (hN : N < 2 ^ 31)
    (hb : m.natAbs * 2 ^ e.toNat ≤ N * 2 ^ (-e).toNat) :
    ∃ m2 e2, roundBinary64 m e = .fin m2 e2 ∧
      m2.natAbs * 2 ^ e2.toNat ≤ N * 2 ^ (-e2).toNat := by
  by_cases hA : m.natAbs = 0
  · exact ⟨0, 0, by simp [roundBinary64, hA], by simp⟩
  have hbits := bitLen_spec m.natAbs
  have hpos := bitLen_pos m.natAbs hA
  have hb0 := hb
  rcases le_or_lt 0 e with he | he
  · obtain ⟨E, rfl⟩ := Int.eq_ofNat_of_zero_le he
    have h1 : (-(E : Int)).toNat = 0 := by omega
    simp only [Int.toNat_ofNat, h1, Nat.pow_zero, Nat.mul_one] at hb
    have hE1 : 1 ≤ 2 ^ E := Nat.one_le_two_pow
    have hAN : m.natAbs ≤ N := le_trans (Nat.le_mul_of_pos_right _ (by omega)) hb
    have hbl : bitLen m.natAbs ≤ 31 := bitLen_le_of_lt _ _ (by omega)
    have hE : E < 31 := by
      have h2 : 2 ^ E ≤ m.natAbs * 2 ^ E := Nat.le_mul_of_pos_left _ (by omega)
      have h3 : 2 ^ E < 2 ^ 31 := by omega
      exact (Nat.pow_lt_pow_iff_right (by norm_num : 1 < 2)).mp h3
    have ht : max ((E : Int) + (bitLen m.natAbs : Int) - 53) (-1074) ≤ (E : Int) := by
      apply max_le <;> omega
    refine ⟨m, (E : Int), ?_, hb0⟩
    unfold roundBinary64
    simp only [hA, if_false, ht, if_true]
    rw [if_neg (by omega)]
  · obtain ⟨E, hE⟩ : ∃ E : Nat, e = -(E : Int) := ⟨(-e).toNat, by omega⟩
    subst hE
    have hE0 : 0 < E := by omega
    have h1 : (-(E : Int)).toNat = 0 := by omega
    have h2 : (-(-(E : Int))).toNat = E := by omega
    simp only [h1, h2, Nat.pow_zero, Nat.mul_one] at hb
    have hlt : m.natAbs < 2 ^ (31 + E) := by
      rw [Nat.pow_add]
      exact Nat.lt_of_le_of_lt hb (Nat.mul_lt_mul_of_pos_right hN (by positivity))
    have hbl : bitLen m.natAbs ≤ 31 + E := bitLen_le_of_lt _ _ hlt
    by_cases ht : max (-(E : Int) + (bitLen m.natAbs : Int) - 53) (-1074) ≤ -(E : Int)
    · refine ⟨m, -(E : Int), ?_, hb0⟩
      unfold roundBinary64
      simp only [hA, if_false, ht, if_true]
      rw [if_neg (by omega)]
    · have htneg : max (-(E : Int) + (bitLen m.natAbs : Int) - 53) (-1074) < 0 := by
        apply max_lt <;> omega
      obtain ⟨T, hT⟩ : ∃ T : Nat,
          max (-(E : Int) + (bitLen m.natAbs : Int) - 53) (-1074) = -(T : Int) :=
        ⟨(-(max (-(E : Int) + (bitLen m.natAbs : Int) - 53) (-1074))).toNat, by omega⟩
      rw [hT] at ht htneg
      have hT0 : 0 < T := by omega
      have hTE : T < E := by omega
      have hk : (-(T : Int) - -(E : Int)).toNat = E - T := by omega
      have hpow : 2 ^ E = 2 ^ T * 2 ^ (E - T) := by
        rw [← Nat.pow_add]
        congr 1
        omega
      have hkpos : 0 < 2 ^ (E - T) := by positivity
      have hA2 : m.natAbs ≤ 2 ^ (E - T) * (N * 2 ^ T) := by
        calc m.natAbs ≤ N * 2 ^ E := hb
          _ = 2 ^ (E - T) * (N * 2 ^ T) := by rw [hpow]; ring
      have hq : m.natAbs / 2 ^ (E - T) ≤ N * 2 ^ T := Nat.div_le_of_le_mul hA2
      have hq1 : (if 2 ^ (E - T - 1) < m.natAbs % 2 ^ (E - T) ∨
            (m.natAbs % 2 ^ (E - T) = 2 ^ (E - T - 1) ∧ m.natAbs / 2 ^ (E - T) % 2 = 1)
          then m.natAbs / 2 ^ (E - T) + 1 else m.natAbs / 2 ^ (E - T)) ≤ N * 2 ^ T := by
        split_ifs with hc
        · rcases Nat.lt_or_ge (m.natAbs / 2 ^ (E - T)) (N * 2 ^ T) with hlt2 | hge
          · omega
          · exfalso
            have heq : m.natAbs / 2 ^ (E - T) = N * 2 ^ T := le_antisymm hq hge
            have hdm := Nat.div_add_mod m.natAbs (2 ^ (E - T))
            rw [heq] at hdm
            have hr0 : m.natAbs % 2 ^ (E - T) = 0 := by omega
            have hhalf : 0 < 2 ^ (E - T - 1) := by positivity
            rw [hr0] at hc
            rcases hc with hc | ⟨hc, -⟩ <;> omega
        · exact hq
      generalize hq1def : (if 2 ^ (E - T - 1) < m.natAbs % 2 ^ (E - T) ∨
            (m.natAbs % 2 ^ (E - T) = 2 ^ (E - T - 1) ∧ m.natAbs / 2 ^ (E - T) % 2 = 1)
          then m.natAbs / 2 ^ (E - T) + 1 else m.natAbs / 2 ^ (E - T)) = q1 at hq1
      have hq1lt : q1 < 2 ^ (31 + T) := by
        rw [Nat.pow_add]
        exact Nat.lt_of_le_of_lt hq1 (Nat.mul_lt_mul_of_pos_right hN (by positivity))
      have hbl1 : bitLen q1 ≤ 31 + T := bitLen_le_of_lt _ _ hq1lt
      refine ⟨if m < 0 then -(q1 : Int) else (q1 : Int), -(T : Int), ?_, ?_⟩
      · unfold roundBinary64
        simp only [hA, if_false, hT, ht, hk, hq1def]
        rw [if_neg (by omega)]
      · have h3 : (-(-(T : Int))).toNat = T := by omega
        have h4 : (-(T : Int)).toNat = 0 := by omega
        have h5 : (if m < 0 then -(q1 : Int) else (q1 : Int)).natAbs = q1 := by
          split_ifs <;> simp
        rw [h3, h4, h5, Nat.pow_zero, Nat.mul_one]
        exact hq1

theorem add_absLe (m1 e1 m2 e2 : Int)
    (h1 : m1.natAbs * 2 ^ e1.toNat ≤ 1 * 2 ^ (-e1).toNat)
    (h2 : m2.natAbs * 2 ^ e2.toNat ≤ 1 * 2 ^ (-e2).toNat) :
    ∃ m e, CDouble.add (.fin m1 e1) (.fin m2 e2) = .fin m e ∧
      m.natAbs * 2 ^ e.toNat ≤ 2 * 2 ^ (-e).toNat := by
  simp only [CDouble.add]
  apply round_absLe _ _ 2 (by norm_num)
  have s1 := scale_le m1.natAbs 1 e1 (min e1 e2) (min_le_left _ _) h1
  have s2 := scale_le m2.natAbs 1 e2 (min e1 e2) (min_le_right _ _) h2
  have h3 : (m1 * 2 ^ (e1 - min e1 e2).toNat + m2 * 2 ^ (e2 - min e1 e2).toNat).natAbs ≤
      m1.natAbs * 2 ^ (e1 - min e1 e2).toNat + m2.natAbs * 2 ^ (e2 - min e1 e2).toNat := by
    refine le_trans (Int.natAbs_add_le _ _) ?_
    rw [Int.natAbs_mul, Int.natAbs_mul, Int.natAbs_pow, Int.natAbs_pow]
    exact le_refl _
  calc (m1 * 2 ^ (e1 - min e1 e2).toNat + m2 * 2 ^ (e2 - min e1 e2).toNat).natAbs *
        2 ^ (min e1 e2).toNat
      ≤ (m1.natAbs * 2 ^ (e1 - min e1 e2).toNat + m2.natAbs * 2 ^ (e2 - min e1 e2).toNat) *
        2 ^ (min e1 e2).toNat := Nat.mul_le_mul_right _ h3
    _ = m1.natAbs * 2 ^ (e1 - min e1 e2).toNat * 2 ^ (min e1 e2).toNat +
        m2.natAbs * 2 ^ (e2 - min e1 e2).toNat * 2 ^ (min e1 e2).toNat := by ring
    _ ≤ 1 * 2 ^ (-(min e1 e2)).toNat + 1 * 2 ^ (-(min e1 e2)).toNat := Nat.add_le_add s1 s2
    _ = 2 * 2 ^ (-(min e1 e2)).toNat := by ring

theorem mul_absLe (ma ea ms es : Int) (N : Nat) (hN : N < 2 ^ 31)
    (hA : 2 * ma.natAbs * 2 ^ ea.toNat ≤ N * 2 ^ (-ea).toNat)
    (hs : ms.natAbs * 2 ^ es.toNat ≤ 2 * 2 ^ (-es).toNat) :
    ∃ m e, CDouble.mul (.fin ma ea) (.fin ms es) = .fin m e ∧
      m.natAbs * 2 ^ e.toNat ≤ N * 2 ^ (-e).toNat := by
  simp only [CDouble.mul]
  apply round_absLe _ _ N hN
  rw [Int.natAbs_mul]
  apply pow_balance (ma.natAbs * ms.natAbs) N (ea.toNat + es.toNat)
    ((-ea).toNat + (-es).toNat) (ea + es)
  · push_cast
    omega
  · have h3 := Nat.mul_le_mul hA hs
    have h4 : 2 * (ma.natAbs * ms.natAbs * 2 ^ (ea.toNat + es.toNat)) ≤
        2 * (N * 2 ^ ((-ea).toNat + (-es).toNat)) := by
      calc 2 * (ma.natAbs * ms.natAbs * 2 ^ (ea.toNat + es.toNat))
          = 2 * ma.natAbs * 2 ^ ea.toNat * (ms.natAbs * 2 ^ es.toNat) := by ring
        _ ≤ N * 2 ^ (-ea).toNat * (2 * 2 ^ (-es).toNat) := h3
        _ = 2 * (N * 2 ^ ((-ea).toNat + (-es).toNat)) := by ring
    exact Nat.le_of_mul_le_mul_left h4 (by norm_num)

theorem castInt16_of_absLe (m e : Int)
    (hb : m.natAbs * 2 ^ e.toNat ≤ 32767 * 2 ^ (-e).toNat) :
    ∃ v, castInt16 (.fin m e) = some v ∧ -32767 ≤ v ∧ v ≤ 32767 := by
  have h := trunc_natAbs_le m e 32767 hb
  have h1 : -32767 ≤ CDouble.trunc m e ∧ CDouble.trunc m e ≤ 32767 := by omega
  refine ⟨CDouble.trunc m e, ?_, h1⟩
  simp only [castInt16, CDouble.toIntRange]
  rw [if_pos ⟨by omega, by omega⟩]

/-- The cast of line 138 cannot overflow when twice the absolute value of `AMPLITUDE`
is at most 32767 and `sin` yields values of absolute value at most 1 (or NaN): the
`double sampleValue` is NaN, which only a NaN of `sin` brings about, or its integer
part is between -32767 and 32767. -/
theorem sample_in_range (env : Env) (k : WaveConsts) (f1 f2 n : Int) (ma ea : Int)
    (hamp : k.AMPLITUDE = .fin ma ea)
    (hA : 2 * ma.natAbs * 2 ^ ea.toNat ≤ 32767 * 2 ^ (-ea).toNat)
    (hsin : ∀ x, env.sin x = .nan ∨
      ∃ m e, env.sin x = .fin m e ∧ m.natAbs * 2 ^ e.toNat ≤ 1 * 2 ^ (-e).toNat) :
    sampleValue env k f1 f2 n = .nan ∨
    ∃ v, castInt16 (sampleValue env k f1 f2 n) = some v ∧ -32767 ≤ v ∧ v ≤ 32767 := by
  unfold sampleValue
  split_ifs with hz
  · exact Or.inr ⟨0, by decide, by decide, by decide⟩
  · rw [hamp]
    generalize CDouble.div
      (CDouble.mul (CDouble.mul (CDouble.mul (literal 2 1) PI) (CDouble.ofInt f1))
        (CDouble.ofInt n)) (CDouble.ofInt k.SAMPLE_RATE) = x1
    generalize CDouble.div
      (CDouble.mul (CDouble.mul (CDouble.mul (literal 2 1) PI) (CDouble.ofInt f2))
        (CDouble.ofInt n)) (CDouble.ofInt k.SAMPLE_RATE) = x2
    rcases hsin x1 with h1 | ⟨m1, e1, h1, b1⟩
    · left
      rw [h1]
      simp [CDouble.add, CDouble.mul]
    rcases hsin x2 with h2 | ⟨m2, e2, h2, b2⟩
    · left
      rw [h1, h2]
      simp [CDouble.add, CDouble.mul]
    right
    obtain ⟨ms, es, hs, bs⟩ := add_absLe m1 e1 m2 e2 b1 b2
    obtain ⟨m, e, hm, bm⟩ := mul_absLe ma ea ms es 32767 (by norm_num) hA bs
    rw [h1, h2, hs, hm]
    exact castInt16_of_absLe m e bm

/-- The bound on `AMPLITUDE` cannot be dropped: with the amplitude 20000 and a `sin`
that yields 1, the `double sampleValue` of a tone is 40000 and the cast of line 138 is
undefined. -/
theorem sample_out_of_range :
    sampleValue { exampleEnv (literal 1 1) with sin := fun _ => CDouble.fin 1 0 }
      { SAMPLE_RATE := 44100, AMPLITUDE := CDouble.ofInt 20000 } 770 1336 1 =
      CDouble.fin 40000 0 ∧
    castInt16 (sampleValue { exampleEnv (literal 1 1) with sin := fun _ => CDouble.fin 1 0 }
      { SAMPLE_RATE := 44100, AMPLITUDE := CDouble.ofInt 20000 } 770 1336 1) = none := by
  constructor <;> decide

/-! ## A tone length out of range -/

theorem rejected_of_out_of_range (t : CDouble) (hnan : t ≠ .nan)
    (h : toneOutOfRange t = true) : toneLengthRejected t = true := by
  cases hr : toneLengthRejected t with
  | true => rfl
  | false =>
    exfalso
    unfold toneLengthRejected CDouble.gt at hr
    rw [Bool.or_eq_false_iff, lt_false_iff_le t _ hnan (by decide),
      lt_false_iff_le _ t (by decide) hnan] at hr
    simp [toneOutOfRange, hr.1, hr.2] at h

theorem samplesPerDigitOf_nan (k : WaveConsts) : samplesPerDigitOf k .nan = none := by
  unfold samplesPerDigitOf
  cases CDouble.ofInt k.SAMPLE_RATE <;> simp [CDouble.mul, castInt, CDouble.toIntRange]

theorem main_of_nan (env : Env) (k : WaveConsts) (prog path tone digits : List Char)
    (htone : env.atof tone = .nan) (hdigits : ∀ c ∈ digits, isDtmfChar c = true) :
    main env k [prog, path, tone, digits] =
      if env.headerAlloc = false then .allocFailed else .undefined := by
  have hscan : scanDigits digits 0 = .accepted digits.length :=
    (scanDigits_accepted_iff digits 0 digits.length).mpr ⟨hdigits, by omega⟩
  have hrej : toneLengthRejected (env.atof tone) = false := by
    rw [htone]
    decide
  cases halloc : env.headerAlloc with
  | false => simp [main, prepare, hrej, hscan, halloc]
  | true =>
    have hspd : samplesPerDigitOf k (env.atof tone) = none := by
      rw [htone]
      exact samplesPerDigitOf_nan k
    simp [main, prepare, hrej, hscan, halloc, hspd]


/-! ## The accuracy of the angle of a tone -/

theorem round_core (m e : Int) (hm : m ≠ 0) (he : -1021 ≤ e)
    (hov : e + (bitLen m.natAbs : Int) ≤ 1022) :
    ∃ (m2 : Int) (k : Nat), roundBinary64 m e = .fin m2 (e + (k : Int)) ∧
      (m2 * 2 ^ k - m).natAbs * 2 ^ 53 ≤ m.natAbs ∧
      (0 ≤ m → 0 ≤ m2) ∧ m2 ≠ 0 ∧
      (bitLen m2.natAbs : Int) + (k : Int) ≤ (bitLen m.natAbs : Int) + 1 := by
  have hA : m.natAbs ≠ 0 := by omega
  have hbits := bitLen_spec m.natAbs
  have hpos := bitLen_pos m.natAbs hA
  have htarget : max (e + (bitLen m.natAbs : Int) - 53) (-1074) =
      e + (bitLen m.natAbs : Int) - 53 := max_eq_left (by omega)
  by_cases ht : e + (bitLen m.natAbs : Int) - 53 ≤ e
  · refine ⟨m, 0, ?_, ?_, id, hm, ?_⟩
    · unfold roundBinary64
      simp only [hA, if_false, htarget, ht, if_true]
      rw [if_neg (by omega)]
      simp
    · simp
    · simp
  · obtain ⟨K, hK⟩ : ∃ K : Nat, bitLen m.natAbs = K + 54 := ⟨bitLen m.natAbs - 54, by omega⟩
    have hk : (e + (bitLen m.natAbs : Int) - 53 - e).toNat = K + 1 := by omega
    have hlo : 2 ^ (K + 53) ≤ m.natAbs := by
      have := hbits.2 hA
      rw [hK] at this
      exact this
    have hhi : m.natAbs < 2 ^ (K + 54) := by
      have := hbits.1
      rw [hK] at this
      exact this
    have hpk : (2 : Nat) ^ (K + 54) = 2 ^ (K + 1) * 2 ^ 53 := by rw [← Nat.pow_add]
    have hpk2 : (2 : Nat) ^ (K + 53) = 2 ^ (K + 1) * 2 ^ 52 := by rw [← Nat.pow_add]
    have hpk3 : (2 : Nat) ^ (K + 1) = 2 * 2 ^ K := by rw [Nat.pow_succ]; ring
    have hkpos : 0 < 2 ^ (K + 1) := by positivity
    have hdm := Nat.div_add_mod m.natAbs (2 ^ (K + 1))
    have hr := Nat.mod_lt m.natAbs hkpos
    have hqlt : m.natAbs / 2 ^ (K + 1) < 2 ^ 53 := by
      apply Nat.div_lt_of_lt_mul
      rw [← hpk]
      exact hhi
    have hqge : 2 ^ 52 ≤ m.natAbs / 2 ^ (K + 1) := by
      apply (Nat.le_div_iff_mul_le hkpos).mpr
      rw [Nat.mul_comm, ← hpk2]
      exact hlo
    generalize hq : m.natAbs / 2 ^ (K + 1) = q at hdm hqlt hqge
    generalize hrr : m.natAbs % 2 ^ (K + 1) = r at hdm hr
    have hhalf : K + 1 - 1 = K := by omega
    have hq1 : ∃ q1 : Nat,
        (if 2 ^ K < r ∨ (r = 2 ^ K ∧ q % 2 = 1) then q + 1 else q) = q1 ∧
        q ≤ q1 ∧ q1 ≤ q + 1 ∧
        ((q1 : Int) * 2 ^ (K + 1) - (m.natAbs : Int)).natAbs ≤ 2 ^ K := by
      refine ⟨_, rfl, ?_, ?_, ?_⟩
      · split_ifs <;> omega
      · split_ifs <;> omega
      · have hpkI : ((2 : Int) ^ (K + 1)) = 2 * 2 ^ K := by rw [pow_succ]; ring
        have hdmI : (m.natAbs : Int) = 2 * 2 ^ K * (q : Int) + (r : Int) := by
          have := congrArg (fun x : Nat => (x : Int)) hdm
          simp only [Nat.cast_add, Nat.cast_mul, Nat.cast_pow, Nat.cast_ofNat] at this
          rw [hpkI] at this
          exact this.symm
        have hrI : (r : Int) < 2 * 2 ^ K := by
          have : ((r : Nat) : Int) < ((2 ^ (K + 1) : Nat) : Int) := by exact_mod_cast hr
          rw [hpk3] at this
          exact_mod_cast this
        have h2K : (0 : Int) < 2 ^ K := by positivity
        have hcastK : ((2 ^ K : Nat) : Int) = (2 : Int) ^ K := by push_cast; rfl
        split_ifs with hc
        · have hrge : (2 : Int) ^ K ≤ (r : Int) := by
            rcases hc with hc | ⟨hc, -⟩
            · have : ((2 ^ K : Nat) : Int) < (r : Int) := by exact_mod_cast hc
              rw [hcastK] at this
              omega
            · rw [hc, hcastK]
          rw [hpkI, hdmI]
          have : ((q + 1 : Nat) : Int) * (2 * 2 ^ K) - (2 * 2 ^ K * (q : Int) + (r : Int)) =
              2 * 2 ^ K - (r : Int) := by push_cast; ring
          rw [this]
          have hnat : ((2 * 2 ^ K - (r : Int)).natAbs : Int) ≤ ((2 ^ K : Nat) : Int) := by
            rw [hcastK, Int.natAbs_of_nonneg (by omega)]
            omega
          exact_mod_cast hnat
        · have hrle : (r : Int) ≤ 2 ^ K := by
            have h1 : ¬ 2 ^ K < r := fun h => hc (Or.inl h)
            have : ((r : Nat) : Int) ≤ ((2 ^ K : Nat) : Int) := by exact_mod_cast (not_lt.mp h1)
            rw [hcastK] at this
            exact this
          rw [hpkI, hdmI]
          have : (q : Int) * (2 * 2 ^ K) - (2 * 2 ^ K * (q : Int) + (r : Int)) = -(r : Int) := by
            ring
          rw [this, Int.natAbs_neg, Int.natAbs_ofNat]
          exact_mod_cast hrle
    obtain ⟨q1, hq1def, hq1a, hq1b, hq1err⟩ := hq1
    have hbl1 : bitLen q1 ≤ 54 := bitLen_le_of_lt _ _ (by omega)
    refine ⟨if m < 0 then -(q1 : Int) else (q1 : Int), K + 1, ?_, ?_, ?_, ?_, ?_⟩
    · unfold roundBinary64
      simp only [hA, if_false, htarget, ht, hk, hq, hrr, hhalf, hq1def]
      rw [if_neg (by omega)]
      have hexp : e + (bitLen m.natAbs : Int) - 53 = e + ((K + 1 : Nat) : Int) := by
        rw [hK]
        push_cast
        ring
      rw [hexp]
    · have herr2 : ((if m < 0 then -(q1 : Int) else (q1 : Int)) * 2 ^ (K + 1) - m).natAbs =
          ((q1 : Int) * 2 ^ (K + 1) - (m.natAbs : Int)).natAbs := by
        split_ifs with hneg
        · have hmabs : (m.natAbs : Int) = -m := Int.ofNat_natAbs_of_nonpos (le_of_lt hneg)
          rw [hmabs]
          have : -(q1 : Int) * 2 ^ (K + 1) - m = -((q1 : Int) * 2 ^ (K + 1) - -m) := by ring
          rw [this, Int.natAbs_neg]
        · have hmabs : (m.natAbs : Int) = m := Int.natAbs_of_nonneg (not_lt.mp hneg)
          rw [hmabs]
      rw [herr2]
      calc ((q1 : Int) * 2 ^ (K + 1) - (m.natAbs : Int)).natAbs * 2 ^ 53
          ≤ 2 ^ K * 2 ^ 53 := Nat.mul_le_mul_right _ hq1err
        _ = 2 ^ (K + 53) := by rw [← Nat.pow_add]
        _ ≤ m.natAbs := hlo
    · intro h0
      rw [if_neg (not_lt.mpr h0)]
      exact Int.ofNat_nonneg _
    · have hq1pos : (0 : Int) < (q1 : Int) := by
        have h52 : 0 < 2 ^ 52 := by positivity
        have : 0 < q1 := lt_of_lt_of_le (lt_of_lt_of_le h52 hqge) hq1a
        exact_mod_cast this
      clear hq1def hq1err hdm hpk hpk2 hpk3 hlo hhi hbits hk
      split_ifs <;> omega
    · have h5 : (if m < 0 then -(q1 : Int) else (q1 : Int)).natAbs = q1 := by
        split_ifs
        · rw [Int.natAbs_neg, Int.natAbs_ofNat]
        · rw [Int.natAbs_ofNat]
      rw [h5, hK]
      have : ((bitLen q1 : Nat) : Int) ≤ 54 := by exact_mod_cast hbl1
      push_cast
      clear hq1def hq1err hdm hpk hpk2 hpk3 hlo hhi hbits hk
      omega

theorem bitLen_mul_le (a b : Nat) : bitLen (a * b) ≤ bitLen a + bitLen b := by
  apply bitLen_le_of_lt
  rw [Nat.pow_add]
  exact Nat.mul_lt_mul'' (bitLen_spec a).1 (bitLen_spec b).1

theorem round_rel (m e : Int) (hm : 0 < m) (he : -1021 ≤ e)
    (hov : e + (bitLen m.natAbs : Int) ≤ 1022) :
    ∃ m2 e2, roundBinary64 m e = .fin m2 e2 ∧ e ≤ e2 ∧ 0 < m2 ∧
      e2 + (bitLen m2.natAbs : Int) ≤ e + (bitLen m.natAbs : Int) + 1 ∧
      |(m2 : ℚ) * 2 ^ e2 - (m : ℚ) * 2 ^ e| ≤ (m : ℚ) * 2 ^ e * (1 / 2 ^ 53) := by
  obtain ⟨m2, k, hr, herr, hnn, hne, hbl⟩ := round_core m e (ne_of_gt hm) he hov
  have hm2 : 0 < m2 := lt_of_le_of_ne (hnn (le_of_lt hm)) (Ne.symm hne)
  refine ⟨m2, e + (k : Int), hr, by omega, hm2, by omega, ?_⟩
  have hpe : (0 : ℚ) < 2 ^ e := zpow_pos (by norm_num) e
  have h1 : (m2 : ℚ) * 2 ^ (e + (k : Int)) - (m : ℚ) * 2 ^ e =
      ((m2 * 2 ^ k - m : Int) : ℚ) * 2 ^ e := by
    rw [zpow_add₀ (by norm_num : (2 : ℚ) ≠ 0), zpow_natCast]
    push_cast
    ring
  have h2 : |((m2 * 2 ^ k - m : Int) : ℚ)| * 2 ^ 53 ≤ (m : ℚ) := by
    have h3 : (((m2 * 2 ^ k - m).natAbs * 2 ^ 53 : Nat) : ℚ) ≤ ((m.natAbs : Nat) : ℚ) := by
      exact_mod_cast herr
    rw [Nat.cast_mul, Nat.cast_natAbs, Nat.cast_natAbs, Int.cast_abs, Int.cast_abs,
      abs_of_pos (by exact_mod_cast hm : (0 : ℚ) < (m : ℚ))] at h3
    exact_mod_cast h3
  rw [h1, abs_mul, abs_of_pos hpe]
  have h4 : |((m2 * 2 ^ k - m : Int) : ℚ)| ≤ (m : ℚ) * (1 / 2 ^ 53) := by
    rw [mul_one_div, le_div_iff₀ (by positivity)]
    exact h2
  calc |((m2 * 2 ^ k - m : Int) : ℚ)| * 2 ^ e ≤ (m : ℚ) * (1 / 2 ^ 53) * 2 ^ e :=
        mul_le_mul_of_nonneg_right h4 (le_of_lt hpe)
    _ = (m : ℚ) * 2 ^ e * (1 / 2 ^ 53) := by ring

theorem roundRat_rel (n : Int) (d : Nat) (e : Int) (hn : 0 < n) (hd : 0 < d)
    (hd2 : d < 2 ^ 31) (he : -900 ≤ e) (hov : e + (bitLen n.natAbs : Int) ≤ 1022) :
    ∃ m2 e2, roundRatBinary64 n d e = .fin m2 e2 ∧ 0 < m2 ∧
      |(m2 : ℚ) * 2 ^ e2 - (n : ℚ) / (d : ℚ) * 2 ^ e| ≤
        (n : ℚ) / (d : ℚ) * 2 ^ e * (1 / 2 ^ 52) := by
  have hbd : bitLen d ≤ 31 := bitLen_le_of_lt _ _ hd2
  have hdlt : d < 2 ^ bitLen d := (bitLen_spec d).1
  have halt : n.natAbs < 2 ^ bitLen n.natAbs := (bitLen_spec n.natAbs).1
  have hapos : 0 < n.natAbs := by omega
  have haI : ((n.natAbs : Nat) : Int) = n := Int.natAbs_of_nonneg (le_of_lt hn)
  have hnneg : ¬ n < 0 := by omega
  unfold roundRatBinary64
  simp only [hnneg, if_false]
  generalize hS : 64 + bitLen d = S
  have hS1 : S ≤ 95 := by omega
  have hdS : d * 2 ^ 64 ≤ 2 ^ S := by
    rw [← hS, Nat.pow_add, Nat.mul_comm]
    exact Nat.mul_le_mul_left _ (le_of_lt hdlt)
  have hdm := Nat.div_add_mod (n.natAbs * 2 ^ S) d
  have hr := Nat.mod_lt (n.natAbs * 2 ^ S) hd
  have hSpos : 0 < 2 ^ S := by positivity
  have hqpos : 0 < n.natAbs * 2 ^ S / d := by
    apply Nat.div_pos _ hd
    have h64 : 0 < 2 ^ 64 := by positivity
    calc d ≤ d * 2 ^ 64 := Nat.le_mul_of_pos_right _ h64
      _ ≤ 2 ^ S := hdS
      _ ≤ n.natAbs * 2 ^ S := Nat.le_mul_of_pos_left _ hapos
  have hqle : n.natAbs * 2 ^ S / d < 2 ^ (bitLen n.natAbs + S) := by
    apply lt_of_le_of_lt (Nat.div_le_self _ _)
    rw [Nat.pow_add]
    exact Nat.mul_lt_mul_of_pos_right halt hSpos
  generalize hq : n.natAbs * 2 ^ S / d = q at hdm hqpos hqle
  generalize hrr : n.natAbs * 2 ^ S % d = r at hdm hr
  have hM : ∃ M : Nat, (2 * q + if r = 0 then 0 else 1) = M ∧ 0 < M ∧
      M < 2 ^ (bitLen n.natAbs + S + 1) ∧
      |(M : ℚ) * (d : ℚ) - (n : ℚ) * 2 ^ (S + 1)| ≤ (d : ℚ) := by
    refine ⟨_, rfl, by omega, ?_, ?_⟩
    · rw [Nat.pow_succ]
      split_ifs <;> omega
    · have hnq : (n : ℚ) = ((n.natAbs : Nat) : ℚ) := by
        calc (n : ℚ) = (((n.natAbs : Nat) : Int) : ℚ) := by rw [haI]
          _ = ((n.natAbs : Nat) : ℚ) := Int.cast_natCast _
      have hdmq : ((n.natAbs : Nat) : ℚ) * 2 ^ S = (d : ℚ) * (q : ℚ) + (r : ℚ) := by
        exact_mod_cast hdm.symm
      have hrq : (r : ℚ) < (d : ℚ) := by exact_mod_cast hr
      have hr0 : (0 : ℚ) ≤ (r : ℚ) := Nat.cast_nonneg r
      rw [hnq, pow_succ, ← mul_assoc, hdmq]
      split_ifs with h0
      · rw [h0]
        have : ((2 * q + 0 : Nat) : ℚ) * (d : ℚ) - ((d : ℚ) * (q : ℚ) + ((0 : Nat) : ℚ)) * 2 = 0 := by
          push_cast
          ring
        rw [this, abs_zero]
        exact Nat.cast_nonneg d
      · have hrpos : (1 : ℚ) ≤ (r : ℚ) := by
          have : 1 ≤ r := Nat.one_le_iff_ne_zero.mpr h0
          exact_mod_cast this
        have : ((2 * q + 1 : Nat) : ℚ) * (d : ℚ) - ((d : ℚ) * (q : ℚ) + (r : ℚ)) * 2 =
            (d : ℚ) - 2 * (r : ℚ) := by
          push_cast
          ring
        rw [this, abs_le]
        constructor <;> linarith
  obtain ⟨M, hMdef, hMpos, hMlt, hMerr⟩ := hM
  rw [hMdef]
  have hblM : bitLen M ≤ bitLen n.natAbs + S + 1 := bitLen_le_of_lt _ _ hMlt
  have hMI : (0 : Int) < (M : Int) := by exact_mod_cast hMpos
  obtain ⟨m2, e2, hr2, -, hm2, -, herr⟩ := round_rel (M : Int) (e - (S : Int) - 1) hMI
    (by omega) (by rw [Int.natAbs_ofNat]; omega)
  refine ⟨m2, e2, hr2, hm2, ?_⟩
  have hpe : (0 : ℚ) < 2 ^ e := zpow_pos (by norm_num) e
  have hdq : (0 : ℚ) < (d : ℚ) := by exact_mod_cast hd
  have hnq0 : (1 : ℚ) ≤ (n : ℚ) := by exact_mod_cast hn
  have hz : (2 : ℚ) ^ (e - (S : Int) - 1) = 2 ^ e / 2 ^ (S + 1) := by
    have : e - (S : Int) - 1 = e - ((S + 1 : Nat) : Int) := by push_cast; ring
    rw [this, zpow_sub₀ (by norm_num : (2 : ℚ) ≠ 0), zpow_natCast]
  have hp1 : (0 : ℚ) < 2 ^ (S + 1) := by positivity
  rw [Int.cast_natCast, hz] at herr
  -- the value before rounding against the quotient
  have hXY : |(M : ℚ) * (2 ^ e / 2 ^ (S + 1)) - (n : ℚ) / (d : ℚ) * 2 ^ e| ≤
      (n : ℚ) / (d : ℚ) * 2 ^ e * (1 / 2 ^ 64) := by
    have h1 : (M : ℚ) * (2 ^ e / 2 ^ (S + 1)) - (n : ℚ) / (d : ℚ) * 2 ^ e =
        ((M : ℚ) * (d : ℚ) - (n : ℚ) * 2 ^ (S + 1)) * (2 ^ e / ((d : ℚ) * 2 ^ (S + 1))) := by
      field_simp
      ring
    rw [h1, abs_mul, abs_of_pos (by positivity : (0 : ℚ) < 2 ^ e / ((d : ℚ) * 2 ^ (S + 1)))]
    have hdS' : (d : ℚ) * 2 ^ 64 ≤ 2 ^ S := by exact_mod_cast hdS
    calc |(M : ℚ) * (d : ℚ) - (n : ℚ) * 2 ^ (S + 1)| * (2 ^ e / ((d : ℚ) * 2 ^ (S + 1)))
        ≤ (d : ℚ) * (2 ^ e / ((d : ℚ) * 2 ^ (S + 1))) :=
          mul_le_mul_of_nonneg_right hMerr (by positivity)
      _ = 2 ^ e / 2 ^ (S + 1) := by
          field_simp
          ring
      _ ≤ (n : ℚ) / (d : ℚ) * 2 ^ e * (1 / 2 ^ 64) := by
          rw [div_le_iff₀ hp1]
          have h2 : (n : ℚ) / (d : ℚ) * 2 ^ e * (1 / 2 ^ 64) * 2 ^ (S + 1) =
              2 ^ e * ((n : ℚ) * (2 * 2 ^ S) / ((d : ℚ) * 2 ^ 64)) := by
            rw [pow_succ]
            field_simp
            ring
          rw [h2]
          have h3 : (1 : ℚ) ≤ (n : ℚ) * (2 * 2 ^ S) / ((d : ℚ) * 2 ^ 64) := by
            rw [le_div_iff₀ (by positivity)]
            have hS0 : (0 : ℚ) < 2 ^ S := by positivity
            nlinarith
          calc (2 : ℚ) ^ e = 2 ^ e * 1 := by ring
            _ ≤ 2 ^ e * ((n : ℚ) * (2 * 2 ^ S) / ((d : ℚ) * 2 ^ 64)) :=
              mul_le_mul_of_nonneg_left h3 (le_of_lt hpe)
  generalize (m2 : ℚ) * 2 ^ e2 = R at herr ⊢
  generalize hX : (M : ℚ) * (2 ^ e / 2 ^ (S + 1)) = X at herr hXY
  have hYpos : (0 : ℚ) < (n : ℚ) / (d : ℚ) * 2 ^ e := by positivity
  generalize (n : ℚ) / (d : ℚ) * 2 ^ e = Y at hXY hYpos ⊢
  have hXle : X ≤ Y * (1 + 1 / 2 ^ 64) := by
    have := (abs_le.mp hXY).2
    linarith
  have h5 : |R - Y| ≤ |R - X| + |X - Y| := abs_sub_le R X Y
  have h6 : X * (1 / 2 ^ 53) ≤ Y * (1 + 1 / 2 ^ 64) * (1 / 2 ^ 53) :=
    mul_le_mul_of_nonneg_right hXle (by positivity)
  have h7 : Y * (1 + 1 / 2 ^ 64) * (1 / 2 ^ 53) + Y * (1 / 2 ^ 64) ≤ Y * (1 / 2 ^ 52) := by
    have : (1 + 1 / 2 ^ 64 : ℚ) * (1 / 2 ^ 53) + 1 / 2 ^ 64 ≤ 1 / 2 ^ 52 := by norm_num
    nlinarith
  linarith

theorem err_compose (T V' V a b : ℚ) (hb : 0 ≤ b)
    (h1 : |V' - T| ≤ T * a) (h2 : |V - V'| ≤ V' * b) :
    |V - T| ≤ T * (a + b + a * b) := by
  have hV' : V' ≤ T * (1 + a) := by
    have := (abs_le.mp h1).2
    linarith
  have h3 := abs_sub_le V V' T
  have h4 : V' * b ≤ T * (1 + a) * b := mul_le_mul_of_nonneg_right hV' hb
  calc |V - T| ≤ |V - V'| + |V' - T| := h3
    _ ≤ T * (1 + a) * b + T * a := by linarith
    _ = T * (a + b + a * b) := by ring

set_option maxRecDepth 8000 in
theorem two_pi_literal : CDouble.mul (literal 2 1) PI = .fin 7074237752028440 (-50) := by
  decide

theorem mul_fin (a b c d : Int) :
    CDouble.mul (.fin a b) (.fin c d) = roundBinary64 (a * c) (b + d) := rfl

theorem div_fin (a b c d : Int) (hc : 0 < c) :
    CDouble.div (.fin a b) (.fin c d) = roundRatBinary64 a c.natAbs (b - d) := by
  have h1 : c ≠ 0 := by omega
  have h2 : ¬ c < 0 := by omega
  simp [CDouble.div, h1, h2]

theorem angle_rat (SR f n : Int) (hf0 : 0 < f) (hf1 : f < 2 ^ 11) (hn0 : 0 ≤ n)
    (hn1 : n < 2 ^ 31) (hs0 : 0 < SR) (hs1 : SR < 2 ^ 31) :
    ∃ m e, CDouble.div
        (CDouble.mul (CDouble.mul (CDouble.mul (literal 2 1) PI) (CDouble.ofInt f))
          (CDouble.ofInt n)) (CDouble.ofInt SR) = .fin m e ∧ 0 ≤ m ∧
      |(m : ℚ) * 2 ^ e - 7074237752028440 / 2 ^ 50 * (f : ℚ) * (n : ℚ) / (SR : ℚ)| ≤
        7074237752028440 / 2 ^ 50 * (f : ℚ) * (n : ℚ) / (SR : ℚ) * (5 / 2 ^ 53) := by
  have hfI : CDouble.ofInt f = .fin f 0 := ofInt_of_lt f (by omega) (by omega)
  have hnI : CDouble.ofInt n = .fin n 0 := ofInt_of_lt n hn0 (by omega)
  have hsI : CDouble.ofInt SR = .fin SR 0 := ofInt_of_lt SR (by omega) (by omega)
  have hsne : SR ≠ 0 := by omega
  have hsneg : ¬ SR < 0 := by omega
  rw [two_pi_literal, hfI, hnI, hsI, mul_fin]
  -- the product with the frequency
  have hb1 : bitLen (7074237752028440 * f).natAbs ≤ 64 := by
    apply bitLen_le_of_lt
    have : ((7074237752028440 * f).natAbs : Int) = 7074237752028440 * f :=
      Int.natAbs_of_nonneg (by omega)
    omega
  obtain ⟨m1, e1, hr1, he1, hm1, hbl1, herr1⟩ :=
    round_rel (7074237752028440 * f) (-50 + 0) (by omega) (by omega) (by omega)
  rw [hr1, mul_fin]
  rcases eq_or_lt_of_le hn0 with hz | hnpos
  · -- sample 0: the angle is 0
    subst hz
    have hz1 : roundBinary64 (m1 * 0) (e1 + 0) = .fin 0 0 := by simp [roundBinary64]
    rw [hz1, div_fin _ _ _ _ hs0]
    refine ⟨0, 0, ?_, le_refl _, ?_⟩
    · simp [roundBinary64, roundRatBinary64]
    · simp
  -- the product with the sample number
  have hbn : bitLen n.natAbs ≤ 31 := by
    apply bitLen_le_of_lt
    have : (n.natAbs : Int) = n := Int.natAbs_of_nonneg hn0
    omega
  have hb2 : bitLen (m1 * n).natAbs ≤ bitLen m1.natAbs + 31 := by
    rw [Int.natAbs_mul]
    exact le_trans (bitLen_mul_le _ _) (Nat.add_le_add_left hbn _)
  obtain ⟨m2, e2, hr2, he2, hm2, hbl2, herr2⟩ :=
    round_rel (m1 * n) (e1 + 0) (Int.mul_pos hm1 hnpos) (by omega) (by omega)
  rw [hr2, div_fin _ _ _ _ hs0]
  -- the quotient by the sample rate
  have hd1 : 0 < SR.natAbs := by omega
  have hd2 : SR.natAbs < 2 ^ 31 := by
    have : (SR.natAbs : Int) = SR := Int.natAbs_of_nonneg (by omega)
    omega
  obtain ⟨m3, e3, hr3, hm3, herr3⟩ :=
    roundRat_rel m2 SR.natAbs (e2 - 0) hm2 hd1 hd2 (by omega) (by omega)
  refine ⟨m3, e3, hr3, le_of_lt hm3, ?_⟩
  have hSRq : ((SR.natAbs : Nat) : ℚ) = (SR : ℚ) := by
    have : ((SR.natAbs : Nat) : Int) = SR := Int.natAbs_of_nonneg (by omega)
    calc ((SR.natAbs : Nat) : ℚ) = (((SR.natAbs : Nat) : Int) : ℚ) := (Int.cast_natCast _).symm
      _ = (SR : ℚ) := by rw [this]
  rw [hSRq] at herr3
  have hfq : (0 : ℚ) < (f : ℚ) := by exact_mod_cast hf0
  have hnq : (0 : ℚ) < (n : ℚ) := by exact_mod_cast hnpos
  have hsq : (0 : ℚ) < (SR : ℚ) := by exact_mod_cast hs0
  have hz50 : (2 : ℚ) ^ (-50 + 0 : Int) = 1 / 2 ^ 50 := by
    rw [add_zero, zpow_neg, one_div]
    norm_cast
  have he10 : e1 + 0 = e1 := add_zero e1
  have he20 : e2 - 0 = e2 := sub_zero e2
  rw [he10] at herr2
  rw [he20] at herr3
  rw [hz50] at herr1
  push_cast at herr1 herr2
  -- accumulate the three relative errors
  have s1 : |(m1 : ℚ) * 2 ^ e1 - 7074237752028440 / 2 ^ 50 * (f : ℚ)| ≤
      7074237752028440 / 2 ^ 50 * (f : ℚ) * (1 / 2 ^ 53) := by
    have e : (7074237752028440 : ℚ) * (f : ℚ) * (1 / 2 ^ 50) =
        7074237752028440 / 2 ^ 50 * (f : ℚ) := by ring
    rw [e] at herr1
    exact herr1
  have herr2' : |(m2 : ℚ) * 2 ^ e2 - (m1 : ℚ) * 2 ^ e1 * (n : ℚ)| ≤
      (m1 : ℚ) * 2 ^ e1 * (n : ℚ) * (1 / 2 ^ 53) := by
    have e : (m1 : ℚ) * (n : ℚ) * 2 ^ e1 = (m1 : ℚ) * 2 ^ e1 * (n : ℚ) := by ring
    rw [e] at herr2
    exact herr2
  have herr3' : |(m3 : ℚ) * 2 ^ e3 - (m2 : ℚ) * 2 ^ e2 / (SR : ℚ)| ≤
      (m2 : ℚ) * 2 ^ e2 / (SR : ℚ) * (1 / 2 ^ 52) := by
    have e : (m2 : ℚ) / (SR : ℚ) * 2 ^ e2 = (m2 : ℚ) * 2 ^ e2 / (SR : ℚ) := by ring
    rw [e] at herr3
    exact herr3
  generalize (m1 : ℚ) * 2 ^ e1 = V1 at s1 herr2'
  generalize (m2 : ℚ) * 2 ^ e2 = V2 at herr2' herr3'
  generalize (m3 : ℚ) * 2 ^ e3 = V3 at herr3'
  generalize hT1 : (7074237752028440 : ℚ) / 2 ^ 50 * (f : ℚ) = T1 at s1 ⊢
  have hT1pos : 0 < T1 := by
    rw [← hT1]
    positivity
  have s1n : |V1 * (n : ℚ) - T1 * (n : ℚ)| ≤ T1 * (n : ℚ) * (1 / 2 ^ 53) := by
    rw [← sub_mul, abs_mul, abs_of_pos hnq]
    calc |V1 - T1| * (n : ℚ) ≤ T1 * (1 / 2 ^ 53) * (n : ℚ) :=
          mul_le_mul_of_nonneg_right s1 (le_of_lt hnq)
      _ = T1 * (n : ℚ) * (1 / 2 ^ 53) := by ring
  have s2 := err_compose (T1 * (n : ℚ)) (V1 * (n : ℚ)) V2 (1 / 2 ^ 53) (1 / 2 ^ 53)
    (by positivity) s1n herr2'
  have s2d : |V2 / (SR : ℚ) - T1 * (n : ℚ) / (SR : ℚ)| ≤
      T1 * (n : ℚ) / (SR : ℚ) * (1 / 2 ^ 53 + 1 / 2 ^ 53 + 1 / 2 ^ 53 * (1 / 2 ^ 53)) := by
    rw [← sub_div, abs_div, abs_of_pos hsq, div_le_iff₀ hsq]
    calc |V2 - T1 * (n : ℚ)|
        ≤ T1 * (n : ℚ) * (1 / 2 ^ 53 + 1 / 2 ^ 53 + 1 / 2 ^ 53 * (1 / 2 ^ 53)) := s2
      _ = T1 * (n : ℚ) / (SR : ℚ) * (1 / 2 ^ 53 + 1 / 2 ^ 53 + 1 / 2 ^ 53 * (1 / 2 ^ 53)) *
          (SR : ℚ) := by
        field_simp
        ring
  have s3 := err_compose (T1 * (n : ℚ) / (SR : ℚ)) (V2 / (SR : ℚ)) V3
    (1 / 2 ^ 53 + 1 / 2 ^ 53 + 1 / 2 ^ 53 * (1 / 2 ^ 53)) (1 / 2 ^ 52) (by positivity) s2d herr3'
  have hTpos : 0 < T1 * (n : ℚ) / (SR : ℚ) := by positivity
  have hnum : (1 / 2 ^ 53 + 1 / 2 ^ 53 + 1 / 2 ^ 53 * (1 / 2 ^ 53) + 1 / 2 ^ 52 +
      (1 / 2 ^ 53 + 1 / 2 ^ 53 + 1 / 2 ^ 53 * (1 / 2 ^ 53)) * (1 / 2 ^ 52) : ℚ) ≤ 5 / 2 ^ 53 := by
    norm_num
  exact le_trans s3 (mul_le_mul_of_nonneg_left hnum (le_of_lt hTpos))

theorem two_pi_bounds :
    (7074237752028440 / 2 ^ 50 : ℝ) ≤ 2 * Real.pi ∧
    2 * Real.pi - 7074237752028440 / 2 ^ 50 ≤ 2 * Real.pi * (1 / 2 ^ 54) := by
  have h1 := Real.pi_gt_d20
  have h2 := Real.pi_lt_d20
  constructor
  · have : (7074237752028440 / 2 ^ 50 : ℝ) ≤ 2 * 3.14159265358979323846 := by norm_num
    linarith
  · have : (2 * 3.14159265358979323847 : ℝ) * (1 - 1 / 2 ^ 54) ≤ 7074237752028440 / 2 ^ 50 := by
      norm_num
    nlinarith

theorem angle_real (SR f n : Int) (hf0 : 0 < f) (hf1 : f < 2 ^ 11) (hn0 : 0 ≤ n)
    (hn1 : n < 2 ^ 31) (hs0 : 0 < SR) (hs1 : SR < 2 ^ 31) :
    ∃ m e, CDouble.div
        (CDouble.mul (CDouble.mul (CDouble.mul (literal 2 1) PI) (CDouble.ofInt f))
          (CDouble.ofInt n)) (CDouble.ofInt SR) = .fin m e ∧ 0 ≤ m ∧
      |(m : ℝ) * 2 ^ e - 2 * Real.pi * (f : ℝ) * (n : ℝ) / (SR : ℝ)| ≤
        2 * Real.pi * (f : ℝ) * (n : ℝ) / (SR : ℝ) / 2 ^ 50 := by
  obtain ⟨m, e, h, hm, herr⟩ := angle_rat SR f n hf0 hf1 hn0 hn1 hs0 hs1
  refine ⟨m, e, h, hm, ?_⟩
  have herrR : |(m : ℝ) * 2 ^ e - 7074237752028440 / 2 ^ 50 * (f : ℝ) * (n : ℝ) / (SR : ℝ)| ≤
      7074237752028440 / 2 ^ 50 * (f : ℝ) * (n : ℝ) / (SR : ℝ) * (5 / 2 ^ 53) := by
    have := (Rat.cast_le (K := ℝ)).mpr herr
    push_cast at this
    exact this
  obtain ⟨hP1, hP2⟩ := two_pi_bounds
  have hfR : (0 : ℝ) < (f : ℝ) := by exact_mod_cast hf0
  have hnR : (0 : ℝ) ≤ (n : ℝ) := by exact_mod_cast hn0
  have hsR : (0 : ℝ) < (SR : ℝ) := by exact_mod_cast hs0
  have hc : (0 : ℝ) ≤ (f : ℝ) * (n : ℝ) / (SR : ℝ) := by positivity
  generalize hcdef : (f : ℝ) * (n : ℝ) / (SR : ℝ) = c at hc
  have e1 : (7074237752028440 / 2 ^ 50 : ℝ) * (f : ℝ) * (n : ℝ) / (SR : ℝ) =
      7074237752028440 / 2 ^ 50 * c := by
    rw [← hcdef]
    ring
  have e2 : 2 * Real.pi * (f : ℝ) * (n : ℝ) / (SR : ℝ) = 2 * Real.pi * c := by
    rw [← hcdef]
    ring
  rw [e1] at herrR
  rw [e2]
  generalize (m : ℝ) * 2 ^ e = V at herrR ⊢
  generalize (7074237752028440 / 2 ^ 50 : ℝ) = P at herrR hP1 hP2
  generalize 2 * Real.pi = Q at hP1 hP2 ⊢
  have h3 : |V - Q * c| ≤ |V - P * c| + |P * c - Q * c| := abs_sub_le V (P * c) (Q * c)
  have h4 : |P * c - Q * c| = (Q - P) * c := by
    rw [← sub_mul, abs_mul, abs_of_nonneg hc, abs_of_nonpos (by linarith)]
    ring
  have h5 : (Q - P) * c ≤ Q * (1 / 2 ^ 54) * c := mul_le_mul_of_nonneg_right hP2 hc
  have h6 : P * c * (5 / 2 ^ 53) ≤ Q * c * (5 / 2 ^ 53) :=
    mul_le_mul_of_nonneg_right (mul_le_mul_of_nonneg_right hP1 hc) (by positivity)
  have hQ : 0 ≤ Q * c := by
    have : 0 ≤ Q - P := by linarith
    have hP0 : 0 ≤ P * c * (5 / 2 ^ 53) := le_trans (abs_nonneg _) herrR
    nlinarith
  have h7 : Q * c * (5 / 2 ^ 53) + Q * (1 / 2 ^ 54) * c ≤ Q * c / 2 ^ 50 := by
    have : Q * c * (5 / 2 ^ 53) + Q * (1 / 2 ^ 54) * c = Q * c * (11 / 2 ^ 54) := by ring
    rw [this, div_eq_mul_one_div]
    exact mul_le_mul_of_nonneg_left (by norm_num) hQ
  linarith

set_option maxRecDepth 8000 in
theorem pi_literal_accuracy :
    PI = .fin 7074237752028440 (-51) ∧
    |(7074237752028440 : ℝ) * 2 ^ (-51 : Int) - Real.pi| ≤ 1 / 2 ^ 52 := by
  refine ⟨by decide, ?_⟩
  obtain ⟨h1, h2⟩ := two_pi_bounds
  have h3 := Real.pi_lt_four
  have e : (7074237752028440 : ℝ) * 2 ^ (-51 : Int) = 7074237752028440 / 2 ^ 50 / 2 := by
    rw [zpow_neg]
    norm_num
  rw [e, abs_le]
  constructor
  · have : (2 : ℝ) * 4 * (1 / 2 ^ 54) = 2 * (1 / 2 ^ 52) := by norm_num
    nlinarith
  · have : (0 : ℝ) < 1 / 2 ^ 52 := by positivity
    linarith

theorem samplesPerDigit_lt (k : WaveConsts) (t : CDouble) (spd : Int)
    (h : samplesPerDigitOf k t = some spd) : spd < 2 ^ 31 := by
  unfold samplesPerDigitOf castInt at h
  cases hx : CDouble.mul (CDouble.ofInt k.SAMPLE_RATE) t with
  | nan => simp [hx, CDouble.toIntRange] at h
  | inf s => simp [hx, CDouble.toIntRange] at h
  | fin m e =>
    rw [hx] at h
    simp only [CDouble.toIntRange] at h
    split_ifs at h with hr
    simp only [Option.some.injEq] at h
    rw [← h]
    omega

theorem get_freqs_bounds (c : Char) (h : isDtmfChar c = true) (hc : c ≠ '-') :
    (0 < (get_freqs c).1 ∧ (get_freqs c).1 < 2 ^ 11) ∧
    (0 < (get_freqs c).2 ∧ (get_freqs c).2 < 2 ^ 11) := by
  have := isDtmfChar_cases c h
  simp only [List.mem_cons, List.mem_singleton, List.not_mem_nil, or_false] at this
  rcases this with rfl | rfl | rfl | rfl | rfl | rfl | rfl | rfl | rfl | rfl | rfl | rfl | rfl
  all_goals first
    | exact absurd rfl hc
    | decide

/-- The cast of line 138 is defined when twice the absolute value of `AMPLITUDE` is at
most 32767 and `sin` yields finite values of absolute value at most 1. -/
theorem sample_defined (env : Env) (k : WaveConsts) (f1 f2 n : Int) (ma ea : Int)
    (hamp : k.AMPLITUDE = .fin ma ea)
    (hA : 2 * ma.natAbs * 2 ^ ea.toNat ≤ 32767 * 2 ^ (-ea).toNat)
    (hsin : ∀ x, ∃ m e, env.sin x = .fin m e ∧ m.natAbs * 2 ^ e.toNat ≤ 1 * 2 ^ (-e).toNat) :
    ∃ v, castInt16 (sampleValue env k f1 f2 n) = some v ∧ -32767 ≤ v ∧ v ≤ 32767 := by
  unfold sampleValue
  split_ifs with hz
  · exact ⟨0, by decide, by decide, by decide⟩
  · rw [hamp]
    generalize CDouble.div
      (CDouble.mul (CDouble.mul (CDouble.mul (literal 2 1) PI) (CDouble.ofInt f1))
        (CDouble.ofInt n)) (CDouble.ofInt k.SAMPLE_RATE) = x1
    generalize CDouble.div
      (CDouble.mul (CDouble.mul (CDouble.mul (literal 2 1) PI) (CDouble.ofInt f2))
        (CDouble.ofInt n)) (CDouble.ofInt k.SAMPLE_RATE) = x2
    obtain ⟨m1, e1, h1, b1⟩ := hsin x1
    obtain ⟨m2, e2, h2, b2⟩ := hsin x2
    obtain ⟨ms, es, hs, bs⟩ := add_absLe m1 e1 m2 e2 b1 b2
    obtain ⟨m, e, hm, bm⟩ := mul_absLe ma ea ms es 32767 (by norm_num) hA bs
    rw [h1, h2, hs, hm]
    exact castInt16_of_absLe m e bm

theorem sineTableEnv_casts (t : CDouble) (digits : List Char) (spd : Int) :
    CastsDefined (sineTableEnv t) exampleConsts digits spd := by
  intro c _ n _
  have hsin : ∀ x, ∃ m e, (sineTableEnv t).sin x = .fin m e ∧
      m.natAbs * 2 ^ e.toNat ≤ 1 * 2 ^ (-e).toNat := by
    intro x
    simp only [sineTableEnv]
    split_ifs
    · exact ⟨_, _, rfl, by decide⟩
    · exact ⟨_, _, rfl, by decide⟩
    · exact ⟨_, _, rfl, by decide⟩
  obtain ⟨v, hv, -, -⟩ := sample_defined (sineTableEnv t) exampleConsts
    (get_freqs c).1 (get_freqs c).2 (n : Int) 16000 0 (by decide) (by decide) hsin
  unfold sampleAt
  rw [hv]
  simp

theorem sineTableEnv_heap (t : CDouble) (sz : Nat)
    (h : (sineTableEnv t).dataAlloc sz = true) : sz < 2 ^ 63 := by
  simp only [sineTableEnv, exampleEnv, decide_eq_true_eq] at h
  omega

/-! ## The claims -/

/-- C1: for an input that passes validation (three user arguments, a tone length
`atof` parses to a value the range test accepts, a digit string over `0-9 - * #`),
every file `main` writes has `44 + 2 * samplesPerDigit * digitCount` bytes, with
`samplesPerDigit = (int)(SAMPLE_RATE * toneLength)`; and `main` does write that file
and return 0 when the byte count fits an `int`, the sample casts are defined and the
allocations and `fopen` succeed. The sample rate is not negative, and no `malloc` of
`2 ^ 63` bytes or more succeeds. -/
theorem file_length_of_valid_input (env : Env) (k : WaveConsts)
    (prog path tone digits : List Char) (spd : Int)
    (hrate : 0 ≤ k.SAMPLE_RATE)
    (htone : toneLengthRejected (env.atof tone) = false)
    (hdigits : ∀ c ∈ digits, isDtmfChar c = true)
    (hspd : samplesPerDigitOf k (env.atof tone) = some spd)
    (hheap : ∀ sz, env.dataAlloc sz = true → sz < 2 ^ 63) :
    (∀ len : Nat, (main env k [prog, path, tone, digits]).fileLength = some len →
        (len : Int) = 44 + 2 * spd * (digits.length : Int)) ∧
    (2 * spd * (digits.length : Int) < 2 ^ 31 → CastsDefined env k digits spd →
      env.headerAlloc = true → env.dataAlloc (2 * spd * (digits.length : Int)).toNat = true →
      env.fopenOk path = true →
      (main env k [prog, path, tone, digits]).status = some 0 ∧
      ∃ len : Nat, (main env k [prog, path, tone, digits]).fileLength = some len ∧
        (len : Int) = 44 + 2 * spd * (digits.length : Int)) := by
  have key : ∀ len : Nat, (main env k [prog, path, tone, digits]).fileLength = some len →
      (len : Int) = 44 + 2 * spd * (digits.length : Int) := by
    intro len hlen
    cases hm : main env k [prog, path, tone, digits] with
    | wrote p h hb cells db =>
      obtain ⟨-, -, e3, e4, -, -⟩ :=
        main_wrote_facts env k prog path tone digits spd hrate htone hdigits hspd hheap
          p h hb cells db hm
      rw [hm] at hlen
      simp only [Outcome.fileLength, Option.some.injEq] at hlen
      rw [← hlen, e3]
      push_cast
      rw [e4]
      rfl
    | usage => rw [hm] at hlen; simp [Outcome.fileLength] at hlen
    | allocFailed => rw [hm] at hlen; simp [Outcome.fileLength] at hlen
    | openFailed => rw [hm] at hlen; simp [Outcome.fileLength] at hlen
    | undefined => rw [hm] at hlen; simp [Outcome.fileLength] at hlen
  refine ⟨key, ?_⟩
  intro hfit hcasts hhdr hdata hopen
  obtain ⟨cells, hm⟩ := main_writes env k prog path tone digits spd hrate htone hdigits hspd
    hfit hcasts hhdr hdata hopen
  refine ⟨by rw [hm]; rfl, _, by rw [hm]; rfl, ?_⟩
  exact key _ (by rw [hm]; rfl)

/-- C1, at `out.wav 0.2 "5"` and 44100 Hz: the file has `44 + 2 * 8820 = 17684` bytes. -/
theorem file_length_of_valid_input_witness :
    toneLengthRejected ((exampleEnv (literal 2 10)).atof ['0', '.', '2']) = false ∧
    samplesPerDigitOf exampleConsts (literal 2 10) = some 8820 ∧
    (main (exampleEnv (literal 2 10)) exampleConsts
        [['d', 't', 'm', 'f'], ['o', 'u', 't', '.', 'w', 'a', 'v'], ['0', '.', '2'], ['5']]).status
      = some 0 ∧
    ∃ len : Nat,
      (main (exampleEnv (literal 2 10)) exampleConsts
        [['d', 't', 'm', 'f'], ['o', 'u', 't', '.', 'w', 'a', 'v'], ['0', '.', '2'],
          ['5']]).fileLength = some len ∧
      (len : Int) = 44 + 2 * 8820 * (['5'].length : Int) :=
  ⟨by decide, by decide,
    (file_length_of_valid_input (exampleEnv (literal 2 10)) exampleConsts
      ['d', 't', 'm', 'f'] ['o', 'u', 't', '.', 'w', 'a', 'v'] ['0', '.', '2'] ['5'] 8820
      (by decide) (by decide) (by decide) (by decide) (exampleEnv_heap _)).2
      (by decide) (exampleEnv_casts _ _ _) rfl (by decide) rfl⟩

/-- C2: on a valid input, whatever the length of the digit string, in every file `main`
writes the `SubChunk2Size` of the header is the number of PCM bytes written after the
header, and this number is `2 * samplesPerDigit * digitCount` itself, not a wrapped
value: the `int` products of lines 97-98 are then the exact products, and the bytes
are those of the `samplesPerDigit * digitCount` cells of the buffer. And `main` does
write that file when the byte count fits an `int`, the sample casts are defined and
the allocations and `fopen` succeed. The sample rate is not negative, and no `malloc`
of `2 ^ 63` bytes or more succeeds. -/
theorem subChunk2Size_of_valid_input (env : Env) (k : WaveConsts)
    (prog path tone digits : List Char) (spd : Int)
    (hrate : 0 ≤ k.SAMPLE_RATE)
    (htone : toneLengthRejected (env.atof tone) = false)
    (hdigits : ∀ c ∈ digits, isDtmfChar c = true)
    (hspd : samplesPerDigitOf k (env.atof tone) = some spd)
    (hheap : ∀ sz, env.dataAlloc sz = true → sz < 2 ^ 63) :
    (∀ p h hb cells db, main env k [prog, path, tone, digits] = .wrote p h hb cells db →
      h.SubChunk2Size = (db : Int) ∧
      (db : Int) = 2 * spd * (digits.length : Int) ∧
      h.SubChunk2Size = 2 * spd * (digits.length : Int) ∧
      totalSamplesOf spd digits.length = spd * (digits.length : Int) ∧
      totalBytesOf spd digits.length = 2 * spd * (digits.length : Int) ∧
      h.SubChunk2Size = totalBytesOf spd digits.length ∧
      db = 2 * cells.length) ∧
    (2 * spd * (digits.length : Int) < 2 ^ 31 → CastsDefined env k digits spd →
      env.headerAlloc = true → env.dataAlloc (2 * spd * (digits.length : Int)).toNat = true →
      env.fopenOk path = true →
      ∃ h cells, main env k [prog, path, tone, digits] =
          .wrote path h sizeofWAVEFILE cells (2 * spd * (digits.length : Int)).toNat ∧
        h.SubChunk2Size = 2 * spd * (digits.length : Int)) := by
  have h0 : 0 ≤ spd := samplesPerDigit_nonneg k _ spd hrate htone hspd
  have hnn : (0 : Int) ≤ 2 * spd * (digits.length : Int) :=
    Int.mul_nonneg (by omega) (Int.ofNat_nonneg _)
  have hnn1 : (0 : Int) ≤ spd * (digits.length : Int) := Int.mul_nonneg h0 (Int.ofNat_nonneg _)
  have key : ∀ p h hb cells db,
      main env k [prog, path, tone, digits] = .wrote p h hb cells db →
      h.SubChunk2Size = 2 * spd * (digits.length : Int) ∧
      (db : Int) = 2 * spd * (digits.length : Int) ∧
      2 * spd * (digits.length : Int) < 2 ^ 31 := by
    intro p h hb cells db hw
    obtain ⟨-, e2, -, e4, e5, -⟩ :=
      main_wrote_facts env k prog path tone digits spd hrate htone hdigits hspd hheap
        p h hb cells db hw
    refine ⟨?_, e4, e5⟩
    rw [e2, buildHeader_SubChunk2Size]
    exact Int.emod_eq_of_lt hnn (by omega)
  constructor
  · intro p h hb cells db hw
    obtain ⟨k1, k2, k3⟩ := key p h hb cells db hw
    obtain ⟨hlen, -⟩ := main_wrote_cells env k prog path tone digits spd hrate htone hdigits
      hspd hheap p h hb cells db hw
    have hts : totalSamplesOf spd digits.length = spd * (digits.length : Int) := by
      have h2 : 2 * spd * (digits.length : Int) = 2 * (spd * (digits.length : Int)) := by ring
      rw [h2] at k3
      unfold totalSamplesOf
      exact wrapInt32_of_range _ (by omega) (by omega)
    have htb := totalBytesOf_of_lt spd digits.length h0 k3
    refine ⟨by rw [k1, k2], k2, k1, hts, htb, by rw [k1, htb], ?_⟩
    have hS : ((spd.toNat : Nat) : Int) = spd := Int.toNat_of_nonneg h0
    apply Int.ofNat.inj
    simp only [Int.ofNat_eq_coe]
    rw [k2, hlen]
    push_cast
    rw [hS]
    ring
  · intro hfit hcasts hhdr hdata hopen
    obtain ⟨cells, hm⟩ := main_writes env k prog path tone digits spd hrate htone hdigits hspd
      hfit hcasts hhdr hdata hopen
    exact ⟨_, cells, hm, (key _ _ _ _ _ hm).1⟩

/-- C2, at `out.wav 0.2 "5"` and 44100 Hz: `main` writes `2 * 8820 * 1 = 17640` bytes
of PCM data after a header whose `SubChunk2Size` is 17640. -/
theorem subChunk2Size_of_valid_input_witness :
    toneLengthRejected ((exampleEnv (literal 2 10)).atof ['0', '.', '2']) = false ∧
    samplesPerDigitOf exampleConsts (literal 2 10) = some 8820 ∧
    (2 * 8820 * (['5'].length : Int)).toNat = 17640 ∧
    ∃ h cells, main (exampleEnv (literal 2 10)) exampleConsts
        [['d', 't', 'm', 'f'], ['o', 'u', 't', '.', 'w', 'a', 'v'], ['0', '.', '2'], ['5']] =
          .wrote ['o', 'u', 't', '.', 'w', 'a', 'v'] h sizeofWAVEFILE cells
            (2 * 8820 * (['5'].length : Int)).toNat ∧
      h.SubChunk2Size = 2 * 8820 * (['5'].length : Int) :=
  ⟨by decide, by decide, by decide,
    (subChunk2Size_of_valid_input (exampleEnv (literal 2 10)) exampleConsts
      ['d', 't', 'm', 'f'] ['o', 'u', 't', '.', 'w', 'a', 'v'] ['0', '.', '2'] ['5'] 8820
      (by decide) (by decide) (by decide) (by decide) (exampleEnv_heap _)).2
      (by decide) (exampleEnv_casts _ _ _) rfl (by decide) rfl⟩

/-- The sizes when the `int` products of lines 97-98 overflow: at 44100 Hz, tone length
1.0 and a string of 48696 digits `1` (a valid input), `samplesPerDigit` is 44100 and
`2 * samplesPerDigit * digitCount` is 4294987200; the header in memory gets the
`SubChunk2Size` 19904, the loops of `main` store past the 19904 bytes allocated, and no
file is written. -/
theorem subChunk2Size_wraps :
    toneLengthRejected ((exampleEnv (literal 1 1)).atof ['1', '.', '0']) = false ∧
    (∀ c ∈ List.replicate 48696 '1', isDtmfChar c = true) ∧
    ∃ p, prepare (exampleEnv (literal 1 1)) exampleConsts
        [['d', 't', 'm', 'f'], ['o', 'u', 't', '.', 'w', 'a', 'v'], ['1', '.', '0'],
          List.replicate 48696 '1'] = .inr p ∧
      p.samplesPerDigit = 44100 ∧ p.numDigits = 48696 ∧
      p.header.SubChunk2Size = 19904 ∧
      2 * p.samplesPerDigit * (p.numDigits : Int) = 4294987200 ∧
      p.header.SubChunk2Size ≠ 2 * p.samplesPerDigit * (p.numDigits : Int) ∧
      main (exampleEnv (literal 1 1)) exampleConsts
        [['d', 't', 'm', 'f'], ['o', 'u', 't', '.', 'w', 'a', 'v'], ['1', '.', '0'],
          List.replicate 48696 '1'] = .undefined := by
  refine ⟨by decide, replicate_one_valid _, _,
    prepare_of_valid (exampleEnv (literal 1 1)) exampleConsts _ _ ['1', '.', '0']
      (List.replicate 48696 '1') 44100 (by decide) (replicate_one_valid _) (by decide) rfl,
    rfl, ?_, ?_, ?_, ?_, ?_⟩
  rotate_left 4
  · rw [main_of_valid (exampleEnv (literal 1 1)) exampleConsts _ _ ['1', '.', '0']
      (List.replicate 48696 '1') 44100 (by decide) (replicate_one_valid _) (by decide)]
    have h1 : (exampleEnv (literal 1 1)).headerAlloc = true := rfl
    have h2 : (exampleEnv (literal 1 1)).dataAlloc (toSizeT (totalBytesOf 44100 48696)) = true := by
      decide
    have h3 : generate (exampleEnv (literal 1 1)) exampleConsts (List.replicate 48696 '1') 48696
        44100 (toSizeT (totalBytesOf 44100 48696)) = none := by
      cases hg : generate (exampleEnv (literal 1 1)) exampleConsts (List.replicate 48696 '1')
          48696 44100 (toSizeT (totalBytesOf 44100 48696)) with
      | none => rfl
      | some st =>
        obtain ⟨-, hcap, -, -⟩ := generate_some _ _ _ _ _ _ st hg
        have e1 : (48696 : Nat) * (44100 : Int).toNat = 2147493600 := by decide
        have e2 : toSizeT (totalBytesOf 44100 48696) / 2 = 9952 := by decide
        rw [e1, e2] at hcap
        omega
    rw [List.length_replicate, h1, h2, h3]
    rfl
  · exact List.length_replicate _ _
  · simp only [List.length_replicate]
    decide
  · simp only [List.length_replicate]
    decide
  · simp only [List.length_replicate]
    decide

/-- C3: on a valid input, in every file `main` writes the `ChunkSize` of the header is
`4 + (8 + SubChunk1Size) + (8 + SubChunk2Size)`, which is `36 + SubChunk2Size`, that is
`36 + 2 * samplesPerDigit * digitCount`, and it is the number of bytes written to the
file minus 8. And `main` does write that file when the byte count fits an `int`, the
sample casts are defined and the allocations and `fopen` succeed. The sample rate is
not negative, and no `malloc` of `2 ^ 63` bytes or more succeeds. -/
theorem chunkSize_of_valid_input (env : Env) (k : WaveConsts)
    (prog path tone digits : List Char) (spd : Int)
    (hrate : 0 ≤ k.SAMPLE_RATE)
    (htone : toneLengthRejected (env.atof tone) = false)
    (hdigits : ∀ c ∈ digits, isDtmfChar c = true)
    (hspd : samplesPerDigitOf k (env.atof tone) = some spd)
    (hheap : ∀ sz, env.dataAlloc sz = true → sz < 2 ^ 63) :
    (∀ p h hb cells db, main env k [prog, path, tone, digits] = .wrote p h hb cells db →
      h.ChunkSize = 4 + (8 + h.SubChunk1Size) + (8 + h.SubChunk2Size) ∧
      h.ChunkSize = 36 + h.SubChunk2Size ∧
      h.ChunkSize = 36 + 2 * spd * (digits.length : Int) ∧
      h.ChunkSize = ((hb + db : Nat) : Int) - 8 ∧
      (Outcome.wrote p h hb cells db).fileLength = some (hb + db)) ∧
    (2 * spd * (digits.length : Int) < 2 ^ 31 → CastsDefined env k digits spd →
      env.headerAlloc = true → env.dataAlloc (2 * spd * (digits.length : Int)).toNat = true →
      env.fopenOk path = true →
      ∃ h cells, main env k [prog, path, tone, digits] =
          .wrote path h sizeofWAVEFILE cells (2 * spd * (digits.length : Int)).toNat ∧
        h.ChunkSize = 36 + h.SubChunk2Size ∧
        h.ChunkSize =
          ((sizeofWAVEFILE + (2 * spd * (digits.length : Int)).toNat : Nat) : Int) - 8) := by
  have h0 : 0 ≤ spd := samplesPerDigit_nonneg k _ spd hrate htone hspd
  have hnn : (0 : Int) ≤ 2 * spd * (digits.length : Int) :=
    Int.mul_nonneg (by omega) (Int.ofNat_nonneg _)
  have key : ∀ p h hb cells db,
      main env k [prog, path, tone, digits] = .wrote p h hb cells db →
      h.ChunkSize = 4 + (8 + h.SubChunk1Size) + (8 + h.SubChunk2Size) ∧
      h.ChunkSize = 36 + h.SubChunk2Size ∧
      h.ChunkSize = 36 + 2 * spd * (digits.length : Int) ∧
      h.ChunkSize = ((hb + db : Nat) : Int) - 8 := by
    intro p h hb cells db hw
    obtain ⟨-, e2, e3, e4, e5, -⟩ :=
      main_wrote_facts env k prog path tone digits spd hrate htone hdigits hspd hheap
        p h hb cells db hw
    have hs2 : h.SubChunk2Size = 2 * spd * (digits.length : Int) := by
      rw [e2, buildHeader_SubChunk2Size]
      exact Int.emod_eq_of_lt hnn (by omega)
    have hs1 : h.SubChunk1Size = 16 := by rw [e2, buildHeader_SubChunk1Size]
    have hc : h.ChunkSize = 36 + h.SubChunk2Size := by
      rw [e2, buildHeader_ChunkSize, ← e2, hs2]
      exact Int.emod_eq_of_lt (by omega) (by omega)
    refine ⟨by rw [hc, hs1]; ring, hc, by rw [hc, hs2], ?_⟩
    rw [hc, hs2, e3]
    push_cast
    rw [e4]
    simp only [sizeofWAVEFILE]
    push_cast
    ring
  constructor
  · intro p h hb cells db hw
    obtain ⟨k1, k2, k3, k4⟩ := key p h hb cells db hw
    exact ⟨k1, k2, k3, k4, rfl⟩
  · intro hfit hcasts hhdr hdata hopen
    obtain ⟨cells, hm⟩ := main_writes env k prog path tone digits spd hrate htone hdigits hspd
      hfit hcasts hhdr hdata hopen
    obtain ⟨-, k2, -, k4⟩ := key _ _ _ _ _ hm
    exact ⟨_, cells, hm, k2, k4⟩

/-- C3, at `out.wav 0.2 "5"` and 44100 Hz: `main` writes `44 + 17640 = 17684` bytes,
and the `ChunkSize` of the header is `36 + SubChunk2Size = 17676`. -/
theorem chunkSize_of_valid_input_witness :
    toneLengthRejected ((exampleEnv (literal 2 10)).atof ['0', '.', '2']) = false ∧
    samplesPerDigitOf exampleConsts (literal 2 10) = some 8820 ∧
    ((sizeofWAVEFILE + (2 * 8820 * (['5'].length : Int)).toNat : Nat) : Int) - 8 = 17676 ∧
    ∃ h cells, main (exampleEnv (literal 2 10)) exampleConsts
        [['d', 't', 'm', 'f'], ['o', 'u', 't', '.', 'w', 'a', 'v'], ['0', '.', '2'], ['5']] =
          .wrote ['o', 'u', 't', '.', 'w', 'a', 'v'] h sizeofWAVEFILE cells
            (2 * 8820 * (['5'].length : Int)).toNat ∧
      h.ChunkSize = 36 + h.SubChunk2Size ∧
      h.ChunkSize =
        ((sizeofWAVEFILE + (2 * 8820 * (['5'].length : Int)).toNat : Nat) : Int) - 8 :=
  ⟨by decide, by decide, by decide,
    (chunkSize_of_valid_input (exampleEnv (literal 2 10)) exampleConsts
      ['d', 't', 'm', 'f'] ['o', 'u', 't', '.', 'w', 'a', 'v'] ['0', '.', '2'] ['5'] 8820
      (by decide) (by decide) (by decide) (by decide) (exampleEnv_heap _)).2
      (by decide) (exampleEnv_casts _ _ _) rfl (by decide) rfl⟩

/-- The sizes when the `int` product of line 98 overflows to a negative number: at
44100 Hz, tone length 0.99067 and a string of 49155 digits `1` (a valid input),
`samplesPerDigit` is 43688 and `totalBytes` wraps to -16; the header in memory gets the
`SubChunk2Size` 4294967280 and the `ChunkSize` 20, `main` fails to allocate the buffer
and no file is written. -/
theorem chunkSize_wraps :
    toneLengthRejected
      ((exampleEnv (literal 99067 100000)).atof ['0', '.', '9', '9', '0', '6', '7']) = false ∧
    (∀ c ∈ List.replicate 49155 '1', isDtmfChar c = true) ∧
    ∃ p, prepare (exampleEnv (literal 99067 100000)) exampleConsts
        [['d', 't', 'm', 'f'], ['o', 'u', 't', '.', 'w', 'a', 'v'],
          ['0', '.', '9', '9', '0', '6', '7'], List.replicate 49155 '1'] = .inr p ∧
      p.samplesPerDigit = 43688 ∧ p.numDigits = 49155 ∧ p.totalBytes = -16 ∧
      p.header.SubChunk2Size = 4294967280 ∧ p.header.ChunkSize = 20 ∧
      p.header.ChunkSize ≠ 36 + p.header.SubChunk2Size ∧
      main (exampleEnv (literal 99067 100000)) exampleConsts
        [['d', 't', 'm', 'f'], ['o', 'u', 't', '.', 'w', 'a', 'v'],
          ['0', '.', '9', '9', '0', '6', '7'], List.replicate 49155 '1'] = .allocFailed := by
  refine ⟨by decide, replicate_one_valid _, _,
    prepare_of_valid (exampleEnv (literal 99067 100000)) exampleConsts _ _
      ['0', '.', '9', '9', '0', '6', '7'] (List.replicate 49155 '1') 43688
      (by decide) (replicate_one_valid _) (by decide) rfl,
    rfl, ?_, ?_, ?_, ?_, ?_, ?_⟩
  · exact List.length_replicate _ _
  · simp only [List.length_replicate]
    decide
  · simp only [List.length_replicate]
    decide
  · simp only [List.length_replicate]
    decide
  · simp only [List.length_replicate]
    decide
  · rw [main_of_valid (exampleEnv (literal 99067 100000)) exampleConsts _ _
      ['0', '.', '9', '9', '0', '6', '7'] (List.replicate 49155 '1') 43688
      (by decide) (replicate_one_valid _) (by decide)]
    have h2 : (exampleEnv (literal 99067 100000)).dataAlloc
        (toSizeT (totalBytesOf 43688 49155)) = false := by decide
    have h1 : (exampleEnv (literal 99067 100000)).headerAlloc = true := rfl
    rw [List.length_replicate, h1, h2]
    rfl

/-- C4: `get_freqs` returns the frequency pair of the table for each of the thirteen
valid characters. -/
theorem get_freqs_table :
    get_freqs '1' = (697, 1209) ∧ get_freqs '2' = (697, 1336) ∧ get_freqs '3' = (697, 1477) ∧
    get_freqs '4' = (770, 1209) ∧ get_freqs '5' = (770, 1336) ∧ get_freqs '6' = (770, 1477) ∧
    get_freqs '7' = (852, 1209) ∧ get_freqs '8' = (852, 1336) ∧ get_freqs '9' = (852, 1477) ∧
    get_freqs '*' = (941, 1209) ∧ get_freqs '0' = (941, 1336) ∧ get_freqs '#' = (941, 1477) ∧
    get_freqs '-' = (0, 0) := by
  decide

/-- C5: on a valid input, for a position `i` of the digit string that holds a character
other than `-`, with `(f1, f2) = get_freqs` of it, and `0 ≤ n < samplesPerDigit`: both
frequencies are non-zero (770 and 1336 for the digit `5`). The arguments of the two
calls of `sin` in lines 134-135, the doubles `2.0 * PI * f1 * n / SAMPLE_RATE` and
`2.0 * PI * f2 * n / SAMPLE_RATE`, are finite and are the real numbers
`2π·f1·n/SAMPLE_RATE` and `2π·f2·n/SAMPLE_RATE` up to a relative error of `2 ^ (-50)`,
the constant `PI` being π up to `2 ^ (-52)`. In every file `main` writes, the sample at
buffer index `i * samplesPerDigit + n` is the value of `AMPLITUDE * (sin a1 + sin a2)`
at these two arguments, computed in `double`, truncated toward zero to a signed 16-bit
integer; and `main` does write the file when the byte count fits an `int`, the casts
are defined and the allocations and `fopen` succeed. Here `sin` is the function of the
environment, the sample rate is a positive `int`, and no `malloc` of `2 ^ 63` bytes or
more succeeds. -/
theorem tone_sample_formula (env : Env) (k : WaveConsts)
    (prog path tone digits : List Char) (spd : Int) (i n : Nat) (f1 f2 : Int)
    (hrate0 : 0 < k.SAMPLE_RATE) (hrate1 : k.SAMPLE_RATE < 2 ^ 31)
    (htone : toneLengthRejected (env.atof tone) = false)
    (hdigits : ∀ c ∈ digits, isDtmfChar c = true)
    (hspd : samplesPerDigitOf k (env.atof tone) = some spd)
    (hheap : ∀ sz, env.dataAlloc sz = true → sz < 2 ^ 63)
    (hi : i < digits.length) (hc : charAt digits i ≠ '-')
    (hf : get_freqs (charAt digits i) = (f1, f2)) (hn : (n : Int) < spd) :
    (f1 ≠ 0 ∧ f2 ≠ 0) ∧
    (charAt digits i = '5' → f1 = 770 ∧ f2 = 1336) ∧
    (∃ m e, PI = .fin m e ∧ |(m : ℝ) * 2 ^ e - Real.pi| ≤ 1 / 2 ^ 52) ∧
    (∃ a1 a2 : CDouble,
      a1 = CDouble.div
        (CDouble.mul (CDouble.mul (CDouble.mul (literal 2 1) PI) (CDouble.ofInt f1))
          (CDouble.ofInt (n : Int)))
        (CDouble.ofInt k.SAMPLE_RATE) ∧
      a2 = CDouble.div
        (CDouble.mul (CDouble.mul (CDouble.mul (literal 2 1) PI) (CDouble.ofInt f2))
          (CDouble.ofInt (n : Int)))
        (CDouble.ofInt k.SAMPLE_RATE) ∧
      (∃ m e, a1 = .fin m e ∧
        |(m : ℝ) * 2 ^ e - 2 * Real.pi * (f1 : ℝ) * (n : ℝ) / (k.SAMPLE_RATE : ℝ)| ≤
          2 * Real.pi * (f1 : ℝ) * (n : ℝ) / (k.SAMPLE_RATE : ℝ) / 2 ^ 50) ∧
      (∃ m e, a2 = .fin m e ∧
        |(m : ℝ) * 2 ^ e - 2 * Real.pi * (f2 : ℝ) * (n : ℝ) / (k.SAMPLE_RATE : ℝ)| ≤
          2 * Real.pi * (f2 : ℝ) * (n : ℝ) / (k.SAMPLE_RATE : ℝ) / 2 ^ 50) ∧
      ∀ p h hb cells db, main env k [prog, path, tone, digits] = .wrote p h hb cells db →
        ∃ m e v,
          CDouble.mul k.AMPLITUDE (CDouble.add (env.sin a1) (env.sin a2)) = .fin m e ∧
          v = (if 0 ≤ e then m * 2 ^ e.toNat else Int.tdiv m ((2 ^ (-e).toNat : Nat) : Int)) ∧
          -(2 ^ 15) ≤ v ∧ v ≤ 2 ^ 15 - 1 ∧
          cells[((i : Int) * spd + (n : Int)).toNat]? = some (some v)) ∧
    (2 * spd * (digits.length : Int) < 2 ^ 31 → CastsDefined env k digits spd →
      env.headerAlloc = true → env.dataAlloc (2 * spd * (digits.length : Int)).toNat = true →
      env.fopenOk path = true →
      ∃ h cells, main env k [prog, path, tone, digits] =
        .wrote path h sizeofWAVEFILE cells (2 * spd * (digits.length : Int)).toNat) := by
  have hrate : 0 ≤ k.SAMPLE_RATE := le_of_lt hrate0
  have hvalid : isDtmfChar (charAt digits i) = true := hdigits _ (charAt_mem digits i hi)
  have hne := get_freqs_ne_zero _ hvalid hc
  have hbd := get_freqs_bounds _ hvalid hc
  rw [hf] at hne hbd
  have hspdlt := samplesPerDigit_lt k _ spd hspd
  have hn0 : (0 : Int) ≤ (n : Int) := Int.ofNat_nonneg n
  have hn1 : (n : Int) < 2 ^ 31 := by omega
  obtain ⟨m1, e1, ha1, -, hacc1⟩ :=
    angle_real k.SAMPLE_RATE f1 (n : Int) hbd.1.1 hbd.1.2 hn0 hn1 hrate0 hrate1
  obtain ⟨m2, e2, ha2, -, hacc2⟩ :=
    angle_real k.SAMPLE_RATE f2 (n : Int) hbd.2.1 hbd.2.2 hn0 hn1 hrate0 hrate1
  rw [Int.cast_natCast] at hacc1 hacc2
  refine ⟨hne, ?_, ⟨7074237752028440, -51, pi_literal_accuracy.1, ?_⟩,
    ⟨_, _, rfl, rfl, ⟨m1, e1, ha1, hacc1⟩, ⟨m2, e2, ha2, hacc2⟩, ?_⟩, ?_⟩
  · intro h5
    rw [h5] at hf
    have h770 : get_freqs '5' = (770, 1336) := by decide
    rw [h770] at hf
    simp only [Prod.mk.injEq] at hf
    exact ⟨hf.1.symm, hf.2.symm⟩
  · have := pi_literal_accuracy.2
    exact_mod_cast this
  · intro p h hb cells db hw
    obtain ⟨-, hval⟩ := main_wrote_cells env k prog path tone digits spd hrate htone hdigits
      hspd hheap p h hb cells db hw
    obtain ⟨v, hv1, hv2⟩ := hval i n hi hn
    have hnz : ¬ (f1 = 0 ∧ f2 = 0) := fun hz => hne.1 hz.1
    simp only [sampleAt, sampleValue, hf, hnz, if_false] at hv1
    obtain ⟨m, e, hx, hv, hlo, hhi⟩ := castInt16_some _ v hv1
    exact ⟨m, e, v, hx, hv, hlo, hhi, hv2⟩
  · intro hfit hcasts hhdr hdata hopen
    obtain ⟨cells, hm⟩ := main_writes env k prog path tone digits spd hrate htone hdigits hspd
      hfit hcasts hhdr hdata hopen
    exact ⟨_, cells, hm⟩

set_option maxRecDepth 8000 in
/-- C5, at `out.wav 0.2 "5"`, 44100 Hz and the amplitude 16000, for sample 3 of the
block of the digit `5`: the two arguments of `sin` are the doubles `0.3291192303760736`
and `0.5710432360810835`, with the sines of the C library the `double sampleValue` is
`13819.515421618351`, and the sample in the file is 13819. -/
theorem tone_sample_formula_witness :
    toneLengthRejected ((sineTableEnv (literal 2 10)).atof ['0', '.', '2']) = false ∧
    samplesPerDigitOf exampleConsts (literal 2 10) = some 8820 ∧
    get_freqs (charAt ['5'] 0) = (770, 1336) ∧
    CDouble.div
      (CDouble.mul (CDouble.mul (CDouble.mul (literal 2 1) PI) (CDouble.ofInt 770))
        (CDouble.ofInt ((3 : Nat) : Int)))
      (CDouble.ofInt exampleConsts.SAMPLE_RATE) = .fin 5928884973128598 (-54) ∧
    CDouble.div
      (CDouble.mul (CDouble.mul (CDouble.mul (literal 2 1) PI) (CDouble.ofInt 1336))
        (CDouble.ofInt ((3 : Nat) : Int)))
      (CDouble.ofInt exampleConsts.SAMPLE_RATE) = .fin 5143500210454420 (-53) ∧
    CDouble.mul exampleConsts.AMPLITUDE
      (CDouble.add (CDouble.fin 5822427571497808 (-54)) (CDouble.fin 4868481777156250 (-53))) =
      .fin 7597358948149564 (-39) ∧
    ∃ h cells, main (sineTableEnv (literal 2 10)) exampleConsts
      [['d', 't', 'm', 'f'], ['o', 'u', 't', '.', 'w', 'a', 'v'], ['0', '.', '2'], ['5']] =
        .wrote ['o', 'u', 't', '.', 'w', 'a', 'v'] h sizeofWAVEFILE cells
          (2 * 8820 * (['5'].length : Int)).toNat ∧
      cells[3]? = some (some 13819) := by
  have e1 : CDouble.div
      (CDouble.mul (CDouble.mul (CDouble.mul (literal 2 1) PI) (CDouble.ofInt 770))
        (CDouble.ofInt ((3 : Nat) : Int)))
      (CDouble.ofInt exampleConsts.SAMPLE_RATE) = .fin 5928884973128598 (-54) := by decide
  have e2 : CDouble.div
      (CDouble.mul (CDouble.mul (CDouble.mul (literal 2 1) PI) (CDouble.ofInt 1336))
        (CDouble.ofInt ((3 : Nat) : Int)))
      (CDouble.ofInt exampleConsts.SAMPLE_RATE) = .fin 5143500210454420 (-53) := by decide
  have e3 : CDouble.mul exampleConsts.AMPLITUDE
      (CDouble.add (CDouble.fin 5822427571497808 (-54)) (CDouble.fin 4868481777156250 (-53))) =
      .fin 7597358948149564 (-39) := by decide
  have s1 : (sineTableEnv (literal 2 10)).sin (.fin 5928884973128598 (-54)) =
      .fin 5822427571497808 (-54) := by decide
  have s2 : (sineTableEnv (literal 2 10)).sin (.fin 5143500210454420 (-53)) =
      .fin 4868481777156250 (-53) := by decide
  obtain ⟨-, -, -, ⟨a1, a2, ha1, ha2, -, -, hcell⟩, hprod⟩ :=
    tone_sample_formula (sineTableEnv (literal 2 10)) exampleConsts
      ['d', 't', 'm', 'f'] ['o', 'u', 't', '.', 'w', 'a', 'v'] ['0', '.', '2'] ['5'] 8820 0 3
      770 1336 (by decide) (by decide) (by decide) (by decide) (by decide)
      (sineTableEnv_heap _) (by decide) (by decide) (by decide) (by decide)
  obtain ⟨h, cells, hm⟩ := hprod (by decide) (sineTableEnv_casts _ _ _) rfl (by decide) rfl
  obtain ⟨m, e, v, hx, hv, -, -, hcv⟩ := hcell _ _ _ _ _ hm
  rw [ha1, ha2, e1, e2, s1, s2, e3] at hx
  obtain ⟨rfl, rfl⟩ := CDouble.fin.inj hx
  have hv13 : v = 13819 := by
    rw [hv]
    decide
  have hidx : (((0 : Nat) : Int) * 8820 + ((3 : Nat) : Int)).toNat = 3 := by decide
  rw [hidx, hv13] at hcv
  exact ⟨by decide, by decide, by decide, e1, e2, e3, h, cells, hm, hcv⟩

/-- C6: on a valid input, in every file `main` writes, all `samplesPerDigit` samples of
the block of a position that holds `-` are 0; and for a digit string of `-` only,
`main` (when the byte count fits an `int` and the allocations and `fopen` succeed)
writes a buffer of `2 * digitCount * samplesPerDigit` bytes whose samples are all 0.
The sample rate is not negative, and no `malloc` of `2 ^ 63` bytes or more succeeds. -/
theorem silence_block_is_zero (env : Env) (k : WaveConsts)
    (prog path tone digits : List Char) (spd : Int)
    (hrate : 0 ≤ k.SAMPLE_RATE)
    (htone : toneLengthRejected (env.atof tone) = false)
    (hdigits : ∀ c ∈ digits, isDtmfChar c = true)
    (hspd : samplesPerDigitOf k (env.atof tone) = some spd)
    (hheap : ∀ sz, env.dataAlloc sz = true → sz < 2 ^ 63) :
    (∀ p h hb cells db, main env k [prog, path, tone, digits] = .wrote p h hb cells db →
      ∀ i n : Nat, i < digits.length → charAt digits i = '-' → (n : Int) < spd →
        cells[((i : Int) * spd + (n : Int)).toNat]? = some (some 0)) ∧
    ((∀ c ∈ digits, c = '-') → 2 * spd * (digits.length : Int) < 2 ^ 31 →
      env.headerAlloc = true → env.dataAlloc (2 * spd * (digits.length : Int)).toNat = true →
      env.fopenOk path = true →
      ∃ h, main env k [prog, path, tone, digits] =
        .wrote path h sizeofWAVEFILE
          (List.replicate (spd * (digits.length : Int)).toNat (some 0))
          (2 * spd * (digits.length : Int)).toNat) := by
  have h0 : 0 ≤ spd := samplesPerDigit_nonneg k _ spd hrate htone hspd
  have hS : ((spd.toNat : Nat) : Int) = spd := Int.toNat_of_nonneg h0
  constructor
  · intro p h hb cells db hw i n hi hc hn
    obtain ⟨-, hval⟩ := main_wrote_cells env k prog path tone digits spd hrate htone hdigits
      hspd hheap p h hb cells db hw
    obtain ⟨v, hv1, hv2⟩ := hval i n hi hn
    rw [hc, sampleAt_silence] at hv1
    simp only [Option.some.injEq] at hv1
    rw [hv2, hv1]
  · intro hall hfit hhdr hdata hopen
    have hcasts : CastsDefined env k digits spd := by
      intro c hc n _
      rw [hall c hc, sampleAt_silence]
      simp
    obtain ⟨cells, hm⟩ := main_writes env k prog path tone digits spd hrate htone hdigits hspd
      hfit hcasts hhdr hdata hopen
    obtain ⟨hlen, hval⟩ := main_wrote_cells env k prog path tone digits spd hrate htone hdigits
      hspd hheap _ _ _ cells _ hm
    have hcount : (spd * (digits.length : Int)).toNat = digits.length * spd.toNat := by
      apply Int.ofNat.inj
      simp only [Int.ofNat_eq_coe]
      rw [Int.toNat_of_nonneg (Int.mul_nonneg h0 (Int.ofNat_nonneg _))]
      push_cast
      rw [hS]
      ring
    have hcells : cells = List.replicate (spd * (digits.length : Int)).toNat (some 0) := by
      rw [hcount]
      apply List.ext_getElem?
      intro idx
      by_cases hidx : idx < digits.length * spd.toNat
      · rw [List.getElem?_replicate_of_lt hidx]
        have hpos : 0 < spd.toNat := by
          rcases Nat.eq_zero_or_pos spd.toNat with hz | hz
          · rw [hz] at hidx
            simp at hidx
          · exact hz
        have hq : idx / spd.toNat < digits.length :=
          Nat.div_lt_of_lt_mul (by rw [Nat.mul_comm]; exact hidx)
        have hr : idx % spd.toNat < spd.toNat := Nat.mod_lt _ hpos
        obtain ⟨v, hv1, hv2⟩ := hval (idx / spd.toNat) (idx % spd.toNat) hq (by omega)
        have hch : charAt digits (idx / spd.toNat) = '-' := hall _ (charAt_mem _ _ hq)
        rw [hch, sampleAt_silence] at hv1
        simp only [Option.some.injEq] at hv1
        have hix : (((idx / spd.toNat : Nat) : Int) * spd + ((idx % spd.toNat : Nat) : Int)).toNat
            = idx := by
          have h3 : ((idx / spd.toNat : Nat) : Int) * spd + ((idx % spd.toNat : Nat) : Int)
              = (idx : Int) := by
            have h4 : ((spd.toNat * (idx / spd.toNat) + idx % spd.toNat : Nat) : Int)
                = (idx : Int) := by rw [Nat.div_add_mod idx spd.toNat]
            simp only [Nat.cast_add, Nat.cast_mul] at h4
            rw [hS] at h4
            rw [← h4]
            ring
          rw [h3]
          rfl
        rw [hix] at hv2
        rw [hv2, hv1]
      · rw [List.getElem?_eq_none (by omega), List.getElem?_eq_none (by simp; omega)]
    exact ⟨_, by rw [hm, hcells]⟩

/-- C6, at `out.wav 0.3 "--"` and 44100 Hz: a buffer of `2 * 13230 * 2 = 52920` bytes,
the `13230 * 2` samples all 0. -/
theorem silence_block_is_zero_witness :
    toneLengthRejected ((exampleEnv (literal 3 10)).atof ['0', '.', '3']) = false ∧
    samplesPerDigitOf exampleConsts (literal 3 10) = some 13230 ∧
    ∃ h, main (exampleEnv (literal 3 10)) exampleConsts
      [['d', 't', 'm', 'f'], ['o', 'u', 't', '.', 'w', 'a', 'v'], ['0', '.', '3'], ['-', '-']] =
        .wrote ['o', 'u', 't', '.', 'w', 'a', 'v'] h sizeofWAVEFILE
          (List.replicate (13230 * (['-', '-'].length : Int)).toNat (some 0))
          (2 * 13230 * (['-', '-'].length : Int)).toNat :=
  ⟨by decide, by decide,
    (silence_block_is_zero (exampleEnv (literal 3 10)) exampleConsts
      ['d', 't', 'm', 'f'] ['o', 'u', 't', '.', 'w', 'a', 'v'] ['0', '.', '3'] ['-', '-'] 13230
      (by decide) (by decide) (by decide) (by decide) (exampleEnv_heap _)).2
      (by decide) (by decide) rfl (by decide) rfl⟩

/-- C7: the digit-string check of `main` (reached with three user arguments and an
accepted tone length) shows the usage and returns -1 exactly when the string has a
character outside `0-9`, `-`, `*`, `#`; the scan stops at the first such character;
an accepted string has `numDigits` equal to its length; `"12a3"` is rejected at `a`. -/
theorem digit_scan_rejects_iff (env : Env) (k : WaveConsts)
    (prog path tone digits : List Char)
    (htone : toneLengthRejected (env.atof tone) = false) :
    (∀ c : Char, isDtmfChar c = true ↔
      (('0' ≤ c ∧ c ≤ '9') ∨ c = '-' ∨ c = '*' ∨ c = '#')) ∧
    (main env k [prog, path, tone, digits] = .usage ↔ ∃ c ∈ digits, isDtmfChar c = false) ∧
    ((main env k [prog, path, tone, digits]).status = some (-1) ∧
        (main env k [prog, path, tone, digits]).printed = show_usage ↔
      ∃ c ∈ digits, isDtmfChar c = false) ∧
    (∀ i, scanDigits digits 0 = .rejectedAt i ↔
      ∃ pre c post, digits = pre ++ c :: post ∧ (∀ x ∈ pre, isDtmfChar x = true) ∧
        isDtmfChar c = false ∧ i = pre.length) ∧
    (∀ n, scanDigits digits 0 = .accepted n ↔
      (∀ c ∈ digits, isDtmfChar c = true) ∧ n = digits.length) ∧
    scanDigits ['1', '2', 'a', '3'] 0 = .rejectedAt 2 := by
  have hrej : (∃ i, scanDigits digits 0 = .rejectedAt i) ↔ ∃ c ∈ digits, isDtmfChar c = false := by
    constructor
    · rintro ⟨i, hi⟩
      obtain ⟨pre, c, post, hd, -, hc, -⟩ := (scanDigits_rejectedAt_iff digits 0 i).mp hi
      exact ⟨c, by rw [hd]; simp, hc⟩
    · rintro ⟨c, hc, hbad⟩
      cases hs : scanDigits digits 0 with
      | rejectedAt i => exact ⟨i, rfl⟩
      | accepted n =>
        have := ((scanDigits_accepted_iff digits 0 n).mp hs).1 c hc
        rw [hbad] at this
        exact absurd this (by simp)
  have husage := main_usage_iff_scan env k prog path tone digits htone
  refine ⟨?_, husage.trans hrej, ?_, ?_, ?_, by decide⟩
  · intro c
    simp [isDtmfChar, or_assoc]
  · rw [← hrej, ← husage]
    constructor
    · rintro ⟨h1, h2⟩
      cases hm : main env k [prog, path, tone, digits] with
      | usage => rfl
      | allocFailed => rw [hm] at h2; exact absurd h2 (by decide)
      | openFailed => rw [hm] at h2; exact absurd h2 (by decide)
      | undefined => rw [hm] at h2; exact absurd h2 (by decide)
      | wrote p h hb cells db => rw [hm] at h1; simp [Outcome.status] at h1
    · intro hm
      rw [hm]
      exact ⟨rfl, rfl⟩
  · intro i
    have := scanDigits_rejectedAt_iff digits 0 i
    simpa using this
  · intro n
    have := scanDigits_accepted_iff digits 0 n
    simpa using this

/-- C7, at `out.wav 0.5 "12a3"`: `main` shows the usage because of the `a`. -/
theorem digit_scan_rejects_iff_witness :
    toneLengthRejected ((exampleEnv (literal 5 10)).atof ['0', '.', '5']) = false ∧
    (main (exampleEnv (literal 5 10)) exampleConsts
        [['d', 't', 'm', 'f'], ['o', 'u', 't', '.', 'w', 'a', 'v'], ['0', '.', '5'],
          ['1', '2', 'a', '3']] = .usage ↔
      ∃ c ∈ ['1', '2', 'a', '3'], isDtmfChar c = false) :=
  ⟨by decide,
    (digit_scan_rejects_iff (exampleEnv (literal 5 10)) exampleConsts
      ['d', 't', 'm', 'f'] ['o', 'u', 't', '.', 'w', 'a', 'v'] ['0', '.', '5']
      ['1', '2', 'a', '3'] (by decide)).2.1⟩

/-- C8: the tone-length test `toneLength < 0.1 || toneLength > 1.0`. For a value that
is not NaN it rejects exactly the values outside the closed interval from `0.1` to
`1.0`: 0.05, 1.5 and 0 are rejected, 0.1 and 1.0 are accepted. For NaN (what `atof`
returns for `"nan"`), which is outside the interval, both comparisons are false: the
value is not rejected, and `main` goes on to the undefined cast `(int)` of NaN. -/
theorem tone_length_check :
    (∀ t : CDouble, t ≠ .nan →
      (toneLengthRejected t = false ↔
        CDouble.le (literal 1 10) t = true ∧ CDouble.le t (literal 1 1) = true)) ∧
    toneLengthRejected (literal 5 100) = true ∧
    toneLengthRejected (literal 15 10) = true ∧
    toneLengthRejected (literal 0 1) = true ∧
    toneLengthRejected (literal 1 10) = false ∧
    toneLengthRejected (literal 1 1) = false ∧
    CDouble.le (literal 1 10) .nan = false ∧
    toneLengthRejected .nan = false ∧
    main (exampleEnv .nan) exampleConsts
      [['d', 't', 'm', 'f'], ['o', 'u', 't', '.', 'w', 'a', 'v'], ['n', 'a', 'n'],
        ['1', '2', '3']] = .undefined := by
  refine ⟨?_, by decide, by decide, by decide, by decide, by decide, by decide, by decide,
    by decide⟩
  intro t ht
  unfold toneLengthRejected CDouble.gt
  rw [Bool.or_eq_false_iff, lt_false_iff_le t _ ht (by decide),
    lt_false_iff_le _ t (by decide) ht]

/-- C9: with a number of user arguments other than three (`argc != 4`), `main` shows
the usage and returns -1, whatever the arguments and the environment are. -/
theorem wrong_argument_count (env : Env) (k : WaveConsts) (argv : List (List Char))
    (h : argv.length ≠ 4) :
    main env k argv = .usage ∧ (main env k argv).status = some (-1) ∧
      (main env k argv).printed = show_usage := by
  have hm : main env k argv = .usage := by simp [main, prepare, h]
  rw [hm]
  exact ⟨rfl, rfl, rfl⟩

/-- C9, with two and with five user arguments. -/
theorem wrong_argument_count_witness :
    ([['d', 't', 'm', 'f'], ['o', 'u', 't', '.', 'w', 'a', 'v'], ['0', '.', '5']].length ≠ 4 ∧
      main (exampleEnv (literal 5 10)) exampleConsts
        [['d', 't', 'm', 'f'], ['o', 'u', 't', '.', 'w', 'a', 'v'], ['0', '.', '5']] = .usage) ∧
    ([['d', 't', 'm', 'f'], ['o', 'u', 't', '.', 'w', 'a', 'v'], ['0', '.', '5'], ['1'], ['2'],
        ['3']].length ≠ 4 ∧
      main (exampleEnv (literal 5 10)) exampleConsts
        [['d', 't', 'm', 'f'], ['o', 'u', 't', '.', 'w', 'a', 'v'], ['0', '.', '5'], ['1'], ['2'],
          ['3']] = .usage) :=
  ⟨⟨by decide, (wrong_argument_count _ _ _ (by decide)).1⟩,
    ⟨by decide, (wrong_argument_count _ _ _ (by decide)).1⟩⟩

/-- C10, as amended: the empty digit string passes validation with `numDigits = 0`:
`main` does not show the usage, and when the allocations (the second is `malloc(0)`)
and `fopen` succeed it writes the 44 bytes of a header with `SubChunk2Size = 0` and no
sample, and returns 0. -/
theorem empty_digit_string (env : Env) (k : WaveConsts) (prog path tone : List Char)
    (htone : toneLengthRejected (env.atof tone) = false) :
    scanDigits [] 0 = .accepted 0 ∧
    main env k [prog, path, tone, []] ≠ .usage ∧
    (∀ spd, samplesPerDigitOf k (env.atof tone) = some spd → env.headerAlloc = true →
      env.dataAlloc 0 = true → env.fopenOk path = true →
      main env k [prog, path, tone, []] = .wrote path (buildHeader k 0) 44 [] 0 ∧
      (buildHeader k 0).SubChunk2Size = 0 ∧
      (main env k [prog, path, tone, []]).status = some 0) := by
  refine ⟨rfl, ?_, ?_⟩
  · intro hm
    obtain ⟨i, hi⟩ := (main_usage_iff_scan env k prog path tone [] htone).mp hm
    exact absurd hi (by simp [scanDigits])
  · intro spd hspd hhdr hdata hopen
    have hm : main env k [prog, path, tone, []] = .wrote path (buildHeader k 0) 44 [] 0 := by
      rw [main_of_valid env k prog path tone [] spd htone (by simp) hspd]
      have htb : totalBytesOf spd ([] : List Char).length = 0 := by
        simp [totalBytesOf, totalSamplesOf, wrapInt32]
      have hsz : toSizeT 0 = 0 := rfl
      rw [htb, hsz]
      simp [hhdr, hdata, hopen, generate, outerLoop, sizeofWAVEFILE]
    rw [hm]
    exact ⟨rfl, rfl, rfl⟩

/-- C10, as amended, at `out.wav 0.5 ""`. -/
theorem empty_digit_string_witness :
    toneLengthRejected ((exampleEnv (literal 5 10)).atof ['0', '.', '5']) = false ∧
    main (exampleEnv (literal 5 10)) exampleConsts
      [['d', 't', 'm', 'f'], ['o', 'u', 't', '.', 'w', 'a', 'v'], ['0', '.', '5'], []] ≠ .usage :=
  ⟨by decide,
    (empty_digit_string (exampleEnv (literal 5 10)) exampleConsts ['d', 't', 'm', 'f']
      ['o', 'u', 't', '.', 'w', 'a', 'v'] ['0', '.', '5'] (by decide)).2.1⟩

/-- C10 as stated fails: `out.wav 0.5 ""` is accepted; `main` writes a file of 44
bytes and returns 0. -/
theorem empty_digit_string_accepted :
    main (exampleEnv (literal 5 10)) exampleConsts
      [['d', 't', 'm', 'f'], ['o', 'u', 't', '.', 'w', 'a', 'v'], ['0', '.', '5'], []] =
      .wrote ['o', 'u', 't', '.', 'w', 'a', 'v'] (buildHeader exampleConsts 0) 44 [] 0 ∧
    (main (exampleEnv (literal 5 10)) exampleConsts
      [['d', 't', 'm', 'f'], ['o', 'u', 't', '.', 'w', 'a', 'v'], ['0', '.', '5'], []]).status
      = some 0 ∧
    (main (exampleEnv (literal 5 10)) exampleConsts
      [['d', 't', 'm', 'f'], ['o', 'u', 't', '.', 'w', 'a', 'v'], ['0', '.', '5'], []]).fileLength
      = some 44 := by
  decide

/-- C11: on a validation failure that is a number of user arguments other than three, a
tone length other than NaN that is not in the closed interval from `0.1` to `1.0`, or a
character of the digit string outside `0-9 - * #`, `main` prints the usage text and
returns -1 without getting to `fopen`: it writes no file, and every file of the file
system is as it was (so for two user arguments, for the tone length 0.05 and for the
digits `12a3`). For the tone length NaN, which is out of range, `main` does not print
the usage text: with valid digits and the header allocated it goes on to the undefined
cast `(int)` of NaN of line 96 (so for `out.wav nan 123`). -/
theorem validation_failure_leaves_files :
    (∀ (env : Env) (k : WaveConsts) (argv : List (List Char)),
      (argv.length ≠ 4 ∨
        (toneOutOfRange (env.atof (argv.getD 2 [])) = true ∧ env.atof (argv.getD 2 []) ≠ .nan) ∨
        ∃ c ∈ argv.getD 3 [], isDtmfChar c = false) →
      main env k argv = .usage ∧
      (main env k argv).printed = show_usage ∧
      (main env k argv).status = some (-1) ∧
      (main env k argv).status ≠ some 0 ∧
      (main env k argv).reachesOpen = some false ∧
      (main env k argv).fileLength = none ∧
      ∀ fs : Files, (main env k argv).filesAfter fs = some fs) ∧
    main (exampleEnv (literal 5 10)) exampleConsts
      [['d', 't', 'm', 'f'], ['o', 'u', 't', '.', 'w', 'a', 'v'], ['0', '.', '5']] = .usage ∧
    (toneOutOfRange (literal 5 100) = true ∧
      main (exampleEnv (literal 5 100)) exampleConsts
        [['d', 't', 'm', 'f'], ['o', 'u', 't', '.', 'w', 'a', 'v'], ['0', '.', '0', '5'],
          ['1', '2', '3']] = .usage) ∧
    (toneOutOfRange (literal 5 10) = false ∧
      main (exampleEnv (literal 5 10)) exampleConsts
        [['d', 't', 'm', 'f'], ['o', 'u', 't', '.', 'w', 'a', 'v'], ['0', '.', '5'],
          ['1', '2', 'a', '3']] = .usage) ∧
    toneOutOfRange .nan = true ∧
    toneLengthRejected .nan = false ∧
    (∀ (env : Env) (k : WaveConsts) (prog path tone digits : List Char),
      env.atof tone = .nan → (∀ c ∈ digits, isDtmfChar c = true) →
      main env k [prog, path, tone, digits] ≠ .usage ∧
      (main env k [prog, path, tone, digits]).printed ≠ show_usage ∧
      (env.headerAlloc = true → main env k [prog, path, tone, digits] = .undefined)) ∧
    (main (exampleEnv .nan) exampleConsts
      [['d', 't', 'm', 'f'], ['o', 'u', 't', '.', 'w', 'a', 'v'], ['n', 'a', 'n'],
        ['1', '2', '3']] = .undefined ∧
      (main (exampleEnv .nan) exampleConsts
        [['d', 't', 'm', 'f'], ['o', 'u', 't', '.', 'w', 'a', 'v'], ['n', 'a', 'n'],
          ['1', '2', '3']]).status ≠ some (-1) ∧
      (main (exampleEnv .nan) exampleConsts
        [['d', 't', 'm', 'f'], ['o', 'u', 't', '.', 'w', 'a', 'v'], ['n', 'a', 'n'],
          ['1', '2', '3']]).reachesOpen ≠ some false) := by
  refine ⟨?_, by decide, ⟨by decide, by decide⟩, ⟨by decide, by decide⟩, by decide,
    by decide, ?_, by decide, by decide, by decide⟩
  · intro env k argv h
    have hm : main env k argv = .usage := by
      apply main_usage_of_failure
      rcases h with h | ⟨h1, h2⟩ | h
      · exact Or.inl h
      · exact Or.inr (Or.inl (rejected_of_out_of_range _ h2 h1))
      · exact Or.inr (Or.inr h)
    rw [hm]
    exact ⟨rfl, rfl, rfl, by decide, rfl, rfl, fun _ => rfl⟩
  · intro env k prog path tone digits htone hdigits
    have hm := main_of_nan env k prog path tone digits htone hdigits
    cases halloc : env.headerAlloc with
    | false =>
      rw [halloc] at hm
      simp only [if_true] at hm
      rw [hm]
      exact ⟨by simp, by decide, by simp⟩
    | true =>
      rw [halloc] at hm
      simp only [Bool.true_eq_false, if_false] at hm
      rw [hm]
      exact ⟨by simp, by decide, fun _ => rfl⟩

/-- C12: on a valid input with the header allocated, the header `main` builds has
`BlockAlign = NumChannels * BYTES_PER_SAMPLE`, `ByteRate = SampleRate * BlockAlign`,
`BitsPerSample = BYTES_PER_SAMPLE * 8`, `SubChunk1Size = 16` and the tags `RIFF`, `WAVE`,
`fmt ` and `data`; the header of every other run with the same constants has the same
values in these fields, whatever its tone length and digit string are; and it is the
header of the file when `main` writes one. The sample rate is an `int` that is not
negative. -/
theorem header_format_fields (env : Env) (k : WaveConsts)
    (prog path tone digits : List Char) (spd : Int)
    (hrate0 : 0 ≤ k.SAMPLE_RATE) (hrate1 : k.SAMPLE_RATE < 2 ^ 31)
    (htone : toneLengthRejected (env.atof tone) = false)
    (hdigits : ∀ c ∈ digits, isDtmfChar c = true)
    (hspd : samplesPerDigitOf k (env.atof tone) = some spd)
    (hhdr : env.headerAlloc = true) :
    ∃ p, prepare env k [prog, path, tone, digits] = .inr p ∧
      p.header.NumChannels = NUM_CHANNELS ∧
      p.header.SampleRate = k.SAMPLE_RATE ∧
      p.header.BlockAlign = p.header.NumChannels * BYTES_PER_SAMPLE ∧
      p.header.ByteRate = p.header.SampleRate * p.header.BlockAlign ∧
      p.header.BitsPerSample = BYTES_PER_SAMPLE * 8 ∧
      p.header.SubChunk1Size = 16 ∧
      p.header.ChunkID = ['R', 'I', 'F', 'F'] ∧
      p.header.Format = ['W', 'A', 'V', 'E'] ∧
      p.header.SubChunk1ID = ['f', 'm', 't', ' '] ∧
      p.header.SubChunk2ID = ['d', 'a', 't', 'a'] ∧
      (∀ (env2 : Env) (argv2 : List (List Char)) (p2 : Prepared),
        prepare env2 k argv2 = .inr p2 →
          p2.header.BlockAlign = p.header.BlockAlign ∧
          p2.header.ByteRate = p.header.ByteRate ∧
          p2.header.BitsPerSample = p.header.BitsPerSample ∧
          p2.header.SubChunk1Size = p.header.SubChunk1Size ∧
          p2.header.ChunkID = p.header.ChunkID ∧
          p2.header.Format = p.header.Format ∧
          p2.header.SubChunk1ID = p.header.SubChunk1ID ∧
          p2.header.SubChunk2ID = p.header.SubChunk2ID) ∧
      (∀ (file : List Char) (h : WAVEFILE) (hb : Nat) (cells : List (Option Int)) (db : Nat),
        main env k [prog, path, tone, digits] = .wrote file h hb cells db → h = p.header) := by
  have hp := prepare_of_valid env k prog path tone digits spd htone hdigits hspd hhdr
  obtain ⟨f1, -, f3, f4, f5, f6, f7, f8, f9, f10, f11⟩ :=
    buildHeader_format k (totalBytesOf spd digits.length) hrate0 hrate1
  refine ⟨_, hp, f1, f3, f4, f5, f6, f7, f8, f9, f10, f11, ?_, ?_⟩
  · intro env2 argv2 p2 hp2
    rw [prepare_inr_header env2 k argv2 p2 hp2]
    obtain ⟨g1, -, g3, g4, g5, g6, g7, g8, g9, g10, g11⟩ :=
      buildHeader_format k p2.totalBytes hrate0 hrate1
    simp only
    refine ⟨?_, ?_, ?_, ?_, ?_, ?_, ?_, ?_⟩
    · rw [g4, f4, g1, f1]
    · rw [g5, f5, g3, f3, g4, f4, g1, f1]
    · rw [g6, f6]
    · rw [g7, f7]
    · rw [g8, f8]
    · rw [g9, f9]
    · rw [g10, f10]
    · rw [g11, f11]
  · intro file h hb cells db hw
    obtain ⟨p2, hp2, hh⟩ := main_wrote_header env k _ file h hb cells db hw
    rw [hp] at hp2
    simp only [Sum.inr.injEq] at hp2
    rw [hh, ← hp2]

/-- C12, at `out.wav 0.2 "5"` and 44100 Hz: `BlockAlign = 2`, `ByteRate = 88200`. -/
theorem header_format_fields_witness :
    samplesPerDigitOf exampleConsts (literal 2 10) = some 8820 ∧
    ∃ p, prepare (exampleEnv (literal 2 10)) exampleConsts
        [['d', 't', 'm', 'f'], ['o', 'u', 't', '.', 'w', 'a', 'v'], ['0', '.', '2'], ['5']]
        = .inr p ∧
      p.header.NumChannels = NUM_CHANNELS ∧
      p.header.SampleRate = exampleConsts.SAMPLE_RATE ∧
      p.header.BlockAlign = p.header.NumChannels * BYTES_PER_SAMPLE ∧
      p.header.ByteRate = p.header.SampleRate * p.header.BlockAlign :=
  ⟨by decide,
    match header_format_fields (exampleEnv (literal 2 10)) exampleConsts
      ['d', 't', 'm', 'f'] ['o', 'u', 't', '.', 'w', 'a', 'v'] ['0', '.', '2'] ['5'] 8820
      (by decide) (by decide) (by decide) (by decide) (by decide) rfl with
    | ⟨p, hp, h1, h2, h3, h4, _⟩ => ⟨p, hp, h1, h2, h3, h4⟩⟩

/-- C16: `get_freqs` is injective on the twelve tone characters `0-9 * #`; for each of
them it returns a low frequency among 697, 770, 852, 941 and a high frequency among
1209, 1336, 1477, both non-zero; so for a character that passes validation the test
`f1 == 0 && f2 == 0` of the silence branch holds exactly when the character is `-`. -/
theorem get_freqs_tone_characters (c d : Char)
    (hc : isDtmfChar c = true) (hd : isDtmfChar d = true) :
    (c ≠ '-' → d ≠ '-' → get_freqs c = get_freqs d → c = d) ∧
    (c ≠ '-' →
      (get_freqs c).1 ∈ [(697 : Int), 770, 852, 941] ∧
      (get_freqs c).2 ∈ [(1209 : Int), 1336, 1477] ∧
      (get_freqs c).1 ≠ 0 ∧ (get_freqs c).2 ≠ 0) ∧
    (((get_freqs c).1 = 0 ∧ (get_freqs c).2 = 0) ↔ c = '-') := by
  have h1 := isDtmfChar_cases c hc
  have h2 := isDtmfChar_cases d hd
  simp only [List.mem_cons, List.mem_singleton, List.not_mem_nil, or_false] at h1 h2
  refine ⟨?_, ?_, ?_⟩
  · rcases h1 with rfl | rfl | rfl | rfl | rfl | rfl | rfl | rfl | rfl | rfl | rfl | rfl | rfl <;>
      rcases h2 with rfl | rfl | rfl | rfl | rfl | rfl | rfl | rfl | rfl | rfl | rfl | rfl | rfl <;>
      decide
  · rcases h1 with rfl | rfl | rfl | rfl | rfl | rfl | rfl | rfl | rfl | rfl | rfl | rfl | rfl <;>
      decide
  · rcases h1 with rfl | rfl | rfl | rfl | rfl | rfl | rfl | rfl | rfl | rfl | rfl | rfl | rfl <;>
      decide

/-- C16, for the characters `5` and `#`. -/
theorem get_freqs_tone_characters_witness :
    (isDtmfChar '5' = true ∧ isDtmfChar '#' = true) ∧
    ('5' ≠ '-' → '#' ≠ '-' → get_freqs '5' = get_freqs '#' → '5' = '#') ∧
    ('5' ≠ '-' →
      (get_freqs '5').1 ∈ [(697 : Int), 770, 852, 941] ∧
      (get_freqs '5').2 ∈ [(1209 : Int), 1336, 1477] ∧
      (get_freqs '5').1 ≠ 0 ∧ (get_freqs '5').2 ≠ 0) ∧
    (((get_freqs '5').1 = 0 ∧ (get_freqs '5').2 = 0) ↔ '5' = '-') :=
  ⟨⟨by decide, by decide⟩, get_freqs_tone_characters '5' '#' (by decide) (by decide)⟩

/-- C13, as amended: for a sample rate that fits an `int` and every accepted tone length
`t = m * 2 ^ e` other than NaN, `samplesPerDigit` is the integer part (truncation toward
zero) of the `double` product `SAMPLE_RATE * t`, which is the exact product rounded to
the nearest `double`: it lies between 0 and the sample rate, and it is the integer part
of the exact product or, when the rounding carries an exact product that is not whole
up to the next whole number, that number; when the exact product with the parsed `t`
is a whole number, `samplesPerDigit` is that number. -/
theorem samples_per_digit_truncation (k : WaveConsts) (t : CDouble)
    (h0 : 0 ≤ k.SAMPLE_RATE) (h1 : k.SAMPLE_RATE < 2 ^ 31)
    (ht : toneLengthRejected t = false) (hnan : t ≠ .nan) :
    ∃ m e m2 e2 spd, t = .fin m e ∧ 0 < m ∧
      CDouble.mul (CDouble.ofInt k.SAMPLE_RATE) t = .fin m2 e2 ∧
      samplesPerDigitOf k t = some spd ∧
      spd = (if 0 ≤ e2 then m2 * 2 ^ e2.toNat else Int.tdiv m2 ((2 ^ (-e2).toNat : Nat) : Int)) ∧
      0 ≤ spd ∧ spd ≤ k.SAMPLE_RATE ∧
      (spd = k.SAMPLE_RATE * m * 2 ^ e.toNat / 2 ^ (-e).toNat ∨
        (spd = k.SAMPLE_RATE * m * 2 ^ e.toNat / 2 ^ (-e).toNat + 1 ∧
          ¬ (2 : Int) ^ (-e).toNat ∣ k.SAMPLE_RATE * m * 2 ^ e.toNat)) ∧
      ((2 : Int) ^ (-e).toNat ∣ k.SAMPLE_RATE * m * 2 ^ e.toNat →
        spd * 2 ^ (-e).toNat = k.SAMPLE_RATE * m * 2 ^ e.toNat) := by
  obtain ⟨spd, hspd, hlo, hhi⟩ := samplesPerDigit_defined k t h0 h1 ht hnan
  rcases accepted_tone_is_positive t ht with rfl | ⟨m, e, rfl, hm⟩
  · exact absurd rfl hnan
  have hgt : CDouble.gt (.fin m e) (literal 1 1) = false := by
    unfold toneLengthRejected at ht
    rw [Bool.or_eq_false_iff] at ht
    exact ht.2
  have hle := tone_at_most_one m e hm hgt
  obtain ⟨N, hN⟩ := Int.eq_ofNat_of_zero_le h0
  obtain ⟨M, hM⟩ := Int.eq_ofNat_of_zero_le (le_of_lt hm)
  have hNlt : N < 2 ^ 31 := by
    rw [hN] at h1
    exact_mod_cast h1
  have hMn : m.toNat = M := by rw [hM]; exact Int.toNat_ofNat M
  rw [hMn] at hle
  have hb : (N * M) * 2 ^ e.toNat ≤ N * 2 ^ (-e).toNat := by
    rw [Nat.mul_assoc]
    exact Nat.mul_le_mul_left N hle
  obtain ⟨m2, e2, hr, hcases⟩ := round_trunc (N * M) N e hNlt hb
  have hprod : k.SAMPLE_RATE * m = ((N * M : Nat) : Int) := by
    rw [hN, hM]
    push_cast
    rfl
  have hmul : CDouble.mul (CDouble.ofInt k.SAMPLE_RATE) (.fin m e) = .fin m2 e2 := by
    rw [ofInt_of_lt _ h0 (by omega)]
    simp only [CDouble.mul]
    rw [hprod, Int.zero_add, hr]
  have hspd2 : spd = CDouble.trunc m2 e2 := by
    unfold samplesPerDigitOf at hspd
    rw [hmul] at hspd
    simp only [castInt, CDouble.toIntRange] at hspd
    split_ifs at hspd
    exact (Option.some.inj hspd).symm
  have hX : k.SAMPLE_RATE * m * 2 ^ e.toNat = ((N * M * 2 ^ e.toNat : Nat) : Int) := by
    rw [hprod]
    push_cast
    rfl
  have hD : (2 : Int) ^ (-e).toNat = ((2 ^ (-e).toNat : Nat) : Int) := by
    push_cast
    rfl
  have hfloor : spd = k.SAMPLE_RATE * m * 2 ^ e.toNat / 2 ^ (-e).toNat ∨
      (spd = k.SAMPLE_RATE * m * 2 ^ e.toNat / 2 ^ (-e).toNat + 1 ∧
        ¬ (2 : Int) ^ (-e).toNat ∣ k.SAMPLE_RATE * m * 2 ^ e.toNat) := by
    rw [hX, hD, ← Int.ofNat_ediv, hspd2, Int.natCast_dvd_natCast]
    exact hcases
  refine ⟨m, e, m2, e2, spd, rfl, hm, hmul, hspd, ?_, hlo, hhi, hfloor, ?_⟩
  · rw [hspd2, trunc_eq_tdiv]
  · intro hw
    rcases hfloor with hc | ⟨-, hnd⟩
    · rw [hc]
      exact Int.ediv_mul_cancel hw
    · exact absurd hw hnd

/-- C13, as amended, at 44100 Hz: the tone lengths 0.2 and 0.3 give 8820 and 13230. -/
theorem samples_per_digit_truncation_witness :
    (toneLengthRejected (literal 3 10) = false ∧ literal 3 10 ≠ .nan) ∧
    samplesPerDigitOf exampleConsts (literal 2 10) = some 8820 ∧
    samplesPerDigitOf exampleConsts (literal 3 10) = some 13230 ∧
    ∃ m e m2 e2 spd, literal 3 10 = .fin m e ∧ 0 < m ∧
      CDouble.mul (CDouble.ofInt exampleConsts.SAMPLE_RATE) (literal 3 10) = .fin m2 e2 ∧
      samplesPerDigitOf exampleConsts (literal 3 10) = some spd ∧
      spd = (if 0 ≤ e2 then m2 * 2 ^ e2.toNat else Int.tdiv m2 ((2 ^ (-e2).toNat : Nat) : Int)) ∧
      0 ≤ spd ∧ spd ≤ exampleConsts.SAMPLE_RATE ∧
      (spd = exampleConsts.SAMPLE_RATE * m * 2 ^ e.toNat / 2 ^ (-e).toNat ∨
        (spd = exampleConsts.SAMPLE_RATE * m * 2 ^ e.toNat / 2 ^ (-e).toNat + 1 ∧
          ¬ (2 : Int) ^ (-e).toNat ∣ exampleConsts.SAMPLE_RATE * m * 2 ^ e.toNat)) ∧
      ((2 : Int) ^ (-e).toNat ∣ exampleConsts.SAMPLE_RATE * m * 2 ^ e.toNat →
        spd * 2 ^ (-e).toNat = exampleConsts.SAMPLE_RATE * m * 2 ^ e.toNat) :=
  ⟨⟨by decide, by decide⟩, by decide, by decide,
    samples_per_digit_truncation exampleConsts (literal 3 10) (by decide) (by decide)
      (by decide) (by decide)⟩

/-- C13 as stated fails: at 44100 Hz the accepted tone length 0.7 has the whole product
30870 with the sample rate, and `samplesPerDigit` is 30869. Nor is `samplesPerDigit`
the integer part of the exact product with the parsed tone length: for 0.3, parsed as
`5404319552844595 * 2 ^ (-54)`, that integer part is 13229 and `samplesPerDigit` is
13230. -/
theorem samples_per_digit_not_whole_product :
    toneLengthRejected ((exampleEnv (literal 7 10)).atof ['0', '.', '7']) = false ∧
    exampleConsts.SAMPLE_RATE * 7 = 30870 * 10 ∧
    samplesPerDigitOf exampleConsts (literal 7 10) = some 30869 ∧
    literal 3 10 = .fin 5404319552844595 (-54) ∧
    exampleConsts.SAMPLE_RATE * 5404319552844595 / 2 ^ 54 = 13229 ∧
    samplesPerDigitOf exampleConsts (literal 3 10) = some 13230 := by
  decide


/-- C14, the failing input: at 44100 Hz with the tone length `1.0` and 50000 characters
`5` (a valid input), `samplesPerDigit` is 44100 and the loops of lines 119-146 make
`44100 * 50000 = 2205000000` assignments, `sampleIndex` counting from 0; the `int`
product of line 97 wraps to `totalSamples = -2089967296` and that of line 98 to
`totalBytes = 115032704`, so that the buffer `malloc` returns has 57516352 cells.
The assignment with `sampleIndex = 57516352` is past the end of the buffer, and
`sampleIndex` cannot end equal to `totalSamples`. -/
theorem generation_overruns_buffer :
    toneLengthRejected ((exampleEnv (literal 1 1)).atof ['1', '.', '0']) = false ∧
    (∀ c ∈ List.replicate 50000 '5', isDtmfChar c = true) ∧
    ∃ p, prepare (exampleEnv (literal 1 1)) exampleConsts
        [['d', 't', 'm', 'f'], ['o', 'u', 't', '.', 'w', 'a', 'v'], ['1', '.', '0'],
          List.replicate 50000 '5'] = .inr p ∧
      p.samplesPerDigit = 44100 ∧ p.numDigits = 50000 ∧
      p.samplesPerDigit * (p.numDigits : Int) = 2205000000 ∧
      p.totalSamples = -2089967296 ∧
      p.totalBytes = 115032704 ∧
      (exampleEnv (literal 1 1)).dataAlloc (toSizeT p.totalBytes) = true ∧
      toSizeT p.totalBytes / 2 = 57516352 ∧
      generate (exampleEnv (literal 1 1)) exampleConsts p.phoneString p.numDigits
        p.samplesPerDigit (toSizeT p.totalBytes) = none ∧
      main (exampleEnv (literal 1 1)) exampleConsts
        [['d', 't', 'm', 'f'], ['o', 'u', 't', '.', 'w', 'a', 'v'], ['1', '.', '0'],
          List.replicate 50000 '5'] = .undefined := by
  have hv := replicate_valid '5' (by decide) 50000
  have hlen : (List.replicate 50000 '5').length = 50000 := List.length_replicate _ _
  have hover := main_undefined_of_overrun (exampleEnv (literal 1 1)) exampleConsts
    ['d', 't', 'm', 'f'] ['o', 'u', 't', '.', 'w', 'a', 'v'] ['1', '.', '0']
    (List.replicate 50000 '5') 44100 (by decide) hv (by decide) rfl
    (by rw [hlen]; decide) (by rw [hlen]; decide)
  rw [hlen] at hover
  refine ⟨by decide, hv, _,
    prepare_of_valid (exampleEnv (literal 1 1)) exampleConsts _ _ ['1', '.', '0']
      (List.replicate 50000 '5') 44100 (by decide) hv (by decide) rfl,
    rfl, ?_, ?_, ?_, ?_, ?_, ?_, ?_, hover.2⟩
  · exact hlen
  · show (44100 : Int) * (((List.replicate 50000 '5').length : Nat) : Int) = 2205000000
    rw [hlen]
    decide
  · show totalSamplesOf 44100 (List.replicate 50000 '5').length = -2089967296
    rw [hlen]
    decide
  · show totalBytesOf 44100 (List.replicate 50000 '5').length = 115032704
    rw [hlen]
    decide
  · show (exampleEnv (literal 1 1)).dataAlloc
      (toSizeT (totalBytesOf 44100 (List.replicate 50000 '5').length)) = true
    rw [hlen]
    decide
  · have e : toSizeT (totalBytesOf 44100 50000) / 2 = 57516352 := by decide
    rw [hlen]
    exact e
  · show generate (exampleEnv (literal 1 1)) exampleConsts (List.replicate 50000 '5')
      (List.replicate 50000 '5').length 44100
      (toSizeT (totalBytesOf 44100 (List.replicate 50000 '5').length)) = none
    rw [hlen]
    exact hover.1

end DTMF
